import Mathlib

/-!
# cifuzz bundler: artifact assembly

A shallow embedding of `internal/bundler/libfuzzer_bundler.go`, the parts of
`internal/bundler/bundler.go` it relies on, and the metadata document of
`internal/bundler/archive/metadata.go`.  Paths are Go strings; the host file
system is a read-only snapshot (`Host`); the archive writer is the list of
entries written so far; a YAML document is its node tree.
-/

namespace Cifuzz

deriving instance DecidableEq for Except

/-! ## Go standard library: `strings`, `path/filepath`, `regexp` -/

/-- Go `filepath.Separator` of the host named by `runtime.GOOS`. -/
def separator (goos : String) : Char :=
  if goos = "windows" then '\\' else '/'

/-- Go `os.IsPathSeparator`. -/
def isPathSeparator (goos : String) (c : Char) : Bool :=
  c == '/' || (goos == "windows" && c == '\\')

/-- First piece and remaining pieces of a character list cut at the characters
satisfying `p`. -/
def splitAux (p : Char → Bool) : List Char → List Char × List (List Char)
  | [] => ([], [])
  | c :: cs =>
    let r := splitAux p cs
    if p c then ([], r.1 :: r.2) else (c :: r.1, r.2)

/-- All pieces of a character list cut at the characters satisfying `p`
(Go `strings.Split` for a one-character separator). -/
def splitChars (p : Char → Bool) (cs : List Char) : List (List Char) :=
  (splitAux p cs).1 :: (splitAux p cs).2

/-- Go `strings.Join` on character lists. -/
def joinChars (sep : List Char) : List (List Char) → List Char
  | [] => []
  | [w] => w
  | w :: ws => w ++ sep ++ joinChars sep ws

/-- Go `strings.Join`. -/
def stringsJoin (elems : List String) (sep : String) : String :=
  String.mk (joinChars sep.data (elems.map String.data))

/-- Go `strings.ToUpper`, on the ASCII letters (sanitizer names are ASCII). -/
def stringsToUpper (s : String) : String :=
  String.mk (s.data.map Char.toUpper)

/-- One step of the lexical processing of `filepath.Clean`: `stack` holds the
path elements kept so far, innermost first. -/
def cleanStep (rooted : Bool) (stack : List (List Char)) (c : List Char) :
    List (List Char) :=
  if c = [] ∨ c = ['.'] then stack
  else if c = ['.', '.'] then
    match stack with
    | [] => if rooted then [] else [c]
    | top :: rest => if top = ['.', '.'] then c :: stack else rest
  else c :: stack

/-- Go `filepath.Clean` (volume names are not modelled). -/
def filepathClean (goos : String) (path : String) : String :=
  let rooted : Bool :=
    match path.data with
    | c :: _ => isPathSeparator goos c
    | [] => false
  let comps := (splitChars (isPathSeparator goos) path.data).foldl (cleanStep rooted) []
  let body := joinChars [separator goos] comps.reverse
  let out := if rooted then separator goos :: body else body
  if out = [] then "." else String.mk out

/-- Go `filepath.Join`: the elements from the first non-empty one on are joined
with the separator and the result is cleaned (the special cases of Windows
volume names are not modelled). -/
def filepathJoin (goos : String) (elem : List String) : String :=
  match elem.dropWhile (fun e => e = "") with
  | [] => ""
  | es => filepathClean goos (stringsJoin es (String.mk [separator goos]))

/-- Go `filepath.Base`. -/
def filepathBase (goos : String) (path : String) : String :=
  if path = "" then "."
  else
    let stripped := path.data.reverse.dropWhile (isPathSeparator goos)
    let last := (stripped.takeWhile (fun c => !isPathSeparator goos c)).reverse
    if last = [] then String.mk [separator goos] else String.mk last

/-- Go `filepath.Dir`. -/
def filepathDir (goos : String) (path : String) : String :=
  filepathClean goos
    (String.mk (path.data.reverse.dropWhile (fun c => !isPathSeparator goos c)).reverse)

/-- Elements of a cleaned path. -/
def pathElements (goos : String) (path : String) : List (List Char) :=
  (splitChars (fun c => c == separator goos) path.data).filter (fun w => w ≠ [])

/-- Drops the longest common run of leading elements of two element lists. -/
def dropCommon : List (List Char) → List (List Char) → List (List Char) × List (List Char)
  | b :: bs, t :: ts => if b = t then dropCommon bs ts else (b :: bs, t :: ts)
  | bs, ts => (bs, ts)

/-- Go `filepath.Rel` (volume names are not modelled). -/
def filepathRel (goos : String) (basepath targpath : String) : Except String String :=
  let base := filepathClean goos basepath
  let targ := filepathClean goos targpath
  if targ = base then .ok "."
  else
    let base := if base = "." then "" else base
    let baseSlashed : Bool := base.data.head? = some (separator goos)
    let targSlashed : Bool := targ.data.head? = some (separator goos)
    let failure := "Rel: can't make " ++ targpath ++ " relative to " ++ basepath
    if baseSlashed ≠ targSlashed then .error failure
    else
      match dropCommon (pathElements goos base) (pathElements goos targ) with
      | (b :: bs, t :: ts) =>
        if b = ['.', '.'] then .error failure
        else .ok (String.mk (joinChars [separator goos]
          ((b :: bs).map (fun _ => ['.', '.']) ++ t :: ts)))
      | (b :: bs, []) =>
        .ok (String.mk (joinChars [separator goos] ((b :: bs).map (fun _ => ['.', '.']))))
      | ([], ts) => .ok (String.mk (joinChars [separator goos] ts))

/-- Regular expressions as far as `versionedLibraryRegexp` builds them. -/
inductive Regex where
  | none : Regex
  | eps : Regex
  | lit : Char → Regex
  | dot : Regex
  | cls : (Char → Bool) → Regex
  | seq : Regex → Regex → Regex
  | alt : Regex → Regex → Regex
  | star : Regex → Regex

/-- Whether a regular expression matches the empty string. -/
def Regex.nullable : Regex → Bool
  | .none => false
  | .eps => true
  | .lit _ => false
  | .dot => false
  | .cls _ => false
  | .seq r s => r.nullable && s.nullable
  | .alt r s => r.nullable || s.nullable
  | .star _ => true

/-- Brzozowski derivative; `.` does not match a newline, as in Go. -/
def Regex.deriv (c : Char) : Regex → Regex
  | .none => .none
  | .eps => .none
  | .lit d => if c = d then .eps else .none
  | .dot => if c = '\n' then .none else .eps
  | .cls p => if p c then .eps else .none
  | .seq r s =>
    if r.nullable then .alt (.seq (r.deriv c) s) (s.deriv c) else .seq (r.deriv c) s
  | .alt r s => .alt (r.deriv c) (s.deriv c)
  | .star r => .seq (r.deriv c) (.star r)

/-- Whether some leading part of the characters is matched. -/
def Regex.matchesStart (r : Regex) : List Char → Bool
  | [] => r.nullable
  | c :: cs => r.nullable || (r.deriv c).matchesStart cs

/-- Whether some part of the characters is matched. -/
def Regex.matchesSome (r : Regex) : List Char → Bool
  | [] => r.matchesStart []
  | c :: cs => r.matchesStart (c :: cs) || r.matchesSome cs

/-- Go `(*regexp.Regexp).MatchString`: an unanchored match. -/
def Regex.MatchString (r : Regex) (s : String) : Bool :=
  r.matchesSome s.data

/-- The expression matching exactly the given characters
(`regexp.QuoteMeta` of a literal). -/
def Regex.literal : List Char → Regex
  | [] => .eps
  | c :: cs => .seq (.lit c) (Regex.literal cs)

/-! ## Helpers of packages that are not among the sources -/

/-- Snapshot of the host the bundler runs on: the platform, the file system and
the results of the helper packages `fileutil` and `envutil`, whose code is not
among the sources and which are therefore taken as given. -/
structure Host where
  /-- Go `runtime.GOOS`. -/
  goos : String
  /-- Result of `fileutil.IsBelow(path, dir)`. -/
  isBelow : String → String → Except String Bool
  /-- Result of `fileutil.Exists(path)`. -/
  fileExists : String → Except String Bool
  /-- Result of `fileutil.IsSystemLibrary(path)`. -/
  isSystemLibrary : String → Bool
  /-- Bytes of the file at a path (symlinks followed), `none` when it cannot be read. -/
  readFile : String → Option (List UInt8)
  /-- For a readable directory, the path relative to it of every file and of
  every empty directory below it, each flagged `true` when it is a directory. -/
  walkDir : String → Option (List (String × Bool))
  /-- Lower-case hexadecimal SHA-256 digest (`crypto/sha256` printed with `%x`). -/
  sha256Hex : List UInt8 → String
  /-- A SHA-256 digest has 64 hexadecimal characters. -/
  sha256Hex_length : ∀ content, (sha256Hex content).length = 64
  /-- Result of `envutil.Setenv(env, key, value)`. -/
  setenv : List String → String → String → Except String (List String)

/-- Go `sliceutil.Contains`. -/
def sliceutilContains (slice : List String) (element : String) : Bool :=
  slice.any (fun e => e = element)

/-! ## The archive writer -/

/-- Kind of an archive entry. -/
inductive EntryKind where
  | file
  | dir
  | hardLink
deriving DecidableEq, Repr

/-- An archive entry: archive-relative path, kind and source reference (the
source path of a file or directory, the existing archive path of a hard link). -/
structure Entry where
  path : String
  kind : EntryKind
  source : String
deriving DecidableEq, Repr

/-- State of an archive writer: the entries written so far, oldest first. -/
abbrev Archive := List Entry

/-- Modelled from the spec: `ArchiveWriter.HasFileEntry` (package
`internal/bundler/archive` has only `metadata.go` among the sources) reports
whether a path was already written. -/
def HasFileEntry (w : Archive) (archivePath : String) : Bool :=
  w.any (fun e => e.path = archivePath)

/-- Modelled from the spec: `ArchiveWriter.GetSourcePath` returns the original
source path that produced an existing entry. -/
def GetSourcePath (w : Archive) (archivePath : String) : String :=
  match w.find? (fun e => e.path = archivePath) with
  | some e => e.source
  | none => ""

/-- Modelled from the spec: `ArchiveWriter.WriteFile` copies a file into the
archive at the given path and fails if the source cannot be read. -/
def WriteFile (h : Host) (w : Archive) (archivePath sourcePath : String) :
    Except String Archive :=
  match h.readFile sourcePath with
  | none => .error ("failed to read " ++ sourcePath)
  | some _ => .ok (w ++ [⟨archivePath, .file, sourcePath⟩])

/-- Modelled from the spec: `ArchiveWriter.WriteDir` recursively adds every file
under the source directory, preserving the relative structure below the archive
path, including empty directories. -/
def WriteDir (h : Host) (w : Archive) (archivePath sourceDir : String) :
    Except String Archive :=
  match h.walkDir sourceDir with
  | none => .error ("failed to read " ++ sourceDir)
  | some items =>
    .ok (w ++ items.map (fun it =>
      ⟨filepathJoin h.goos [archivePath, it.1],
       if it.2 then EntryKind.dir else EntryKind.file,
       filepathJoin h.goos [sourceDir, it.1]⟩))

/-- Modelled from the spec: `ArchiveWriter.WriteHardLink` records a second name
for bytes already present in the archive and fails if the existing archive path
has no prior entry. -/
def WriteHardLink (w : Archive) (existingArchivePath newArchivePath : String) :
    Except String Archive :=
  if HasFileEntry w existingArchivePath then
    .ok (w ++ [⟨newArchivePath, .hardLink, existingArchivePath⟩])
  else .error ("invalid hard link " ++ newArchivePath)

/-! ## Data model -/

/-- Values of `Opts.BuildSystem` (the constants of package `config`). -/
inductive BuildSystem where
  | bazel
  | cmake
  | maven
  | gradle
  | other
  | unknown (name : String)
deriving DecidableEq, Repr

/-- The fields of `bundler.Opts` read by the libFuzzer bundler. -/
structure Opts where
  BuildSystem : BuildSystem
  Dictionary : String
  SeedCorpusDirs : List String
  Env : List String
  EngineArgs : List String
  /-- The value of `uint(Timeout.Seconds())`. -/
  TimeoutSeconds : Nat
  DockerImage : String
deriving DecidableEq, Repr

/-- Go `build.BuildResult`. -/
structure BuildResult where
  Executable : String
  GeneratedCorpus : String
  SeedCorpus : String
  Dictionary : String
  BuildDir : String
  RuntimeDeps : List String
deriving DecidableEq, Repr

/-- Go `build.CBuildResult`. -/
structure CBuildResult extends BuildResult where
  Name : String
  Sanitizers : List String
  ProjectDir : String
deriving DecidableEq, Repr

/-- Go `archive.EngineOptions`. -/
structure EngineOptions where
  Flags : List String
  Env : List String
deriving DecidableEq, Repr

/-- Go `archive.Fuzzer`. -/
structure Fuzzer where
  Target : String
  Name : String
  Path : String
  Engine : String
  Sanitizer : String
  ProjectDir : String
  Dictionary : String
  Seeds : String
  LibraryPaths : List String
  RuntimePaths : List String
  EngineOptions : EngineOptions
  MaxRunTime : Nat
deriving DecidableEq, Repr

/-- Errors of the bundler. -/
inductive BundleError where
  /-- An error returned by a helper, the standard library or the archive writer. -/
  | helper (msg : String)
  /-- The executable is not below the build directory. -/
  | notBelow (executable buildDir : String)
  /-- Two external runtime dependencies are staged at the same archive path. -/
  | conflict (name dep existing : String)
  /-- The budget of the search loop of `prepareSeeds` is used up. -/
  | budget
deriving DecidableEq, Repr

/-- Text of an error; `quote` renders the `%q` verb of `fmt`. -/
def BundleError.message (quote : String → String) : BundleError → String
  | .helper msg => msg
  | .notBelow executable buildDir =>
    "fuzz test executable (" ++ executable ++ ") is not below build directory ("
      ++ buildDir ++ ")"
  | .conflict name dep existing =>
    "fuzz test " ++ quote name ++ " has conflicting runtime dependencies: "
      ++ dep ++ " and " ++ existing
  | .budget => "seed directory search did not finish"

/-! ## `libfuzzer_bundler.go` -/

/-- Go `versionedLibraryRegexp`: the expression
`".*/" + regexp.QuoteMeta(unversionedBasename) + "[.0-9]*"`. -/
def versionedLibraryRegexp (unversionedBasename : String) : Regex :=
  .seq (.star .dot)
    (.seq (.lit '/')
      (.seq (Regex.literal unversionedBasename.data)
        (.star (.cls (fun c => c == '.' || ('0' ≤ c && c ≤ '9'))))))

/-- Go `wellKnownSystemLibraries[goos]`: the table has the key `"linux"` only. -/
def wellKnownSystemLibraries (goos : String) : List Regex :=
  if goos = "linux" then
    [versionedLibraryRegexp "ld-linux-x86-64.so",
     versionedLibraryRegexp "libc.so",
     versionedLibraryRegexp "libgcc_s.so",
     versionedLibraryRegexp "libm.so",
     versionedLibraryRegexp "libstdc++.so"]
  else []

/-- Go `isCoverageBuild`. -/
def isCoverageBuild (sanitizers : List String) : Bool :=
  sanitizers.length == 1 && sanitizers.head? == some "coverage"

/-- Go `fuzzTestPrefix`. -/
def fuzzTestPrefix (goos : String) (buildResult : CBuildResult) : String :=
  let sanitizerSegment := stringsJoin buildResult.Sanitizers "+"
  let sanitizerSegment := if sanitizerSegment = "" then "none" else sanitizerSegment
  let engine := if isCoverageBuild buildResult.Sanitizers then "replayer" else "libfuzzer"
  filepathJoin goos [engine, sanitizerSegment, buildResult.Name]

/-- Go `sha256sum`: the digest of the bytes of a file, an error when the file
cannot be opened or read. -/
def sha256sum (h : Host) (filename : String) : Except String String :=
  match h.readFile filename with
  | none => .error ("failed to read " ++ filename)
  | some content => .ok (h.sha256Hex content)

/-- The variables of `assembleArtifacts` that the loop over the runtime
dependencies reads and writes, together with the archive writer. -/
structure DepsState where
  archive : Archive
  libraryPaths : List String
  externalLibrariesPrefix : String
  systemDeps : List String
deriving DecidableEq, Repr

/-- Body of the loop `depsLoop` of `assembleArtifacts` for one runtime
dependency: the state after it and the error it returned with, if any. -/
def assembleDep (h : Host) (opts : Opts) (buildResult : CBuildResult)
    (st : DepsState) (dep : String) : DepsState × Option BundleError :=
  let buildArtifactsPrefix := filepathJoin h.goos [fuzzTestPrefix h.goos buildResult, "bin"]
  match h.isBelow dep buildResult.BuildDir with
  | .error e => (st, some (.helper e))
  | .ok true =>
    match filepathRel h.goos buildResult.BuildDir dep with
    | .error e => (st, some (.helper e))
    | .ok buildDirRelPath =>
      let libraryPath :=
        filepathJoin h.goos [buildArtifactsPrefix, filepathDir h.goos buildDirRelPath]
      let libraryPaths :=
        if opts.BuildSystem = .other ∧ ¬ sliceutilContains st.libraryPaths libraryPath then
          st.libraryPaths ++ [libraryPath]
        else st.libraryPaths
      let st := { st with libraryPaths := libraryPaths }
      match sha256sum h dep with
      | .error e => (st, some (.helper e))
      | .ok hash =>
        let casPath :=
          filepathJoin h.goos ["cas", hash.take 2, hash.drop 2, filepathBase h.goos dep]
        let linkPath := filepathJoin h.goos [buildArtifactsPrefix, buildDirRelPath]
        if HasFileEntry st.archive casPath then
          match WriteHardLink st.archive casPath linkPath with
          | .error e => (st, some (.helper e))
          | .ok w => ({ st with archive := w }, none)
        else
          match WriteFile h st.archive casPath dep with
          | .error e => (st, some (.helper e))
          | .ok w1 =>
            match WriteHardLink w1 casPath linkPath with
            | .error e => ({ st with archive := w1 }, some (.helper e))
            | .ok w2 => ({ st with archive := w2 }, none)
  | .ok false =>
    if (wellKnownSystemLibraries h.goos).any (fun re => re.MatchString dep) then
      (st, none)
    else if h.isSystemLibrary dep then
      ({ st with systemDeps := st.systemDeps ++ [dep] }, none)
    else
      let externalLibrariesPrefix :=
        filepathJoin h.goos [fuzzTestPrefix h.goos buildResult, "external_libs"]
      let st := { st with externalLibrariesPrefix := externalLibrariesPrefix }
      let archivePath := filepathJoin h.goos [externalLibrariesPrefix, filepathBase h.goos dep]
      if HasFileEntry st.archive archivePath then
        (st, some (.conflict buildResult.Name dep (GetSourcePath st.archive archivePath)))
      else
        match WriteFile h st.archive archivePath dep with
        | .error e => (st, some (.helper e))
        | .ok w => ({ st with archive := w }, none)

/-- The loop `depsLoop` of `assembleArtifacts` over the runtime dependencies; it
stops at the first error. -/
def depsLoop (h : Host) (opts : Opts) (buildResult : CBuildResult) :
    List String → DepsState → DepsState × Option BundleError
  | [], st => (st, none)
  | dep :: deps, st =>
    match assembleDep h opts buildResult st dep with
    | (st1, some e) => (st1, some e)
    | (st1, none) => depsLoop h opts buildResult deps st1

/-- The search loop of `prepareSeeds` for a target directory that was not used
before: `targetDir` is the current candidate and `i` the next number to try.
The loop of the source has no bound; `fuel` bounds the number of candidates
looked at, and `none` means the budget is used up. -/
def chooseTargetDir (targetDirs : List String) (basename : String) :
    Nat → Nat → String → Option String
  | 0, _, _ => none
  | fuel + 1, i, targetDir =>
    if sliceutilContains targetDirs targetDir then
      chooseTargetDir targetDirs basename fuel (i + 1) (basename ++ "-" ++ toString i)
    else some targetDir

/-- The loop of `prepareSeeds` over the seed corpus directories; `targetDirs`
are the target directories chosen so far. -/
def prepareSeedsLoop (h : Host) (archiveSeedsDir : String) :
    List String → List String → Archive → Archive × Option BundleError
  | [], _, w => (w, none)
  | sourceDir :: rest, targetDirs, w =>
    let basename := filepathJoin h.goos [archiveSeedsDir, filepathBase h.goos sourceDir]
    match chooseTargetDir targetDirs basename (targetDirs.length + 1) 1 basename with
    | none => (w, some .budget)
    | some targetDir =>
      match WriteDir h w targetDir sourceDir with
      | .error e => (w, some (.helper e))
      | .ok w1 => prepareSeedsLoop h archiveSeedsDir rest (targetDirs ++ [targetDir]) w1

/-- Go `prepareSeeds` (`bundler.go`). -/
def prepareSeeds (h : Host) (seedCorpusDirs : List String) (archiveSeedsDir : String)
    (w : Archive) : Archive × Option BundleError :=
  prepareSeedsLoop h archiveSeedsDir seedCorpusDirs [] w

/-- Result of `assembleArtifacts`: the three named results of the Go function,
and the archive writer and the options as the call leaves them. -/
structure AssembleResult where
  fuzzers : List Fuzzer
  systemDeps : List String
  err : Option BundleError
  archive : Archive
  opts : Opts
deriving DecidableEq, Repr

/-- First part of `assembleArtifacts`: the executable and its `.dSYM` bundle.
Returns the archive path of the executable. -/
def assembleExecutable (h : Host) (w : Archive) (buildResult : CBuildResult) :
    Archive × Except BundleError String :=
  let fuzzTestExecutableAbsPath := buildResult.Executable
  let buildArtifactsPrefix := filepathJoin h.goos [fuzzTestPrefix h.goos buildResult, "bin"]
  match h.isBelow fuzzTestExecutableAbsPath buildResult.BuildDir with
  | .error e => (w, .error (.helper e))
  | .ok false => (w, .error (.notBelow fuzzTestExecutableAbsPath buildResult.BuildDir))
  | .ok true =>
    match filepathRel h.goos buildResult.BuildDir fuzzTestExecutableAbsPath with
    | .error e => (w, .error (.helper e))
    | .ok fuzzTestExecutableRelPath =>
      let fuzzTestArchivePath :=
        filepathJoin h.goos [buildArtifactsPrefix, fuzzTestExecutableRelPath]
      match WriteFile h w fuzzTestArchivePath fuzzTestExecutableAbsPath with
      | .error e => (w, .error (.helper e))
      | .ok w1 =>
        let fuzzTestDsymAbsPath := fuzzTestExecutableAbsPath ++ ".dSYM"
        match h.fileExists fuzzTestDsymAbsPath with
        | .error e => (w1, .error (.helper e))
        | .ok false => (w1, .ok fuzzTestArchivePath)
        | .ok true =>
          match WriteDir h w1 (fuzzTestArchivePath ++ ".dSYM") fuzzTestDsymAbsPath with
          | .error e => (w1, .error (.helper e))
          | .ok w2 => (w2, .ok fuzzTestArchivePath)

/-- Part of `assembleArtifacts` after the dependency loop: when no dictionary
is configured and the default dictionary of the build result exists, the code
stores it in `Opts.Dictionary`. Returns the options after that. -/
def resolveDictionary (h : Host) (opts : Opts) (buildResult : CBuildResult) :
    Except String Opts :=
  if opts.Dictionary = "" then
    match h.fileExists buildResult.Dictionary with
    | .error e => .error e
    | .ok true => .ok { opts with Dictionary := buildResult.Dictionary }
    | .ok false => .ok opts
  else .ok opts

/-- Part of `assembleArtifacts` that adds the dictionary of the options to the
archive. Returns the archive path of the dictionary, empty when there is none. -/
def archiveDictionary (h : Host) (opts : Opts) (w : Archive) (buildResult : CBuildResult) :
    Archive × Except BundleError String :=
  if opts.Dictionary ≠ "" then
    let archiveDict := filepathJoin h.goos [fuzzTestPrefix h.goos buildResult, "dict"]
    match WriteFile h w archiveDict opts.Dictionary with
    | .error e => (w, .error (.helper e))
    | .ok w1 => (w1, .ok archiveDict)
  else (w, .ok "")

/-- The dictionary part of `assembleArtifacts`: the options and the archive
after it, and the archive path of the dictionary. -/
def assembleDictionary (h : Host) (opts : Opts) (w : Archive) (buildResult : CBuildResult) :
    Opts × Archive × Except BundleError String :=
  match resolveDictionary h opts buildResult with
  | .error e => (opts, w, .error (.helper e))
  | .ok opts1 => (opts1, archiveDictionary h opts1 w buildResult)

/-- Part of `assembleArtifacts` after the dictionary: the seed corpora.
Returns the archive path of the seeds directory. -/
def assembleSeeds (h : Host) (opts : Opts) (w : Archive) (buildResult : CBuildResult) :
    Archive × Except BundleError String :=
  match h.fileExists buildResult.SeedCorpus with
  | .error e => (w, .error (.helper e))
  | .ok haveDefault =>
    let seedCorpusDirs :=
      if haveDefault then buildResult.SeedCorpus :: opts.SeedCorpusDirs
      else opts.SeedCorpusDirs
    if seedCorpusDirs.length > 0 then
      let archiveSeedsDir := filepathJoin h.goos [fuzzTestPrefix h.goos buildResult, "seeds"]
      match prepareSeeds h seedCorpusDirs archiveSeedsDir w with
      | (w1, some e) => (w1, .error e)
      | (w1, none) => (w1, .ok archiveSeedsDir)
    else (w, .ok "")

/-- The loop of `assembleArtifacts` over the sanitizers of a build that is not
a coverage build; `fuzzers` are the records appended so far. -/
def sanitizerFuzzers (baseFuzzerInfo : Fuzzer) : List String → List Fuzzer → List Fuzzer
  | [], fuzzers => fuzzers
  | sanitizer :: rest, fuzzers =>
    if sanitizer = "undefined" then sanitizerFuzzers baseFuzzerInfo rest fuzzers
    else
      sanitizerFuzzers baseFuzzerInfo rest
        (fuzzers ++ [{ baseFuzzerInfo with
                        Engine := "LIBFUZZER"
                        Sanitizer := stringsToUpper sanitizer }])

/-- Last part of `assembleArtifacts`: the `Fuzzer` records built from
`baseFuzzerInfo`. -/
def makeFuzzers (buildResult : CBuildResult) (baseFuzzerInfo : Fuzzer) : List Fuzzer :=
  if isCoverageBuild buildResult.Sanitizers then
    [{ baseFuzzerInfo with
        Engine := "LLVM_COV"
        EngineOptions := { baseFuzzerInfo.EngineOptions with Flags := ["-merge=1", "."] } }]
  else sanitizerFuzzers baseFuzzerInfo buildResult.Sanitizers []

/-- Go `libfuzzerBundler.assembleArtifacts`, for the bundler with options `opts`
and archive writer `w`. -/
def assembleArtifacts (h : Host) (opts : Opts) (w : Archive) (buildResult : CBuildResult) :
    AssembleResult :=
  match assembleExecutable h w buildResult with
  | (w1, .error e) => ⟨[], [], some e, w1, opts⟩
  | (w1, .ok fuzzTestArchivePath) =>
    match depsLoop h opts buildResult buildResult.RuntimeDeps ⟨w1, [], "", []⟩ with
    | (st, some e) => ⟨[], st.systemDeps, some e, st.archive, opts⟩
    | (st, none) =>
      match assembleDictionary h opts st.archive buildResult with
      | (opts1, w2, .error e) => ⟨[], st.systemDeps, some e, w2, opts1⟩
      | (opts1, w2, .ok archiveDict) =>
        match assembleSeeds h opts1 w2 buildResult with
        | (w3, .error e) => ⟨[], st.systemDeps, some e, w3, opts1⟩
        | (w3, .ok archiveSeedsDir) =>
          match h.setenv opts1.Env "NO_CIFUZZ" "1" with
          | .error e => ⟨[], st.systemDeps, some (.helper e), w3, opts1⟩
          | .ok env =>
            let libraryPaths :=
              if st.externalLibrariesPrefix ≠ "" then
                st.libraryPaths ++ [st.externalLibrariesPrefix]
              else st.libraryPaths
            let baseFuzzerInfo : Fuzzer :=
              { Target := buildResult.Name
                Name := ""
                Path := fuzzTestArchivePath
                Engine := ""
                Sanitizer := ""
                ProjectDir := buildResult.ProjectDir
                Dictionary := archiveDict
                Seeds := archiveSeedsDir
                LibraryPaths := libraryPaths
                RuntimePaths := []
                EngineOptions := { Env := env, Flags := opts1.EngineArgs }
                MaxRunTime := opts1.TimeoutSeconds }
            ⟨makeFuzzers buildResult baseFuzzerInfo, st.systemDeps, none, w3, opts1⟩

/-- State of the loop of `libfuzzerBundler.bundle` over the build results: the
records and system dependencies collected so far, the error the loop returned
with, if any, and the archive writer and the options. -/
structure BundleState where
  fuzzers : List Fuzzer
  systemDeps : List String
  err : Option BundleError
  archive : Archive
  opts : Opts
deriving DecidableEq, Repr

/-- The loop of `libfuzzerBundler.bundle` over the build results; it returns
with the error of the first assembly that fails. -/
def bundleLoop (h : Host) : List CBuildResult → BundleState → BundleState
  | [], s => s
  | buildResult :: rest, s =>
    let r := assembleArtifacts h s.opts s.archive buildResult
    match r.err with
    | some e => ⟨[], s.systemDeps, some e, r.archive, r.opts⟩
    | none =>
      bundleLoop h rest ⟨s.fuzzers ++ r.fuzzers, s.systemDeps ++ r.systemDeps, none,
        r.archive, r.opts⟩

/-! ## A concrete host -/

/-- Hexadecimal digit of a number below 16. -/
def hexDigit (n : Nat) : Char :=
  "0123456789abcdef".data.getD n '0'

/-- A stand-in for SHA-256 with the same output format: the hexadecimal
spelling of the first 32 bytes, filled up with zeros to 64 characters. -/
def sampleDigest (content : List UInt8) : String :=
  String.mk (((content.flatMap (fun b => [hexDigit (b.toNat / 16), hexDigit (b.toNat % 16)]))
    ++ List.replicate 64 '0').take 64)

/-- Files of the sample host with their bytes. -/
def sampleFiles : List (String × List UInt8) :=
  [("/p/build/some_fuzz_test", [1]),
   ("/p/build/foo", [1]),
   ("/p/build/bar", [1]),
   ("/p/build/lib/helper.so", [2, 3]),
   ("/p/build/lib/a.so", [7, 7]),
   ("/p/build/lib/b.so", [7, 7]),
   ("/p/build/lib/sub/a.so", [7, 7]),
   ("/p/build/lib.so", [4]),
   ("/ext/one/libexternal.so", [5]),
   ("/ext/two/libexternal.so", [6]),
   ("/ext/three/libexternal.so", [5]),
   ("/ext/one/libother.so", [5]),
   ("/usr/lib/libBLAS.so", [8]),
   ("/lib/x86_64-linux-gnu/libc.so.6", [9]),
   ("/p/dict", [10])]

/-- A Linux host with the project `/p`, built in `/p/build`: a path is below a
directory when it starts with the directory followed by a slash, and the
system libraries are the files below `/usr/lib` and `/lib`. -/
def sampleHost : Host where
  goos := "linux"
  isBelow := fun path dir => .ok ((dir ++ "/").data.isPrefixOf path.data)
  fileExists := fun path => .ok (sampleFiles.any (fun f => f.1 = path) || path = "/p/seeds")
  isSystemLibrary := fun path =>
    "/usr/lib/".data.isPrefixOf path.data || "/lib/".data.isPrefixOf path.data
  readFile := fun path => (sampleFiles.find? (fun f => f.1 = path)).map (fun f => f.2)
  walkDir := fun dir => if dir = "/p/seeds" then some [("seed1", false)] else none
  sha256Hex := sampleDigest
  sha256Hex_length := by
    intro content
    simp [sampleDigest, String.length, List.length_take]
  setenv := fun env key value =>
    .ok (env.filter (fun e => !(key ++ "=").data.isPrefixOf e.data) ++ [key ++ "=" ++ value])

/-- Options of the bundler in `TestAssembleArtifacts_Fuzzing`. -/
def sampleOpts : Opts where
  BuildSystem := .cmake
  Dictionary := ""
  SeedCorpusDirs := []
  Env := ["FOO=foo"]
  EngineArgs := []
  TimeoutSeconds := 0
  DockerImage := ""

/-- A build result on the sample host. -/
def sampleBuild (name : String) (sanitizers deps : List String) : CBuildResult where
  Executable := "/p/build/" ++ name
  GeneratedCorpus := ""
  SeedCorpus := "/p/seeds"
  Dictionary := "/p/dict"
  BuildDir := "/p/build"
  RuntimeDeps := deps
  Name := name
  Sanitizers := sanitizers
  ProjectDir := "/p"

/-! ## Vocabulary of the statements -/

/-- The four categories of runtime dependencies. -/
inductive Category where
  | inTree
  | wellKnownSystem
  | uncommonSystem
  | external
deriving DecidableEq, Repr

/-- Whether a dependency matches a pattern of `wellKnownSystemLibraries` for the
host. -/
def matchesWellKnown (h : Host) (dep : String) : Bool :=
  (wellKnownSystemLibraries h.goos).any (fun re => re.MatchString dep)

/-- The category of a dependency, the tests being made in the order in-tree,
well-known system library, uncommon system library, external. -/
def inCategory (h : Host) (buildDir dep : String) : Category → Prop
  | .inTree => h.isBelow dep buildDir = .ok true
  | .wellKnownSystem => h.isBelow dep buildDir = .ok false ∧ matchesWellKnown h dep = true
  | .uncommonSystem =>
    h.isBelow dep buildDir = .ok false ∧ matchesWellKnown h dep = false
      ∧ h.isSystemLibrary dep = true
  | .external =>
    h.isBelow dep buildDir = .ok false ∧ matchesWellKnown h dep = false
      ∧ h.isSystemLibrary dep = false

instance (h : Host) (buildDir dep : String) (c : Category) :
    Decidable (inCategory h buildDir dep c) := by
  cases c <;> unfold inCategory <;> infer_instance

/-- The directory `<prefix>/bin` of the build artifacts of a build result. -/
def binDir (h : Host) (buildResult : CBuildResult) : String :=
  filepathJoin h.goos [fuzzTestPrefix h.goos buildResult, "bin"]

/-- The store path `cas/<first two characters>/<remaining characters>/<basename>`
of a dependency with the given digest. -/
def storePath (h : Host) (hash dep : String) : String :=
  filepathJoin h.goos ["cas", hash.take 2, hash.drop 2, filepathBase h.goos dep]

/-- The archive path `<prefix>/bin/<relative path>` of a file of the build
directory. -/
def linkPath (h : Host) (buildResult : CBuildResult) (relPath : String) : String :=
  filepathJoin h.goos [binDir h buildResult, relPath]

/-- The archive path `<prefix>/external_libs/<basename>` at which an external
dependency is staged. -/
def stagingPath (h : Host) (buildResult : CBuildResult) (dep : String) : String :=
  filepathJoin h.goos
    [filepathJoin h.goos [fuzzTestPrefix h.goos buildResult, "external_libs"],
     filepathBase h.goos dep]

/-- File entries of an archive whose path lies below `cas/`. -/
def casPayloads (w : Archive) : List Entry :=
  w.filter (fun e => e.kind = .file ∧ "cas/".data.isPrefixOf e.path.data)

/-- Entries of an archive at a path. -/
def entriesAt (w : Archive) (archivePath : String) : List Entry :=
  w.filter (fun e => e.path = archivePath)

/-- The effects the loop body can have on the archive when it processes a
dependency without error: none, one staged external library, or a hard link
to the store path of an in-tree dependency, preceded by the payload when the
store path had no entry. -/
inductive StepShape (h : Host) (br : CBuildResult) (w : Archive) (dep : String) :
    Archive → Prop where
  | skipped (hb : h.isBelow dep br.BuildDir = .ok false) : StepShape h br w dep w
  | staged (hb : h.isBelow dep br.BuildDir = .ok false) :
      StepShape h br w dep (w ++ [⟨stagingPath h br dep, .file, dep⟩])
  | linked (rel : String) (content : List UInt8)
      (hb : h.isBelow dep br.BuildDir = .ok true)
      (hrel : filepathRel h.goos br.BuildDir dep = .ok rel)
      (hread : h.readFile dep = some content)
      (hhas : HasFileEntry w (storePath h (h.sha256Hex content) dep) = true) :
      StepShape h br w dep
        (w ++ [⟨linkPath h br rel, .hardLink, storePath h (h.sha256Hex content) dep⟩])
  | stored (rel : String) (content : List UInt8)
      (hb : h.isBelow dep br.BuildDir = .ok true)
      (hrel : filepathRel h.goos br.BuildDir dep = .ok rel)
      (hread : h.readFile dep = some content)
      (hhas : HasFileEntry w (storePath h (h.sha256Hex content) dep) = false) :
      StepShape h br w dep
        (w ++ [⟨storePath h (h.sha256Hex content) dep, .file, dep⟩,
          ⟨linkPath h br rel, .hardLink, storePath h (h.sha256Hex content) dep⟩])

/-- The archive holds, at the archive path `p`, exactly one entry: the payload
file written from a file whose digest and basename give the store path `p`. -/
def PayloadAt (h : Host) (p : String) (w : Archive) : Prop :=
  ∃ d c, h.readFile d = some c ∧ storePath h (h.sha256Hex c) d = p ∧
    entriesAt w p = [⟨p, .file, d⟩]

/-- Whether neither the staging path `<prefix>/external_libs/<basename>` nor the
link path `<prefix>/bin/<relative path>` of a dependency is the archive path
`p`. -/
def avoidsPath (h : Host) (buildResult : CBuildResult) (p dep : String) : Bool :=
  decide (stagingPath h buildResult dep ≠ p) &&
    match filepathRel h.goos buildResult.BuildDir dep with
    | .ok rel => decide (linkPath h buildResult rel ≠ p)
    | .error _ => true

/-- The record from which `assembleArtifacts` derives the records it returns. -/
def baseFuzzer (buildResult : CBuildResult) (opts1 : Opts) (st : DepsState)
    (exePath dict seeds : String) (env : List String) : Fuzzer :=
  { Target := buildResult.Name
    Name := ""
    Path := exePath
    Engine := ""
    Sanitizer := ""
    ProjectDir := buildResult.ProjectDir
    Dictionary := dict
    Seeds := seeds
    LibraryPaths :=
      if st.externalLibrariesPrefix ≠ "" then st.libraryPaths ++ [st.externalLibrariesPrefix]
      else st.libraryPaths
    RuntimePaths := []
    EngineOptions := { Env := env, Flags := opts1.EngineArgs }
    MaxRunTime := opts1.TimeoutSeconds }

/-- The library directory `<prefix>/bin/<directory of the relative path>` that
an in-tree dependency contributes to the library paths; empty when the
dependency has no path relative to the build directory. -/
def libraryDir (h : Host) (buildResult : CBuildResult) (dep : String) : String :=
  match filepathRel h.goos buildResult.BuildDir dep with
  | .ok rel => filepathJoin h.goos [binDir h buildResult, filepathDir h.goos rel]
  | .error _ => ""

/-- The elements of a list in the order of their first occurrence. -/
def firstOccurrences : List String → List String
  | [] => []
  | x :: xs => x :: (firstOccurrences xs).filter (fun y => y ≠ x)

/-- One iteration of the code that appends a library path unless the list
contains it. -/
def addLibraryPath (acc : List String) (x : String) : List String :=
  if sliceutilContains acc x then acc else acc ++ [x]

/-- The order of Go strings: lexicographic on the characters. -/
def stringLe (a b : String) : Prop :=
  a.data ≤ b.data

instance : DecidableRel stringLe := fun a b =>
  inferInstanceAs (Decidable (a.data ≤ b.data))

/-- Go `sort.Strings`: the strings in ascending order. -/
def sortStrings (l : List String) : List String :=
  l.insertionSort stringLe

/-- Whether an entry of an environment sets the variable `key`. -/
def setsVariable (key entry : String) : Bool :=
  (key ++ "=").data.isPrefixOf entry.data

/-- Replaces the first entry of the variable `key` by `key=value`, and appends
`key=value` when there is no such entry. -/
def setenvEntries (key value : String) : List String → List String
  | [] => [key ++ "=" ++ value]
  | e :: rest =>
    if setsVariable key e then (key ++ "=" ++ value) :: rest
    else e :: setenvEntries key value rest

/-- Modelled from the spec: `envutil.Setenv` (package `util/envutil` is not
among the sources) puts a variable into an environment, keeping the other
variables in their order: an entry of the variable is replaced where it
stands, otherwise `key=value` is appended. -/
def Setenv (env : List String) (key value : String) : Except String (List String) :=
  .ok (setenvEntries key value env)

/-- The sample host with `Setenv` for `envutil.Setenv`. -/
def sampleHostSetenv : Host :=
  { sampleHost with setenv := Setenv }

/-- The entries `WriteDir` appends for a source directory copied to an archive
directory. -/
def dirEntries (h : Host) (archivePath sourceDir : String) : List Entry :=
  match h.walkDir sourceDir with
  | none => []
  | some items =>
    items.map (fun it =>
      ⟨filepathJoin h.goos [archivePath, it.1],
       if it.2 then EntryKind.dir else EntryKind.file,
       filepathJoin h.goos [sourceDir, it.1]⟩)

/-- Value of a list of decimal digits. -/
def digitsValue (ds : List Char) : Nat :=
  ds.foldl (fun acc c => acc * 10 + (c.toNat - 48)) 0

/-- Whether every file entry among `new`, the entries written after `old`, was
written at a path that had no entry at that moment. -/
def freshFiles : Archive → Archive → Bool
  | _, [] => true
  | old, e :: rest =>
    (decide (e.kind ≠ .file) || !HasFileEntry old e.path) && freshFiles (old ++ [e]) rest

/-! ## `archive/metadata.go`: the metadata document -/

namespace archive

/-- A Go slice as `reflect` and the YAML encoder see it: `none` is the nil
slice and `some []` an empty slice that is not nil.  (The records of the
assembler above are lists, which is enough where only the elements count.) -/
abbrev Slice (α : Type) := Option (List α)

/-- Go `len` of a slice. -/
def sliceLen {α : Type} (s : Slice α) : Nat :=
  (s.getD []).length

/-- Go `archive.EngineOptions`. -/
structure EngineOptions where
  Flags : Slice String
  Env : Slice String
deriving DecidableEq, Repr

/-- Go `archive.Fuzzer`. -/
structure Fuzzer where
  Target : String
  Name : String
  Path : String
  Engine : String
  Sanitizer : String
  ProjectDir : String
  Dictionary : String
  Seeds : String
  LibraryPaths : Slice String
  RuntimePaths : Slice String
  EngineOptions : EngineOptions
  /-- A Go `uint`. -/
  MaxRunTime : Nat
deriving DecidableEq, Repr

/-- Go `archive.RunEnvironment`. -/
structure RunEnvironment where
  Docker : String
deriving DecidableEq, Repr

/-- Go `archive.GitRevision`. -/
structure GitRevision where
  Commit : String
  Branch : String
deriving DecidableEq, Repr

/-- Go `archive.CodeRevision`; the pointer `Git` is `none` when nil. -/
structure CodeRevision where
  Git : Option GitRevision
deriving DecidableEq, Repr

/-- Go `archive.Metadata`; a pointer is `none` when nil. -/
structure Metadata where
  RunEnvironment : Option RunEnvironment
  CodeRevision : Option CodeRevision
  Fuzzers : Slice (Option Fuzzer)
deriving DecidableEq, Repr

/-- Node tree of a YAML document, as far as `gopkg.in/yaml.v3` builds it for a
`Metadata`: the null scalar, string and integer scalars, sequences, and mappings
with string keys.  The text of a document is not modelled: `ToYaml` ends and
`FromYaml` starts at this tree. -/
inductive Yaml where
  | null : Yaml
  | str (value : String) : Yaml
  | int (value : Nat) : Yaml
  | seq (items : List Yaml) : Yaml
  | map (pairs : List (String × Yaml)) : Yaml

/-- The pairs of a mapping for a struct: each field with its key, a field
without a node (one marked `omitempty` that is zero) being left out. -/
def structPairs (fields : List (String × Option Yaml)) : List (String × Yaml) :=
  fields.filterMap (fun kv => kv.2.map (fun v => (kv.1, v)))

/-- Node of a string field marked `omitempty`. -/
def omitEmptyString (s : String) : Option Yaml :=
  if s = "" then none else some (.str s)

/-- Node of a slice of strings (a nil slice is written as an empty sequence). -/
def encodeStrings (s : Slice String) : Yaml :=
  .seq ((s.getD []).map Yaml.str)

/-- Node of a slice of strings marked `omitempty`. -/
def omitEmptyStrings (s : Slice String) : Option Yaml :=
  if sliceLen s = 0 then none else some (encodeStrings s)

/-- The zero test `isZero` of `yaml.v3` on an `EngineOptions`. -/
def EngineOptions.isZero (o : EngineOptions) : Bool :=
  sliceLen o.Flags = 0 ∧ sliceLen o.Env = 0

/-- Node of an `EngineOptions`. -/
def encodeEngineOptions (o : EngineOptions) : Yaml :=
  .map (structPairs
    [("flags", omitEmptyStrings o.Flags),
     ("env", omitEmptyStrings o.Env)])

/-- Node of a `Fuzzer`, by the `yaml` tags of its fields. -/
def encodeFuzzer (f : Fuzzer) : Yaml :=
  .map (structPairs
    [("target", omitEmptyString f.Target),
     ("name", omitEmptyString f.Name),
     ("path", some (.str f.Path)),
     ("engine", some (.str f.Engine)),
     ("sanitizer", omitEmptyString f.Sanitizer),
     ("build_dir", some (.str f.ProjectDir)),
     ("dictionary", omitEmptyString f.Dictionary),
     ("seeds", omitEmptyString f.Seeds),
     ("library_paths", omitEmptyStrings f.LibraryPaths),
     ("runtime_paths", omitEmptyStrings f.RuntimePaths),
     ("engine_options",
       if f.EngineOptions.isZero then none else some (encodeEngineOptions f.EngineOptions)),
     ("max_run_time", if f.MaxRunTime = 0 then none else some (.int f.MaxRunTime))])

/-- Node of a `*Fuzzer`. -/
def encodeFuzzerPtr : Option Fuzzer → Yaml
  | none => .null
  | some f => encodeFuzzer f

/-- Node of a `*RunEnvironment`; the field `Docker` has no tag and gets the key
`docker`. -/
def encodeRunEnvironment : Option RunEnvironment → Yaml
  | none => .null
  | some r => .map (structPairs [("docker", some (.str r.Docker))])

/-- Node of a `GitRevision`. -/
def encodeGitRevision (g : GitRevision) : Yaml :=
  .map (structPairs
    [("commit", omitEmptyString g.Commit),
     ("branch", omitEmptyString g.Branch)])

/-- Node of a `CodeRevision`. -/
def encodeCodeRevision (c : CodeRevision) : Yaml :=
  .map (structPairs [("git", c.Git.map encodeGitRevision)])

/-- Node of a `Metadata` (`yaml.Marshal`): the embedded pointer has the key
`run_environment` and is written also when nil, the slice `Fuzzers` is written
also when empty. -/
def encodeMetadata (a : Metadata) : Yaml :=
  .map (structPairs
    [("run_environment", some (encodeRunEnvironment a.RunEnvironment)),
     ("code_revision", a.CodeRevision.map encodeCodeRevision),
     ("fuzzers", some (.seq ((a.Fuzzers.getD []).map encodeFuzzerPtr)))])

/-- Go `Metadata.ToYaml`: `yaml.Marshal` has no error for a `Metadata`. -/
def Metadata.ToYaml (a : Metadata) : Except String Yaml :=
  .ok (encodeMetadata a)

/-- Decoding into a string field that holds `""`: a missing key and a null
leave the field as it is, a scalar sets it to the text of the scalar. -/
def decodeString : Option Yaml → Except String String
  | none => .ok ""
  | some .null => .ok ""
  | some (.str s) => .ok s
  | some (.int n) => .ok (toString n)
  | some _ => .error "cannot unmarshal into string"

/-- Decoding into a `uint` field that holds 0. -/
def decodeUint : Option Yaml → Except String Nat
  | none => .ok 0
  | some .null => .ok 0
  | some (.int n) => .ok n
  | some _ => .error "cannot unmarshal into uint"

/-- Decoding the items of a sequence into strings; a null item is skipped. -/
def decodeStringItems : List Yaml → Except String (List String)
  | [] => .ok []
  | .null :: rest => decodeStringItems rest
  | .str s :: rest => (decodeStringItems rest).map (fun l => s :: l)
  | .int n :: rest => (decodeStringItems rest).map (fun l => toString n :: l)
  | _ :: _ => .error "cannot unmarshal into string"

/-- Decoding into a slice of strings that is nil: a sequence gives a slice that
is not nil, also when it has no items. -/
def decodeStrings : Option Yaml → Except String (Slice String)
  | none => .ok none
  | some .null => .ok none
  | some (.seq items) => (decodeStringItems items).map some
  | some _ => .error "cannot unmarshal into []string"

/-- The check of `yaml.v3` that no key of a mapping is defined twice. -/
def uniqueKeys (pairs : List (String × Yaml)) : Bool :=
  decide (pairs.map Prod.fst).Nodup

/-- Decoding into an `EngineOptions` that is zero. -/
def decodeEngineOptions : Option Yaml → Except String EngineOptions
  | none => .ok ⟨none, none⟩
  | some .null => .ok ⟨none, none⟩
  | some (.map pairs) =>
    if uniqueKeys pairs then do
      let flags ← decodeStrings (pairs.lookup "flags")
      let env ← decodeStrings (pairs.lookup "env")
      pure ⟨flags, env⟩
    else .error "mapping key already defined"
  | some _ => .error "cannot unmarshal into EngineOptions"

/-- Decoding the fields of a `Fuzzer` that is zero; `get` gives the node of a
key. -/
def decodeFuzzerFields (get : String → Option Yaml) : Except String Fuzzer := do
  let target ← decodeString (get "target")
  let name ← decodeString (get "name")
  let path ← decodeString (get "path")
  let engine ← decodeString (get "engine")
  let sanitizer ← decodeString (get "sanitizer")
  let projectDir ← decodeString (get "build_dir")
  let dictionary ← decodeString (get "dictionary")
  let seeds ← decodeString (get "seeds")
  let libraryPaths ← decodeStrings (get "library_paths")
  let runtimePaths ← decodeStrings (get "runtime_paths")
  let engineOptions ← decodeEngineOptions (get "engine_options")
  let maxRunTime ← decodeUint (get "max_run_time")
  pure
    { Target := target
      Name := name
      Path := path
      Engine := engine
      Sanitizer := sanitizer
      ProjectDir := projectDir
      Dictionary := dictionary
      Seeds := seeds
      LibraryPaths := libraryPaths
      RuntimePaths := runtimePaths
      EngineOptions := engineOptions
      MaxRunTime := maxRunTime }

/-- Decoding into a `*Fuzzer`: a null gives nil. -/
def decodeFuzzerPtr : Yaml → Except String (Option Fuzzer)
  | .null => .ok none
  | .map pairs =>
    if uniqueKeys pairs then
      (decodeFuzzerFields (fun key => pairs.lookup key)).map some
    else .error "mapping key already defined"
  | _ => .error "cannot unmarshal into Fuzzer"

/-- Decoding the items of a sequence into `*Fuzzer`. -/
def decodeFuzzerItems : List Yaml → Except String (List (Option Fuzzer))
  | [] => .ok []
  | item :: rest => do
    let f ← decodeFuzzerPtr item
    let fs ← decodeFuzzerItems rest
    pure (f :: fs)

/-- Decoding into a `[]*Fuzzer` that is nil. -/
def decodeFuzzers : Option Yaml → Except String (Slice (Option Fuzzer))
  | none => .ok none
  | some .null => .ok none
  | some (.seq items) => (decodeFuzzerItems items).map some
  | some _ => .error "cannot unmarshal into []*Fuzzer"

/-- Decoding into a `*RunEnvironment` that is nil. -/
def decodeRunEnvironment : Option Yaml → Except String (Option RunEnvironment)
  | none => .ok none
  | some .null => .ok none
  | some (.map pairs) =>
    if uniqueKeys pairs then
      (decodeString (pairs.lookup "docker")).map (fun d => some ⟨d⟩)
    else .error "mapping key already defined"
  | some _ => .error "cannot unmarshal into RunEnvironment"

/-- Decoding into a `*GitRevision` that is nil. -/
def decodeGitRevision : Option Yaml → Except String (Option GitRevision)
  | none => .ok none
  | some .null => .ok none
  | some (.map pairs) =>
    if uniqueKeys pairs then do
      let commit ← decodeString (pairs.lookup "commit")
      let branch ← decodeString (pairs.lookup "branch")
      pure (some ⟨commit, branch⟩)
    else .error "mapping key already defined"
  | some _ => .error "cannot unmarshal into GitRevision"

/-- Decoding into a `*CodeRevision` that is nil. -/
def decodeCodeRevision : Option Yaml → Except String (Option CodeRevision)
  | none => .ok none
  | some .null => .ok none
  | some (.map pairs) =>
    if uniqueKeys pairs then
      (decodeGitRevision (pairs.lookup "git")).map (fun g => some ⟨g⟩)
    else .error "mapping key already defined"
  | some _ => .error "cannot unmarshal into CodeRevision"

/-- Go `Metadata.FromYaml` on a fresh `Metadata` (`yaml.Unmarshal`); keys that
name no field are ignored. -/
def Metadata.FromYaml : Yaml → Except String Metadata
  | .null => .ok ⟨none, none, none⟩
  | .map pairs =>
    if uniqueKeys pairs then do
      let runEnvironment ← decodeRunEnvironment (pairs.lookup "run_environment")
      let codeRevision ← decodeCodeRevision (pairs.lookup "code_revision")
      let fuzzers ← decodeFuzzers (pairs.lookup "fuzzers")
      pure ⟨runEnvironment, codeRevision, fuzzers⟩
    else .error "mapping key already defined"
  | _ => .error "cannot unmarshal into Metadata"

/-- Serializing a `Metadata` and parsing the result into a fresh one. -/
def roundTrip (a : Metadata) : Except String Metadata :=
  a.ToYaml.bind Metadata.FromYaml

/-- A slice of strings after a round trip through a field marked `omitempty`:
an empty slice comes back nil. -/
def normalizeStrings (s : Slice String) : Slice String :=
  if sliceLen s = 0 then none else s

/-- An `EngineOptions` after a round trip. -/
def EngineOptions.normalize (o : EngineOptions) : EngineOptions :=
  ⟨normalizeStrings o.Flags, normalizeStrings o.Env⟩

/-- A `Fuzzer` after a round trip. -/
def Fuzzer.normalize (f : Fuzzer) : Fuzzer :=
  { f with
    LibraryPaths := normalizeStrings f.LibraryPaths
    RuntimePaths := normalizeStrings f.RuntimePaths
    EngineOptions := f.EngineOptions.normalize }

/-- A `Metadata` after a round trip: a nil slice `Fuzzers` comes back empty and
not nil, and the empty slices of the records come back nil. -/
def Metadata.normalize (a : Metadata) : Metadata :=
  { a with Fuzzers := some ((a.Fuzzers.getD []).map (Option.map Fuzzer.normalize)) }

/-- The record of `TestAssembleArtifacts_Fuzzing` for the sanitizer `address`,
with an empty slice of flags that is not nil. -/
def sampleFuzzer : Fuzzer where
  Target := "some_fuzz_test"
  Name := ""
  Path := "libfuzzer/address/some_fuzz_test/bin/pkg/some_fuzz_test"
  Engine := "LIBFUZZER"
  Sanitizer := "ADDRESS"
  ProjectDir := "/p"
  Dictionary := ""
  Seeds := "libfuzzer/address/some_fuzz_test/seeds"
  LibraryPaths := some ["libfuzzer/address/some_fuzz_test/external_libs"]
  RuntimePaths := none
  EngineOptions := ⟨some [], some ["FOO=foo", "NO_CIFUZZ=1"]⟩
  MaxRunTime := 0

/-- A metadata value as `createMetadataFileInArchive` builds it. -/
def sampleMetadata (fuzzers : Slice (Option Fuzzer)) : Metadata where
  RunEnvironment := some ⟨"ubuntu:rolling"⟩
  CodeRevision := some ⟨some ⟨"0123abc", "main"⟩⟩
  Fuzzers := fuzzers

end archive

/-- Whether `filepath.Clean` treats a path as rooted: it starts with a
separator. -/
def pathRooted (goos : String) (path : String) : Bool :=
  match path.data with
  | c :: _ => isPathSeparator goos c
  | [] => false

/-- The elements `filepath.Clean` keeps of a path, innermost first. -/
def pathStack (goos : String) (path : String) : List (List Char) :=
  (splitChars (isPathSeparator goos) path.data).foldl (cleanStep (pathRooted goos path)) []

/-- The characters `filepath.Clean` writes for the elements it kept. -/
def renderPath (goos : String) (rooted : Bool) (stack : List (List Char)) : List Char :=
  if rooted then separator goos :: joinChars [separator goos] stack.reverse
  else joinChars [separator goos] stack.reverse

/-- A plain path element: not empty, not `.` and not `..`. -/
def isPlainName (c : List Char) : Bool :=
  c ≠ [] ∧ c ≠ ['.'] ∧ c ≠ ['.', '.']

/-- Whether every element of a relative path is a plain name (so the path does
not start or end with a separator and has no `.` or `..`). -/
def isPlainPath (goos : String) (path : String) : Bool :=
  (splitChars (isPathSeparator goos) path.data).all isPlainName

/-- Whether an archive path lies below a directory of the archive: it is the
path of the directory, a separator, and more. -/
def isBelowDir (goos : String) (dir path : String) : Bool :=
  (dir.data ++ [separator goos]).isPrefixOf path.data

/-- What `filepath.Clean` guarantees of the elements it keeps: none is empty,
`.` or holds a separator, and `..` elements stand only at the start of a path
that is not rooted. -/
def StackInv (goos : String) (rooted : Bool) : List (List Char) → Prop
  | [] => True
  | c :: rest =>
    (∀ ch ∈ c, isPathSeparator goos ch = false) ∧ c ≠ [] ∧ c ≠ ['.'] ∧
      (if c = ['.', '.'] then rooted = false ∧ ∀ d ∈ rest, d = ['.', '.']
       else StackInv goos rooted rest)

/-- The path `x` is clean and has the elements `stack`, at least one. -/
def CleanForm (goos : String) (x : String) (rooted : Bool) (stack : List (List Char)) : Prop :=
  StackInv goos rooted stack ∧ stack ≠ [] ∧ x.data = renderPath goos rooted stack

/-- The characters appended to a directory path for the elements below it. -/
def pathSuffix (goos : String) (comps : List (List Char)) : List Char :=
  comps.flatMap (fun c => separator goos :: c)

/-- Whether a runtime dependency has a plain name where the assembler uses it:
the path of an in-tree dependency relative to the build directory consists of
plain names, and the base name of any other dependency is a plain name. -/
def plainDep (h : Host) (buildResult : CBuildResult) (dep : String) : Bool :=
  match h.isBelow dep buildResult.BuildDir with
  | .ok true =>
    (match filepathRel h.goos buildResult.BuildDir dep with
     | .ok rel => isPlainPath h.goos rel
     | .error _ => true)
  | _ => isPlainPath h.goos (filepathBase h.goos dep)

/-- The seed corpus directories `assembleArtifacts` copies: the default seed
corpus of the build result when it exists, then those of the options. -/
def seedCorpusDirs (h : Host) (opts : Opts) (buildResult : CBuildResult) : List String :=
  match h.fileExists buildResult.SeedCorpus with
  | .ok true => buildResult.SeedCorpus :: opts.SeedCorpusDirs
  | _ => opts.SeedCorpusDirs

/-- Whether a seed corpus directory has a plain base name and, when it can be
read, holds at least one item, the relative paths of its items consisting of
plain names. -/
def plainSeedDir (h : Host) (dir : String) : Bool :=
  isPlainPath h.goos (filepathBase h.goos dir) &&
    match h.walkDir dir with
    | some items => !items.isEmpty && items.all (fun it => isPlainPath h.goos it.1)
    | none => true

/-- Whether the archive has a file entry at a path. -/
def hasFileAt (w : Archive) (archivePath : String) : Bool :=
  w.any (fun e => e.path = archivePath ∧ e.kind = .file)

/-- Whether the archive has an entry below a directory. -/
def hasEntryBelow (goos : String) (w : Archive) (dir : String) : Bool :=
  w.any (fun e => isBelowDir goos dir e.path)

/-- Every library path collected by the dependency loop, and the directory of
the external libraries once it is set, has an entry below it. -/
def DepsCovered (h : Host) (st : DepsState) : Prop :=
  (∀ lp ∈ st.libraryPaths, hasEntryBelow h.goos st.archive lp = true) ∧
  (st.externalLibrariesPrefix ≠ "" →
    hasEntryBelow h.goos st.archive st.externalLibrariesPrefix = true)

/-- A host on which the parent of the working directory holds one seed. -/
def parentSeedsHost : Host :=
  { sampleHost with
    walkDir := fun dir => if dir = ".." then some [("seed1", false)] else none }

/-! ## `bundler.go`: the code revision; `fuzz_test_completion.go`: the workspace -/

/-- Go `Bundler.getCodeRevision`. `vcsRevision` is the value of
`vcs.CodeRevision()` (package `vcs` has only its test among the sources), `none`
being nil; `commit` and `branch` are `Opts.Commit` and `Opts.Branch`. The result
is the pointer returned, `none` being nil; the assignment through a nil `Git`
pointer is an error. -/
def getCodeRevision (vcsRevision : Option archive.CodeRevision) (commit branch : String) :
    Except String (Option archive.CodeRevision) :=
  let revision : archive.CodeRevision :=
    match vcsRevision with
    | none => ⟨some ⟨"", ""⟩⟩
    | some r => r
  let afterCommit : Except String archive.CodeRevision :=
    if commit ≠ "" then
      match revision.Git with
      | none => .error "invalid memory address or nil pointer dereference"
      | some g => .ok ⟨some { g with Commit := commit }⟩
    else .ok revision
  match afterCommit with
  | .error e => .error e
  | .ok revision =>
    if branch ≠ "" then
      match revision.Git with
      | none => .error "invalid memory address or nil pointer dereference"
      | some g => .ok (some ⟨some { g with Branch := branch }⟩)
    else .ok (some revision)

/-- The loop `for !exists` of `getWorkspacePath`: `exists` is false whenever the
condition is tested, so the loop is left only by a `return` in its body. `fuel`
bounds the number of iterations looked at; `none` means the budget is used up. -/
def getWorkspacePathLoop (h : Host) : Nat → String → Option (Except String String)
  | 0, _ => none
  | fuel + 1, workDir =>
    let parentDir := filepathJoin h.goos [workDir, ".."]
    match h.fileExists (filepathJoin h.goos [parentDir, "WORKSPACE"]) with
    | .error e => some (.error e)
    | .ok true => some (.ok parentDir)
    | .ok false => getWorkspacePathLoop h fuel parentDir

/-- Go `getWorkspacePath`; `getwd` is the result of `os.Getwd()`. The statement
after the loop, which returns the error "not able to determine the workspace",
is not reached: see `getWorkspacePathLoop`. -/
def getWorkspacePath (h : Host) (getwd : Except String String) (fuel : Nat) :
    Option (Except String String) :=
  match getwd with
  | .error e => some (.error e)
  | .ok workDir =>
    match h.fileExists (filepathJoin h.goos [workDir, "WORKSPACE"]) with
    | .error e => some (.error e)
    | .ok true => some (.ok workDir)
    | .ok false => getWorkspacePathLoop h fuel workDir

/-- A Linux host on which no file exists. -/
def emptyHost : Host :=
  { sampleHost with fileExists := fun _ => .ok false }

/-- A host like `sampleHost` with the file `/p/WORKSPACE`. -/
def workspaceHost : Host :=
  { sampleHost with fileExists := fun path => .ok (decide (path = "/p/WORKSPACE")) }

/-! ## `bundler.go`: additional files -/

/-- Go `strings.Split` for a separator of one character. -/
def stringsSplit (s : String) (sep : Char) : List String :=
  (splitChars (fun c => c == sep) s.data).map String.mk

/-- Go `filepath.IsAbs`. On Unix a path is absolute when it starts with a
slash. On Windows it is absolute when it starts with a drive letter and a colon
followed by a separator, or with two separators (a UNC volume, taken as
well-formed); reserved device names are not modelled. -/
def filepathIsAbs (goos : String) (path : String) : Bool :=
  if goos = "windows" then
    match path.data with
    | c1 :: c2 :: rest =>
      (isPathSeparator goos c1 && isPathSeparator goos c2) ||
        (c1.isAlpha && c2 == ':' &&
          match rest with
          | c3 :: _ => isPathSeparator goos c3
          | [] => false)
    | _ => false
  else
    match path.data with
    | c :: _ => c == '/'
    | [] => false

/-- Go constant `archiveWorkDirPath`. -/
def archiveWorkDirPath : String := "work_dir"

/-- The targets `parseAdditionalFilesArgument` derives for an argument without
target: the archive root, the working directory, or a plain name in it. -/
def IsWorkDirTarget (goos : String) (target : String) : Prop :=
  target = "." ∨ target = archiveWorkDirPath ∨
    ∃ name : List Char, isPlainName name = true ∧
      (∀ ch ∈ name, isPathSeparator goos ch = false) ∧
      target.data = archiveWorkDirPath.data ++ separator goos :: name

/-- Go `parseAdditionalFilesArgument`: the source and the target of an `--add`
argument. -/
def parseAdditionalFilesArgument (goos : String) (arg : String) :
    Except String (String × String) :=
  let parts := stringsSplit arg ';'
  let source := parts.headD ""
  let target :=
    if parts.length = 1 then
      filepathJoin goos [archiveWorkDirPath, filepathBase goos arg]
    else (parts.tail.headD "")
  if parts.length > 2 ∨ source = "" ∨ target = "" then
    .error "could not parse '--add' argument"
  else if filepathIsAbs goos target then
    .error "when using '--add source;target', target has to be a relative path"
  else .ok (source, target)

/-! ## `libfuzzer_bundler.go`: `bundle` -/

/-- What `libfuzzerBundler.bundle` returns and leaves behind: the records, the
error, the system libraries named by the warning it logs (`none` when it logs
no warning), and the archive writer and the options after the call. -/
structure BundleOutput where
  fuzzers : List Fuzzer
  err : Option BundleError
  warning : Option (List String)
  archive : Archive
  opts : Opts
deriving DecidableEq, Repr

/-- Go `libfuzzerBundler.bundle`. `built` is the outcome of `checkDependencies`
and `buildAllVariants` (the builders are not among the sources). The keys of
the map `deduplicatedSystemDeps` are the distinct system dependencies, and
`sort.Strings` puts them in ascending order. -/
def bundle (h : Host) (opts : Opts) (w : Archive)
    (built : Except BundleError (List CBuildResult)) : BundleOutput :=
  match built with
  | .error e => ⟨[], some e, none, w, opts⟩
  | .ok buildResults =>
    let s := bundleLoop h buildResults ⟨[], [], none, w, opts⟩
    match s.err with
    | some e => ⟨[], some e, none, s.archive, s.opts⟩
    | none =>
      let systemDeps := sortStrings s.systemDeps.dedup
      ⟨s.fuzzers, none, if systemDeps.length ≠ 0 then some systemDeps else none,
        s.archive, s.opts⟩

/-- The assemblies of a list of build results, each made with the archive
writer and the options the assembly before it left behind. -/
def assemblies (h : Host) : List CBuildResult → Opts → Archive → List AssembleResult
  | [], _, _ => []
  | buildResult :: rest, opts, w =>
    assembleArtifacts h opts w buildResult ::
      assemblies h rest (assembleArtifacts h opts w buildResult).opts
        (assembleArtifacts h opts w buildResult).archive

/-! ## `bundler.go`: `Bundle` -/

/-- Outcome of every step of `Bundler.Bundle` that can fail, in the order of the
code: `none` when the step succeeds, else its error. The steps themselves (the
operating system, the bundler of the build system, the archive writer) are
outside this model. -/
structure BundleSteps where
  mkdirTemp : Option String
  createEmptyBundle : Option String
  bundle : Option String
  createMetadataFileInArchive : Option String
  createWorkDirInArchive : Option String
  copyAdditionalFilesToArchive : Option String
  writeBuildLog : Option String
  printHeader : Option String
  flushTable : Option String
  closeArchiveWriter : Option String
  flushBuffer : Option String
  closeBundle : Option String
deriving DecidableEq, Repr

/-- The two things `Bundle` leaves on disk: whether the scratch directory made
by `os.MkdirTemp` exists, and whether the output archive file exists. -/
structure Disk where
  scratchDir : Bool
  archiveFile : Bool
deriving DecidableEq, Repr

/-- How the body of `Bundle` returns once the archive file is created: the
values returned, and the value the variable `err` of the function holds at that
moment, which is what the deferred function tests. -/
structure BodyExit where
  result : Except String String
  err : Option String
deriving DecidableEq, Repr

/-- The body of `Bundle` after the second `defer`. Each step assigns its error
to the variable `err` of the function, except the loop over the headers, whose
`_, err := fmt.Fprintf(...)` declares a variable `err` of its own. `buildLogFile`
is `Opts.BundleBuildLogFile` and `outputPath` the name of the archive file. -/
def bundleBody (steps : BundleSteps) (buildLogFile outputPath : String) : BodyExit :=
  match steps.bundle with
  | some e => ⟨.error e, some e⟩
  | none =>
  match steps.createMetadataFileInArchive with
  | some e => ⟨.error e, some e⟩
  | none =>
  match steps.createWorkDirInArchive with
  | some e => ⟨.error e, some e⟩
  | none =>
  match steps.copyAdditionalFilesToArchive with
  | some e => ⟨.error e, some e⟩
  | none =>
  match (if buildLogFile ≠ "" then steps.writeBuildLog else none) with
  | some e => ⟨.error e, some e⟩
  | none =>
  match steps.printHeader with
  | some e => ⟨.error e, none⟩
  | none =>
  match steps.flushTable with
  | some e => ⟨.error e, some e⟩
  | none =>
  match steps.closeArchiveWriter with
  | some e => ⟨.error e, some e⟩
  | none =>
  match steps.flushBuffer with
  | some e => ⟨.error e, some e⟩
  | none =>
  match steps.closeBundle with
  | some e => ⟨.error e, some e⟩
  | none => ⟨.ok outputPath, none⟩

/-- Modelled from the spec: `fileutil.Cleanup` (package `fileutil` is not among
the sources) removes the scratch directory. -/
def Cleanup (disk : Disk) : Disk :=
  { disk with scratchDir := false }

/-- Go `Bundler.Bundle`: the values returned and the disk afterwards. The
deferred functions run in reverse order when the function returns: the second
closes the archive file and removes it when the variable `err` is not nil, the
first removes the scratch directory. -/
def Bundle (disk : Disk) (steps : BundleSteps) (buildLogFile outputPath : String) :
    Except String String × Disk :=
  match steps.mkdirTemp with
  | some e => (.error e, disk)
  | none =>
    let disk1 := { disk with scratchDir := true }
    match steps.createEmptyBundle with
    | some e => (.error e, Cleanup disk1)
    | none =>
      let disk2 := { disk1 with archiveFile := true }
      let exit := bundleBody steps buildLogFile outputPath
      let disk3 := if exit.err ≠ none then { disk2 with archiveFile := false } else disk2
      (exit.result, Cleanup disk3)

/-- `data.Less(i, j)` for a slice and a comparison of its elements. -/
def lessAt {α : Type} (lt : α → α → Bool) (data : List α) (i j : Nat) : Bool :=
  match data[i]?, data[j]? with
  | some x, some y => lt x y
  | _, _ => false

/-- `data.Swap(i, j)`. -/
def swapAt {α : Type} (data : List α) (i j : Nat) : List α :=
  match data[i]?, data[j]? with
  | some x, some y => (data.set i y).set j x
  | _, _ => data

/-- The inner loop `for j := i; j > a && data.Less(j, j-1); j--` of
`insertionSortLessFunc`. -/
def insertionInner {α : Type} (lt : α → α → Bool) (a : Nat) : Nat → List α → List α
  | 0, data => data
  | j + 1, data =>
    if j + 1 > a ∧ lessAt lt data (j + 1) j then
      insertionInner lt a j (swapAt data (j + 1) j)
    else data

/-- Go `insertionSortLessFunc`: sorts `data[a:b]` by insertion. -/
def insertionSortLessFunc {α : Type} (lt : α → α → Bool) (data : List α) (a b : Nat) :
    List α :=
  (List.range' (a + 1) (b - (a + 1))).foldl (fun d i => insertionInner lt a i d) data

/-- Go `siftDownLessFunc`; `root` grows in every round of the loop, so `hi`
rounds are never used up. -/
def siftDownLessFunc {α : Type} (lt : α → α → Bool) (hi first : Nat) :
    Nat → Nat → List α → List α
  | 0, _, data => data
  | fuel + 1, root, data =>
    if 2 * root + 1 ≥ hi then data
    else
      let child :=
        if 2 * root + 1 + 1 < hi ∧
            lessAt lt data (first + (2 * root + 1)) (first + (2 * root + 1) + 1) then
          2 * root + 1 + 1
        else 2 * root + 1
      if !lessAt lt data (first + root) (first + child) then data
      else siftDownLessFunc lt hi first fuel child (swapAt data (first + root) (first + child))

/-- Go `heapSortLessFunc`. -/
def heapSortLessFunc {α : Type} (lt : α → α → Bool) (data : List α) (a b : Nat) : List α :=
  let first := a
  let hi := b - a
  let built := (List.range ((hi - 1) / 2 + 1)).reverse.foldl
    (fun d i => siftDownLessFunc lt hi first hi i d) data
  (List.range hi).reverse.foldl
    (fun d i => siftDownLessFunc lt i first i 0 (swapAt d first (first + i))) built

/-- The loop `for i <= j && data.Less(i, a) { i++ }` of `partitionLessFunc`;
`n` is `j + 1 - i`. Returns `i`. -/
def scanLess {α : Type} (lt : α → α → Bool) (data : List α) (a : Nat) : Nat → Nat → Nat
  | 0, i => i
  | n + 1, i => if lessAt lt data i a then scanLess lt data a n (i + 1) else i

/-- The loop `for i <= j && !data.Less(j, a) { j-- }` of `partitionLessFunc`;
`n` is `j + 1 - i`. Returns `j + 1`. -/
def scanNotLess {α : Type} (lt : α → α → Bool) (data : List α) (a i : Nat) : Nat → Nat
  | 0 => i
  | n + 1 => if !lessAt lt data (i + n) a then scanNotLess lt data a i n else i + n + 1

/-- The loop `for { ... }` of `partitionLessFunc`, entered with `i <= j + 1`;
`jn` is `j + 1`. Every round but the last moves `i` up, so `fuel = jn - i`
rounds are enough. Returns the data and `j + 1`. -/
def partitionLoop {α : Type} (lt : α → α → Bool) (a : Nat) :
    Nat → List α → Nat → Nat → List α × Nat
  | 0, data, _, jn => (data, jn)
  | fuel + 1, data, i, jn =>
    let i1 := scanLess lt data a (jn - i) i
    let jn1 := scanNotLess lt data a i1 (jn - i1)
    if i1 ≥ jn1 then (data, jn1)
    else partitionLoop lt a fuel (swapAt data i1 (jn1 - 1)) (i1 + 1) (jn1 - 1)

/-- Go `partitionLessFunc`: the data, the new index of the pivot and whether
the slice was partitioned already. -/
def partitionLessFunc {α : Type} (lt : α → α → Bool) (data : List α) (a b pivot : Nat) :
    List α × Nat × Bool :=
  let data := swapAt data a pivot
  let i := scanLess lt data a (b - (a + 1)) (a + 1)
  let jn := scanNotLess lt data a i (b - i)
  if i ≥ jn then (swapAt data (jn - 1) a, jn - 1, true)
  else
    let r := partitionLoop lt a (jn - 1 - (i + 1)) (swapAt data i (jn - 1)) (i + 1) (jn - 1)
    (swapAt r.1 (r.2 - 1) a, r.2 - 1, false)

/-- The loop `for i <= j && !data.Less(a, i) { i++ }` of
`partitionEqualLessFunc`; `n` is `j + 1 - i`. Returns `i`. -/
def scanNotGreater {α : Type} (lt : α → α → Bool) (data : List α) (a : Nat) : Nat → Nat → Nat
  | 0, i => i
  | n + 1, i => if !lessAt lt data a i then scanNotGreater lt data a n (i + 1) else i

/-- The loop `for i <= j && data.Less(a, j) { j-- }` of
`partitionEqualLessFunc`; `n` is `j + 1 - i`. Returns `j + 1`. -/
def scanGreater {α : Type} (lt : α → α → Bool) (data : List α) (a i : Nat) : Nat → Nat
  | 0 => i
  | n + 1 => if lessAt lt data a (i + n) then scanGreater lt data a i n else i + n + 1

/-- The loop of `partitionEqualLessFunc`; `jn` is `j + 1`. Returns the data and
`i`. -/
def partitionEqualLoop {α : Type} (lt : α → α → Bool) (a : Nat) :
    Nat → List α → Nat → Nat → List α × Nat
  | 0, data, i, _ => (data, i)
  | fuel + 1, data, i, jn =>
    let i1 := scanNotGreater lt data a (jn - i) i
    let jn1 := scanGreater lt data a i1 (jn - i1)
    if i1 ≥ jn1 then (data, i1)
    else partitionEqualLoop lt a fuel (swapAt data i1 (jn1 - 1)) (i1 + 1) (jn1 - 1)

/-- Go `partitionEqualLessFunc`: the data and the index after the elements
equal to the pivot. -/
def partitionEqualLessFunc {α : Type} (lt : α → α → Bool) (data : List α) (a b pivot : Nat) :
    List α × Nat :=
  partitionEqualLoop lt a (b - a) (swapAt data a pivot) (a + 1) b

/-- The loop `for i < b && !data.Less(i, i-1) { i++ }` of
`partialInsertionSortLessFunc`; `n` is `b - i`. Returns `i`. -/
def scanSorted {α : Type} (lt : α → α → Bool) (data : List α) : Nat → Nat → Nat
  | 0, i => i
  | n + 1, i => if !lessAt lt data i (i - 1) then scanSorted lt data n (i + 1) else i

/-- The loop `for j := i - 1; j >= 1; j--` of `partialInsertionSortLessFunc`,
which shifts the smaller element to the left; the argument is `j`. -/
def shiftLeft {α : Type} (lt : α → α → Bool) : Nat → List α → List α
  | 0, data => data
  | j + 1, data =>
    if !lessAt lt data (j + 1) j then data else shiftLeft lt j (swapAt data (j + 1) j)

/-- The loop `for j := i + 1; j < b; j++` of `partialInsertionSortLessFunc`,
which shifts the greater element to the right; `n` is `b - j`. -/
def shiftRight {α : Type} (lt : α → α → Bool) : Nat → Nat → List α → List α
  | 0, _, data => data
  | n + 1, j, data =>
    if !lessAt lt data j (j - 1) then data else shiftRight lt n (j + 1) (swapAt data j (j - 1))

/-- The loop `for j := 0; j < maxSteps; j++` of `partialInsertionSortLessFunc`;
`steps` is the number of rounds left. -/
def partialInsertionLoop {α : Type} (lt : α → α → Bool) (a b : Nat) :
    Nat → Nat → List α → List α × Bool
  | 0, _, data => (data, false)
  | steps + 1, i, data =>
    let i1 := scanSorted lt data (b - i) i
    if i1 = b then (data, true)
    else if b - a < 50 then (data, false)
    else
      let d1 := swapAt data i1 (i1 - 1)
      let d2 := if i1 - a ≥ 2 then shiftLeft lt (i1 - 1) d1 else d1
      let d3 := if b - i1 ≥ 2 then shiftRight lt (b - (i1 + 1)) (i1 + 1) d2 else d2
      partialInsertionLoop lt a b steps i1 d3

/-- Go `partialInsertionSortLessFunc`: the data and whether the slice is sorted
at the end. -/
def partialInsertionSortLessFunc {α : Type} (lt : α → α → Bool) (data : List α) (a b : Nat) :
    List α × Bool :=
  partialInsertionLoop lt a b 5 (a + 1) data

/-- Go `reverseRangeLessFunc`; `n` bounds the rounds of the loop `for i < j`. -/
def reverseLoop {α : Type} : Nat → Nat → Nat → List α → List α
  | 0, _, _, data => data
  | n + 1, i, jn, data =>
    if i + 1 < jn then reverseLoop n (i + 1) (jn - 1) (swapAt data i (jn - 1)) else data

/-- Go `reverseRangeLessFunc`. -/
def reverseRangeLessFunc {α : Type} (data : List α) (a b : Nat) : List α :=
  reverseLoop (b - a) a b data

/-- The search of `bitsLen` for the least `k` with `n < 2 ^ k`, from `k` on. -/
def bitsLenFrom (n : Nat) : Nat → Nat → Nat
  | 0, k => k
  | fuel + 1, k => if n < 2 ^ k then k else bitsLenFrom n fuel (k + 1)

/-- Go `bits.Len`: the number of bits needed to write `n`, which is the least
`k` with `n < 2 ^ k`; it is at most `n`. -/
def bitsLen (n : Nat) : Nat :=
  bitsLenFrom n n 0

/-- Go `breakPatternsLessFunc`. The three positions `other` come from the
pseudo-random generator `xorshift` seeded with the length; the generator is
the parameter `random`, which gives the value of its `i`-th call. -/
def breakPatternsLessFunc {α : Type} (random : Nat → Nat → Nat) (data : List α) (a b : Nat) :
    List α :=
  let length := b - a
  if length ≥ 8 then
    let modulus := 2 ^ bitsLen length
    let idx := a + (length / 4) * 2 - 1
    (List.range 3).foldl
      (fun d i =>
        let other := random length i % modulus
        let other := if other ≥ length then other - length else other
        swapAt d (idx - 1 + i) (a + other)) data
  else data

/-- Go `order2LessFunc`: the two indices in order, and the number of swaps. -/
def order2LessFunc {α : Type} (lt : α → α → Bool) (data : List α) (a b swaps : Nat) :
    Nat × Nat × Nat :=
  if lessAt lt data b a then (b, a, swaps + 1) else (a, b, swaps)

/-- Go `medianLessFunc`: the index of the median of three, and the number of
swaps. -/
def medianLessFunc {α : Type} (lt : α → α → Bool) (data : List α) (a b c swaps : Nat) :
    Nat × Nat :=
  let r1 := order2LessFunc lt data a b swaps
  let r2 := order2LessFunc lt data r1.2.1 c r1.2.2
  let r3 := order2LessFunc lt data r1.1 r2.1 r2.2.2
  (r3.2.1, r3.2.2)

/-- Go `medianAdjacentLessFunc`. -/
def medianAdjacentLessFunc {α : Type} (lt : α → α → Bool) (data : List α) (a swaps : Nat) :
    Nat × Nat :=
  medianLessFunc lt data (a - 1) a (a + 1) swaps

/-- Go `sortedHint`. -/
inductive SortedHint where
  | unknownHint
  | increasingHint
  | decreasingHint
deriving DecidableEq, Repr

/-- Go `choosePivotLessFunc`. -/
def choosePivotLessFunc {α : Type} (lt : α → α → Bool) (data : List α) (a b : Nat) :
    Nat × SortedHint :=
  let l := b - a
  let i := a + l / 4 * 1
  let j := a + l / 4 * 2
  let k := a + l / 4 * 3
  let r : Nat × Nat :=
    if l ≥ 8 then
      if l ≥ 50 then
        let ri := medianAdjacentLessFunc lt data i 0
        let rj := medianAdjacentLessFunc lt data j ri.2
        let rk := medianAdjacentLessFunc lt data k rj.2
        medianLessFunc lt data ri.1 rj.1 rk.1 rk.2
      else medianLessFunc lt data i j k 0
    else (j, 0)
  if r.2 = 0 then (r.1, .increasingHint)
  else if r.2 = 12 then (r.1, .decreasingHint)
  else (r.1, .unknownHint)

/-- The part of a round of the loop of `pdqsortLessFunc` between the check of
`limit` and the partitioning: `breakPatternsLessFunc` after an unbalanced
partitioning, the choice of the pivot, the reversal of a decreasing slice and
the attempt of `partialInsertionSortLessFunc`. Gives the data, the pivot and
whether the slice is sorted already. -/
def pdqsortSetup {α : Type} (lt : α → α → Bool) (random : Nat → Nat → Nat) (data : List α)
    (a b : Nat) (wasBalanced wasPartitioned : Bool) : List α × Nat × Bool :=
  let data1 := if wasBalanced then data else breakPatternsLessFunc random data a b
  let chosen := choosePivotLessFunc lt data1 a b
  let data2 :=
    if chosen.2 = .decreasingHint then reverseRangeLessFunc data1 a b else data1
  let pivot := if chosen.2 = .decreasingHint then (b - 1) - (chosen.1 - a) else chosen.1
  let hint := if chosen.2 = .decreasingHint then SortedHint.increasingHint else chosen.2
  let tried : List α × Bool :=
    if wasBalanced ∧ wasPartitioned ∧ hint = .increasingHint then
      partialInsertionSortLessFunc lt data2 a b
    else (data2, false)
  (tried.1, pivot, tried.2)

/-- Go `pdqsortLessFunc`. The loop `for` and the recursive call both work on a
shorter part of the slice; `fuel` bounds their depth, and `none` means the
budget is used up. -/
def pdqsortLessFunc {α : Type} (lt : α → α → Bool) (random : Nat → Nat → Nat) :
    Nat → List α → Nat → Nat → Nat → Bool → Bool → Option (List α)
  | 0, data, a, b, _, _, _ =>
    if b - a ≤ 12 then some (insertionSortLessFunc lt data a b) else none
  | fuel + 1, data, a, b, limit, wasBalanced, wasPartitioned =>
    if b - a ≤ 12 then some (insertionSortLessFunc lt data a b)
    else if limit = 0 then some (heapSortLessFunc lt data a b)
    else
      let limit1 := if wasBalanced then limit else limit - 1
      let s := pdqsortSetup lt random data a b wasBalanced wasPartitioned
      if s.2.2 then some s.1
      else if a > 0 ∧ !lessAt lt s.1 (a - 1) s.2.1 then
        let r := partitionEqualLessFunc lt s.1 a b s.2.1
        pdqsortLessFunc lt random fuel r.1 r.2 b limit1 wasBalanced wasPartitioned
      else
        let r := partitionLessFunc lt s.1 a b s.2.1
        let mid := r.2.1
        if mid - a < b - mid then
          match pdqsortLessFunc lt random fuel r.1 a mid limit1 true true with
          | none => none
          | some data3 =>
            pdqsortLessFunc lt random fuel data3 (mid + 1) b limit1
              (decide (mid - a ≥ (b - a) / 8)) r.2.2
        else
          match pdqsortLessFunc lt random fuel r.1 (mid + 1) b limit1 true true with
          | none => none
          | some data3 =>
            pdqsortLessFunc lt random fuel data3 a mid limit1
              (decide (b - mid ≥ (b - a) / 8)) r.2.2

/-- Go `sort.Slice` with a comparison of the elements at two indices, as
implemented since Go 1.19 (the repository needs at least this version: it
calls `url.JoinPath`). -/
def sortSlice {α : Type} (lt : α → α → Bool) (random : Nat → Nat → Nat) (data : List α) :
    Option (List α) :=
  pdqsortLessFunc lt random data.length data 0 data.length (bitsLen data.length) true true

/-- The comparison that `copyArtifactsToTempdir` passes to `sort.Slice`:
`func(i, j int) bool { return !fileutil.IsSymlink(deps[i]) }`. -/
def regularFirst {α : Type} (isSymlink : α → Bool) : α → α → Bool :=
  fun dep _ => !isSymlink dep

/-- The reordering step of `copyArtifactsToTempdir`:
`sort.Slice(buildResult.RuntimeDeps, func(i, j int) bool { return
!fileutil.IsSymlink(buildResult.RuntimeDeps[i]) })`. -/
def sortRuntimeDeps (isSymlink : String → Bool) (random : Nat → Nat → Nat)
    (deps : List String) : Option (List String) :=
  sortSlice (regularFirst isSymlink) random deps

/-- The lists reached from a list by swaps of two elements, each swap allowed
by `P`. -/
inductive Swaps {α : Type} (P : List α → Nat → Nat → Prop) : List α → List α → Prop
  | refl (d : List α) : Swaps P d d
  | step {d d1 : List α} (i j : Nat) : P d i j → Swaps P (swapAt d i j) d1 → Swaps P d d1

/-- The swaps of a sort of `data[a:b]`: of two elements of `data[a:b]`, or of an
element with its left neighbour after `Less` has said that it is smaller. -/
def SortSwap {α : Type} (lt : α → α → Bool) (a b : Nat) (d : List α) (i j : Nat) : Prop :=
  (a ≤ i ∧ i < b ∧ a ≤ j ∧ j < b) ∨ (i = j + 1 ∧ lessAt lt d i j = true)

/-- Whether the element at index `k` is a symlink; `none` outside the list. -/
def flagAt {α : Type} (sym : α → Bool) (d : List α) (k : Nat) : Option Bool :=
  (d[k]?).map sym

/-- No symlink stands before a regular file. -/
def Separated {α : Type} (sym : α → Bool) (d : List α) : Prop :=
  ∀ x y, x < y → flagAt sym d y = some false → flagAt sym d x = some false

/-- No symlink stands before a regular file among the first `i` elements. -/
def SeparatedBelow {α : Type} (sym : α → Bool) (d : List α) (i : Nat) : Prop :=
  ∀ x y, x < y → y < i → flagAt sym d y = some false → flagAt sym d x = some false

/-- The elements of `d[a:b]` are all symlinks or all regular files. -/
def Uniform {α : Type} (sym : α → Bool) (d : List α) (a b : Nat) : Prop :=
  ∃ c, ∀ k, a ≤ k → k < b → flagAt sym d k = some c

/-- What `copyArtifactsToTempdir` asks of the file system and of packages whose
code is not among the sources, taken as given. -/
structure CopyHost where
  /-- Result of `fileutil.IsSymlink(path)`. -/
  isSymlink : String → Bool
  /-- Result of `filepath.EvalSymlinks(path)`. -/
  evalSymlinks : String → Except String String
  /-- The error of `copy.Copy(src, dest)`, if any. -/
  copy : String → String → Option String
  /-- The values of the pseudo-random generator of `sort.Slice`. -/
  random : Nat → Nat → Nat

/-- The loop of `copyArtifactsToTempdir` over the reordered runtime
dependencies: the list after it (rewritten up to the first error) and the
error it returned with, if any. -/
def relocateDeps (h : Host) (c : CopyHost) (buildDir tempDir : String) :
    List String → List String × Option BundleError
  | [] => ([], none)
  | dep :: rest =>
    match h.isBelow dep buildDir with
    | .error e => (dep :: rest, some (.helper e))
    | .ok isBelow =>
      let topDir := if isBelow then buildDir else "/"
      match filepathRel h.goos topDir dep with
      | .error e => (dep :: rest, some (.helper e))
      | .ok relPath =>
        let newDepPath := filepathJoin h.goos [tempDir, relPath]
        match c.evalSymlinks dep with
        | .error e => (dep :: rest, some (.helper e))
        | .ok resolvedPath =>
          match c.copy resolvedPath newDepPath with
          | some e => (dep :: rest, some (.helper e))
          | none =>
            let r := relocateDeps h c buildDir tempDir rest
            (newDepPath :: r.1, r.2)

/-- The first step of `copyArtifactsToTempdir`: an executable below the build
directory is copied below `tempDir` and its path rewritten. -/
def relocateExecutable (h : Host) (c : CopyHost) (buildResult : CBuildResult)
    (tempDir : String) : Except BundleError CBuildResult :=
  match h.isBelow buildResult.Executable buildResult.BuildDir with
  | .error e => .error (.helper e)
  | .ok false => .ok buildResult
  | .ok true =>
    match filepathRel h.goos buildResult.BuildDir buildResult.Executable with
    | .error e => .error (.helper e)
    | .ok relPath =>
      let newExecutablePath := filepathJoin h.goos [tempDir, relPath]
      match c.copy buildResult.Executable newExecutablePath with
      | some e => .error (.helper e)
      | none => .ok { buildResult with Executable := newExecutablePath }

/-- Go `copyArtifactsToTempdir`: the build result after the call (it is changed
in place, also when the call fails) and the error, if any. -/
def copyArtifactsToTempdir (h : Host) (c : CopyHost) (buildResult : CBuildResult)
    (tempDir : String) : CBuildResult × Option BundleError :=
  match relocateExecutable h c buildResult tempDir with
  | .error e => (buildResult, some e)
  | .ok moved =>
    match sortRuntimeDeps c.isSymlink c.random moved.RuntimeDeps with
    | none => (moved, some .budget)
    | some sorted =>
      let r := relocateDeps h c moved.BuildDir tempDir sorted
      match r.2 with
      | some e => ({ moved with RuntimeDeps := r.1 }, some e)
      | none => ({ moved with RuntimeDeps := r.1, BuildDir := tempDir }, none)

/-- A file system without symlinks on which every copy succeeds. -/
def sampleCopyHost : CopyHost where
  isSymlink := fun _ => false
  evalSymlinks := fun path => .ok path
  copy := fun _ _ => none
  random := fun _ _ => 0

/-- How `copyArtifactsToTempdir` rewrites one runtime dependency: to `tempDir`
joined with its path relative to the build directory when it is below it, and
relative to the root otherwise. -/
def Relocated (h : Host) (buildDir tempDir : String) (dep new : String) : Prop :=
  ∃ below rel,
    h.isBelow dep buildDir = .ok below ∧
    filepathRel h.goos (if below then buildDir else "/") dep = .ok rel ∧
    new = filepathJoin h.goos [tempDir, rel] ∧
    (isPlainPath h.goos rel = true → isBelowDir h.goos tempDir new = true)

/-! ## Basic facts about the archive writer -/

theorem hasFileEntry_append (w v : Archive) (p : String) :
    HasFileEntry (w ++ v) p = (HasFileEntry w p || HasFileEntry v p) := by
  simp [HasFileEntry, List.any_append]

theorem writeFile_ok {h : Host} {w w1 : Archive} {p src : String}
    (hw : WriteFile h w p src = .ok w1) : w1 = w ++ [⟨p, .file, src⟩] := by
  unfold WriteFile at hw
  split at hw
  · exact absurd hw (by simp)
  · simpa using hw.symm

theorem writeFile_readable {h : Host} {w : Archive} {p src : String} {c : List UInt8}
    (hr : h.readFile src = some c) : WriteFile h w p src = .ok (w ++ [⟨p, .file, src⟩]) := by
  simp [WriteFile, hr]

theorem writeHardLink_ok {w w1 : Archive} {p q : String}
    (hw : WriteHardLink w p q = .ok w1) : w1 = w ++ [⟨q, .hardLink, p⟩] := by
  unfold WriteHardLink at hw
  split at hw
  · simpa using hw.symm
  · exact absurd hw (by simp)

theorem writeDir_ok {h : Host} {w w1 : Archive} {p src : String}
    (hw : WriteDir h w p src = .ok w1) : ∃ new, w1 = w ++ new := by
  unfold WriteDir at hw
  split at hw
  · exact absurd hw (by simp)
  · exact ⟨_, by simpa using hw.symm⟩

/-! ## The archive only grows -/

theorem assembleDep_grows (h : Host) (opts : Opts) (br : CBuildResult) (st : DepsState)
    (dep : String) : st.archive <+: (assembleDep h opts br st dep).1.archive := by
  unfold assembleDep
  split
  · exact List.prefix_refl _
  · split
    · exact List.prefix_refl _
    · split
      · exact List.prefix_refl _
      · dsimp only
        split
        · split
          · exact List.prefix_refl _
          · rename_i w hw
            rw [writeHardLink_ok hw]
            exact List.prefix_append _ _
        · split
          · exact List.prefix_refl _
          · rename_i w1 hw1
            split
            · rw [writeFile_ok hw1]
              exact List.prefix_append _ _
            · rename_i w2 hw2
              rw [writeHardLink_ok hw2, writeFile_ok hw1, List.append_assoc]
              exact List.prefix_append _ _
  · split
    · exact List.prefix_refl _
    · split
      · exact List.prefix_refl _
      · dsimp only
        split
        · exact List.prefix_refl _
        · split
          · exact List.prefix_refl _
          · rename_i w hw
            rw [writeFile_ok hw]
            exact List.prefix_append _ _

theorem depsLoop_grows (h : Host) (opts : Opts) (br : CBuildResult) (deps : List String) :
    ∀ st : DepsState, st.archive <+: (depsLoop h opts br deps st).1.archive := by
  induction deps with
  | nil => intro st; exact List.prefix_refl _
  | cons dep deps ih =>
    intro st
    have hstep := assembleDep_grows h opts br st dep
    unfold depsLoop
    split
    · rename_i st1 e heq
      rw [heq] at hstep
      exact hstep
    · rename_i st1 heq
      rw [heq] at hstep
      exact hstep.trans (ih st1)

theorem assembleExecutable_grows (h : Host) (w : Archive) (br : CBuildResult) :
    w <+: (assembleExecutable h w br).1 := by
  unfold assembleExecutable
  dsimp only
  split
  · exact List.prefix_refl _
  · exact List.prefix_refl _
  · split
    · exact List.prefix_refl _
    · split
      · exact List.prefix_refl _
      · rename_i w1 hw1
        have h1 : w <+: w1 := by rw [writeFile_ok hw1]; exact List.prefix_append _ _
        split
        · exact h1
        · exact h1
        · split
          · exact h1
          · rename_i w2 hw2
            obtain ⟨new, hnew⟩ := writeDir_ok hw2
            rw [hnew]
            exact h1.trans (List.prefix_append _ _)

theorem archiveDictionary_grows (h : Host) (opts : Opts) (w : Archive) (br : CBuildResult) :
    w <+: (archiveDictionary h opts w br).1 := by
  unfold archiveDictionary
  split
  · dsimp only
    split
    · exact List.prefix_refl _
    · rename_i w1 hw1
      rw [writeFile_ok hw1]
      exact List.prefix_append _ _
  · exact List.prefix_refl _

theorem assembleDictionary_grows (h : Host) (opts : Opts) (w : Archive) (br : CBuildResult) :
    w <+: (assembleDictionary h opts w br).2.1 := by
  unfold assembleDictionary
  split
  · exact List.prefix_refl _
  · exact archiveDictionary_grows h _ w br

theorem prepareSeedsLoop_grows (h : Host) (dir : String) (dirs : List String) :
    ∀ (targetDirs : List String) (w : Archive),
      w <+: (prepareSeedsLoop h dir dirs targetDirs w).1 := by
  induction dirs with
  | nil => intro _ w; exact List.prefix_refl _
  | cons d dirs ih =>
    intro targetDirs w
    unfold prepareSeedsLoop
    dsimp only
    split
    · exact List.prefix_refl _
    · split
      · exact List.prefix_refl _
      · rename_i w1 hw1
        obtain ⟨new, hnew⟩ := writeDir_ok hw1
        exact (hnew ▸ List.prefix_append w new).trans (ih _ w1)

theorem prepareSeeds_grows (h : Host) (dirs : List String) (dir : String) (w : Archive) :
    w <+: (prepareSeeds h dirs dir w).1 :=
  prepareSeedsLoop_grows h dir dirs [] w

theorem assembleSeeds_grows (h : Host) (opts : Opts) (w : Archive) (br : CBuildResult) :
    w <+: (assembleSeeds h opts w br).1 := by
  unfold assembleSeeds
  cases h.fileExists br.SeedCorpus with
  | error e => exact List.prefix_refl _
  | ok haveDefault =>
    dsimp only
    generalize (if haveDefault = true then br.SeedCorpus :: opts.SeedCorpusDirs
      else opts.SeedCorpusDirs) = dirs
    by_cases hlen : dirs.length > 0
    · rw [if_pos hlen]
      have hg := prepareSeeds_grows h dirs
        (filepathJoin h.goos [fuzzTestPrefix h.goos br, "seeds"]) w
      split
      · rename_i w1 e heq
        rw [heq] at hg
        exact hg
      · rename_i w1 heq
        rw [heq] at hg
        exact hg
    · rw [if_neg hlen]

theorem assembleArtifacts_grows (h : Host) (opts : Opts) (w : Archive) (br : CBuildResult) :
    w <+: (assembleArtifacts h opts w br).archive := by
  have h1 := assembleExecutable_grows h w br
  unfold assembleArtifacts
  split
  · rename_i w1 e he
    rw [he] at h1
    exact h1
  · rename_i w1 exePath he
    rw [he] at h1
    have h2 := depsLoop_grows h opts br br.RuntimeDeps ⟨w1, [], "", []⟩
    split
    · rename_i st e hd
      rw [hd] at h2
      exact h1.trans h2
    · rename_i st hd
      rw [hd] at h2
      have h3 := assembleDictionary_grows h opts st.archive br
      split
      · rename_i opts1 w2 e hdict
        rw [hdict] at h3
        exact (h1.trans h2).trans h3
      · rename_i opts1 w2 dict hdict
        rw [hdict] at h3
        have h4 := assembleSeeds_grows h opts1 w2 br
        split
        · rename_i w3 e hs
          rw [hs] at h4
          exact ((h1.trans h2).trans h3).trans h4
        · rename_i w3 seeds hs
          rw [hs] at h4
          split
          · exact ((h1.trans h2).trans h3).trans h4
          · exact ((h1.trans h2).trans h3).trans h4

/-! ## The shape of a successful assembly -/

theorem assembleArtifacts_ok {h : Host} {opts : Opts} {w : Archive} {br : CBuildResult}
    (hok : (assembleArtifacts h opts w br).err = none) :
    ∃ w1 exePath st opts1 w2 dict w3 seeds env,
      assembleExecutable h w br = (w1, .ok exePath) ∧
      depsLoop h opts br br.RuntimeDeps ⟨w1, [], "", []⟩ = (st, none) ∧
      assembleDictionary h opts st.archive br = (opts1, w2, .ok dict) ∧
      assembleSeeds h opts1 w2 br = (w3, .ok seeds) ∧
      h.setenv opts1.Env "NO_CIFUZZ" "1" = .ok env ∧
      assembleArtifacts h opts w br =
        ⟨makeFuzzers br (baseFuzzer br opts1 st exePath dict seeds env),
          st.systemDeps, none, w3, opts1⟩ := by
  unfold assembleArtifacts at hok ⊢
  split at hok
  · simp at hok
  · rename_i w1 exePath he
    split at hok
    · simp at hok
    · rename_i st hd
      split at hok
      · simp at hok
      · rename_i opts1 w2 dict hdict
        split at hok
        · simp at hok
        · rename_i w3 seeds hs
          split at hok
          · simp at hok
          · rename_i env henv
            refine ⟨w1, exePath, st, opts1, w2, dict, w3, seeds, env, ?_⟩
            simp [he, hd, hdict, hs, henv, baseFuzzer]

theorem assembleExecutable_ok {h : Host} {w w1 : Archive} {br : CBuildResult}
    {exePath : String} (he : assembleExecutable h w br = (w1, .ok exePath)) :
    h.isBelow br.Executable br.BuildDir = .ok true ∧
    ∃ rel, filepathRel h.goos br.BuildDir br.Executable = .ok rel ∧
      exePath = linkPath h br rel ∧ (⟨exePath, .file, br.Executable⟩ : Entry) ∈ w1 := by
  unfold assembleExecutable at he
  dsimp only at he
  split at he
  · simp at he
  · simp at he
  · rename_i hb
    refine ⟨hb, ?_⟩
    split at he
    · simp at he
    · rename_i rel hrel
      refine ⟨rel, hrel, ?_⟩
      split at he
      · simp at he
      · rename_i w0 hw0
        have hmem : (⟨linkPath h br rel, .file, br.Executable⟩ : Entry) ∈ w0 := by
          rw [writeFile_ok hw0]
          simp [linkPath, binDir]
        split at he
        · simp at he
        · simp only [Prod.mk.injEq, Except.ok.injEq] at he
          obtain ⟨hw, hp⟩ := he
          subst hw
          exact ⟨by rw [← hp]; rfl, by rw [← hp]; exact hmem⟩
        · split at he
          · simp at he
          · rename_i w2 hw2
            simp only [Prod.mk.injEq, Except.ok.injEq] at he
            obtain ⟨hw, hp⟩ := he
            subst hw
            obtain ⟨new, hnew⟩ := writeDir_ok hw2
            refine ⟨by rw [← hp]; rfl, ?_⟩
            rw [← hp, hnew]
            exact List.mem_append_left _ hmem

theorem resolveDictionary_engineArgs {h : Host} {opts opts1 : Opts} {br : CBuildResult}
    (hr : resolveDictionary h opts br = .ok opts1) :
    opts1.EngineArgs = opts.EngineArgs := by
  unfold resolveDictionary at hr
  split at hr
  · split at hr
    · simp at hr
    · simp only [Except.ok.injEq] at hr
      rw [← hr]
    · simp only [Except.ok.injEq] at hr
      rw [← hr]
  · simp only [Except.ok.injEq] at hr
    rw [← hr]

theorem assembleDictionary_engineArgs (h : Host) (opts : Opts) (w : Archive)
    (br : CBuildResult) :
    (assembleDictionary h opts w br).1.EngineArgs = opts.EngineArgs := by
  unfold assembleDictionary
  split
  · rfl
  · rename_i opts1 hr
    exact resolveDictionary_engineArgs hr

theorem sanitizerFuzzers_eq (base : Fuzzer) (sanitizers : List String) :
    ∀ fuzzers : List Fuzzer,
      sanitizerFuzzers base sanitizers fuzzers =
        fuzzers ++ (sanitizers.filter (fun s => s ≠ "undefined")).map
          (fun s => { base with Engine := "LIBFUZZER", Sanitizer := stringsToUpper s }) := by
  induction sanitizers with
  | nil => intro fuzzers; simp [sanitizerFuzzers]
  | cons s rest ih =>
    intro fuzzers
    unfold sanitizerFuzzers
    by_cases hs : s = "undefined"
    · simp [hs, ih]
    · simp [hs, ih]

/-! ## The executable and the records -/

/-- C7: if the executable of a build result is not below its build directory,
`assembleArtifacts` fails with the error "fuzz test executable (...) is not
below build directory (...)", returns no `Fuzzer` records and leaves the archive
as it was. -/
theorem executable_not_below_fails (h : Host) (opts : Opts) (w : Archive)
    (br : CBuildResult) (quote : String → String)
    (hb : h.isBelow br.Executable br.BuildDir = .ok false) :
    ∃ e, (assembleArtifacts h opts w br).err = some e ∧
      e.message quote = "fuzz test executable (" ++ br.Executable
        ++ ") is not below build directory (" ++ br.BuildDir ++ ")" ∧
      (assembleArtifacts h opts w br).fuzzers = [] ∧
      (assembleArtifacts h opts w br).archive = w := by
  refine ⟨.notBelow br.Executable br.BuildDir, ?_, rfl, ?_, ?_⟩ <;>
    simp [assembleArtifacts, assembleExecutable, hb]

theorem executable_not_below_fails_witness :
    ∃ e, (assembleArtifacts sampleHost sampleOpts []
        { sampleBuild "foo" ["address"] [] with Executable := "/elsewhere/foo" }).err = some e ∧
      e.message id = "fuzz test executable (" ++ "/elsewhere/foo"
        ++ ") is not below build directory (" ++ "/p/build" ++ ")" ∧
      (assembleArtifacts sampleHost sampleOpts []
        { sampleBuild "foo" ["address"] [] with Executable := "/elsewhere/foo" }).fuzzers = [] ∧
      (assembleArtifacts sampleHost sampleOpts []
        { sampleBuild "foo" ["address"] [] with Executable := "/elsewhere/foo" }).archive = [] :=
  executable_not_below_fails sampleHost sampleOpts []
    { sampleBuild "foo" ["address"] [] with Executable := "/elsewhere/foo" } id (by decide)

/-- C5: for a build result whose sanitizer list is exactly `["coverage"]`, a
successful `assembleArtifacts` returns exactly one record, with engine
`LLVM_COV`, an empty sanitizer and the flags `["-merge=1", "."]`, whatever
engine arguments the options hold. -/
theorem coverage_single_record (h : Host) (opts : Opts) (w : Archive) (br : CBuildResult)
    (hcov : br.Sanitizers = ["coverage"])
    (hok : (assembleArtifacts h opts w br).err = none) :
    ∃ f, (assembleArtifacts h opts w br).fuzzers = [f] ∧ f.Engine = "LLVM_COV" ∧
      f.Sanitizer = "" ∧ f.EngineOptions.Flags = ["-merge=1", "."] := by
  obtain ⟨w1, exePath, st, opts1, w2, dict, w3, seeds, env, -, -, -, -, -, hr⟩ :=
    assembleArtifacts_ok hok
  rw [hr]
  simp [makeFuzzers, hcov, isCoverageBuild, baseFuzzer]

theorem coverage_single_record_witness :
    ∃ f, (assembleArtifacts sampleHost { sampleOpts with EngineArgs := ["-runs=10"] } []
        (sampleBuild "some_fuzz_test" ["coverage"] [])).fuzzers = [f] ∧
      f.Engine = "LLVM_COV" ∧ f.Sanitizer = "" ∧ f.EngineOptions.Flags = ["-merge=1", "."] :=
  coverage_single_record sampleHost { sampleOpts with EngineArgs := ["-runs=10"] } []
    (sampleBuild "some_fuzz_test" ["coverage"] []) rfl (by decide)

/-- C6: for a build result that is not a coverage build and whose assembly
succeeds, `assembleArtifacts` returns one record for each entry of the
sanitizer list other than "undefined", in list order, with engine `LIBFUZZER`,
the upper-cased entry as sanitizer and the engine arguments of the options as
flags; a build with the sanitizers `["undefined"]` yields no record. -/
theorem sanitizer_records (h : Host) (opts : Opts) (w : Archive) (br : CBuildResult)
    (hcov : isCoverageBuild br.Sanitizers = false)
    (hok : (assembleArtifacts h opts w br).err = none) :
    (∃ base : Fuzzer,
      (assembleArtifacts h opts w br).fuzzers =
        (br.Sanitizers.filter (fun s => s ≠ "undefined")).map
          (fun s => { base with
                        Engine := "LIBFUZZER"
                        Sanitizer := stringsToUpper s
                        EngineOptions := { base.EngineOptions with Flags := opts.EngineArgs } }))
    ∧ (br.Sanitizers = ["undefined"] → (assembleArtifacts h opts w br).fuzzers = []) := by
  obtain ⟨w1, exePath, st, opts1, w2, dict, w3, seeds, env, -, -, hdict, -, -, hr⟩ :=
    assembleArtifacts_ok hok
  have hargs : opts1.EngineArgs = opts.EngineArgs := by
    have := assembleDictionary_engineArgs h opts st.archive br
    rw [hdict] at this
    exact this
  have hf : (assembleArtifacts h opts w br).fuzzers =
      (br.Sanitizers.filter (fun s => s ≠ "undefined")).map
        (fun s => { baseFuzzer br opts1 st exePath dict seeds env with
                      Engine := "LIBFUZZER", Sanitizer := stringsToUpper s }) := by
    rw [hr]
    simp [makeFuzzers, hcov, sanitizerFuzzers_eq]
  refine ⟨⟨baseFuzzer br opts1 st exePath dict seeds env, ?_⟩, ?_⟩
  · rw [hf]
    simp [baseFuzzer, hargs]
  · intro hu
    rw [hf, hu]
    simp

theorem sanitizer_records_witness :
    ((∃ base : Fuzzer,
      (assembleArtifacts sampleHost { sampleOpts with EngineArgs := ["-runs=10"] } []
        (sampleBuild "foo" ["address", "undefined"]
          ["/p/build/lib.so", "/usr/lib/libBLAS.so"])).fuzzers =
        (["address", "undefined"].filter (fun s => s ≠ "undefined")).map
          (fun s => { base with
                        Engine := "LIBFUZZER"
                        Sanitizer := stringsToUpper s
                        EngineOptions := { base.EngineOptions with Flags := ["-runs=10"] } }))
      ∧ (["address", "undefined"] = ["undefined"] →
          (assembleArtifacts sampleHost { sampleOpts with EngineArgs := ["-runs=10"] } []
            (sampleBuild "foo" ["address", "undefined"]
              ["/p/build/lib.so", "/usr/lib/libBLAS.so"])).fuzzers = []))
    ∧ (assembleArtifacts sampleHost { sampleOpts with EngineArgs := ["-runs=10"] } []
        (sampleBuild "foo" ["address", "undefined"]
          ["/p/build/lib.so", "/usr/lib/libBLAS.so"])).fuzzers.map
            (fun f => (f.Engine, f.Sanitizer, f.Path, f.EngineOptions.Flags))
        = [("LIBFUZZER", "ADDRESS", "libfuzzer/address+undefined/foo/bin/foo", ["-runs=10"])]
    ∧ (assembleArtifacts sampleHost sampleOpts []
        (sampleBuild "foo" ["undefined"] [])).fuzzers = [] :=
  ⟨sanitizer_records sampleHost { sampleOpts with EngineArgs := ["-runs=10"] } []
      (sampleBuild "foo" ["address", "undefined"] ["/p/build/lib.so", "/usr/lib/libBLAS.so"])
      (by decide) (by decide),
    by decide, by decide⟩

theorem assembleArtifacts_grows_exe (h : Host) (opts : Opts) (w : Archive)
    (br : CBuildResult) :
    (assembleExecutable h w br).1 <+: (assembleArtifacts h opts w br).archive := by
  unfold assembleArtifacts
  split
  · rename_i w1 e he
    rw [he]
  · rename_i w1 exePath he
    rw [he]
    have h2 := depsLoop_grows h opts br br.RuntimeDeps ⟨w1, [], "", []⟩
    split
    · rename_i st e hd
      rw [hd] at h2
      exact h2
    · rename_i st hd
      rw [hd] at h2
      have h3 := assembleDictionary_grows h opts st.archive br
      split
      · rename_i opts1 w2 e hdict
        rw [hdict] at h3
        exact h2.trans h3
      · rename_i opts1 w2 dict hdict
        rw [hdict] at h3
        have h4 := assembleSeeds_grows h opts1 w2 br
        split
        · rename_i w3 e hs
          rw [hs] at h4
          exact (h2.trans h3).trans h4
        · rename_i w3 seeds hs
          rw [hs] at h4
          split
          · exact (h2.trans h3).trans h4
          · exact (h2.trans h3).trans h4

theorem assembleArtifacts_err_fuzzers {h : Host} {opts : Opts} {w : Archive}
    {br : CBuildResult} {e : BundleError}
    (herr : (assembleArtifacts h opts w br).err = some e) :
    (assembleArtifacts h opts w br).fuzzers = [] := by
  unfold assembleArtifacts at herr ⊢
  split
  · rfl
  · split
    · rfl
    · split
      · rfl
      · split
        · rfl
        · split
          · rfl
          · simp_all

theorem assembleExecutable_writes {h : Host} {w : Archive} {br : CBuildResult}
    {rel : String} {content : List UInt8}
    (hb : h.isBelow br.Executable br.BuildDir = .ok true)
    (hrel : filepathRel h.goos br.BuildDir br.Executable = .ok rel)
    (hread : h.readFile br.Executable = some content) :
    (⟨linkPath h br rel, .file, br.Executable⟩ : Entry) ∈ (assembleExecutable h w br).1 := by
  unfold assembleExecutable
  simp only [hb, hrel, writeFile_readable hread]
  have hmem : (⟨linkPath h br rel, .file, br.Executable⟩ : Entry) ∈
      w ++ [(⟨filepathJoin h.goos [filepathJoin h.goos [fuzzTestPrefix h.goos br, "bin"], rel],
        .file, br.Executable⟩ : Entry)] := by
    simp [linkPath, binDir]
  split
  · exact hmem
  · exact hmem
  · split
    · exact hmem
    · rename_i w2 hw2
      obtain ⟨new, hnew⟩ := writeDir_ok hw2
      rw [hnew]
      exact List.mem_append_left _ hmem

/-- C4: for a build result whose executable lies below its build directory and
for which the archive write of the executable succeeds, `assembleArtifacts`
writes the executable at the archive path
`<prefix>/bin/<path relative to the build directory>`, where `<prefix>` joins
the engine ("replayer" for a coverage build, "libfuzzer" otherwise), the
sanitizer segment ("none" when the joined sanitizers are empty) and the fuzz
test name; every returned record has that path as `Path` and the fuzz test name
as `Target`. -/
theorem executable_archive_path (h : Host) (opts : Opts) (w : Archive) (br : CBuildResult)
    (rel : String) (content : List UInt8)
    (hb : h.isBelow br.Executable br.BuildDir = .ok true)
    (hrel : filepathRel h.goos br.BuildDir br.Executable = .ok rel)
    (hread : h.readFile br.Executable = some content) :
    (⟨filepathJoin h.goos
        [filepathJoin h.goos
          [filepathJoin h.goos
            [if isCoverageBuild br.Sanitizers then "replayer" else "libfuzzer",
             if stringsJoin br.Sanitizers "+" = "" then "none"
               else stringsJoin br.Sanitizers "+",
             br.Name],
           "bin"],
         rel], .file, br.Executable⟩ : Entry) ∈ (assembleArtifacts h opts w br).archive ∧
    ∀ f ∈ (assembleArtifacts h opts w br).fuzzers,
      f.Path = filepathJoin h.goos
        [filepathJoin h.goos
          [filepathJoin h.goos
            [if isCoverageBuild br.Sanitizers then "replayer" else "libfuzzer",
             if stringsJoin br.Sanitizers "+" = "" then "none"
               else stringsJoin br.Sanitizers "+",
             br.Name],
           "bin"],
         rel] ∧ f.Target = br.Name := by
  have hpath : linkPath h br rel = filepathJoin h.goos
      [filepathJoin h.goos
        [filepathJoin h.goos
          [if isCoverageBuild br.Sanitizers then "replayer" else "libfuzzer",
           if stringsJoin br.Sanitizers "+" = "" then "none"
             else stringsJoin br.Sanitizers "+",
           br.Name],
         "bin"],
       rel] := rfl
  rw [← hpath]
  refine ⟨(assembleArtifacts_grows_exe h opts w br).subset
    (assembleExecutable_writes hb hrel hread), ?_⟩
  intro f hf
  cases herr : (assembleArtifacts h opts w br).err with
  | some e =>
    rw [assembleArtifacts_err_fuzzers herr] at hf
    simp at hf
  | none =>
    obtain ⟨w1, exePath, st, opts1, w2, dict, w3, seeds, env, he, -, -, -, -, hr⟩ :=
      assembleArtifacts_ok herr
    obtain ⟨-, rel2, hrel2, hp, -⟩ := assembleExecutable_ok he
    have hrr : rel2 = rel := by
      rw [hrel] at hrel2
      exact (Except.ok.inj hrel2).symm
    subst hrr
    rw [hr] at hf
    rw [← hp]
    unfold makeFuzzers at hf
    split at hf
    · simp only [List.mem_singleton] at hf
      subst hf
      exact ⟨rfl, rfl⟩
    · rw [sanitizerFuzzers_eq] at hf
      simp only [List.nil_append, List.mem_map] at hf
      obtain ⟨s, -, hs⟩ := hf
      subst hs
      exact ⟨rfl, rfl⟩

theorem executable_archive_path_witness :
    ((⟨filepathJoin "linux"
        [filepathJoin "linux"
          [filepathJoin "linux"
            [if isCoverageBuild ["address"] then "replayer" else "libfuzzer",
             if stringsJoin ["address"] "+" = "" then "none" else stringsJoin ["address"] "+",
             "some_fuzz_test"],
           "bin"],
         "some_fuzz_test"], .file, "/p/build/some_fuzz_test"⟩ : Entry) ∈
        (assembleArtifacts sampleHost sampleOpts []
          (sampleBuild "some_fuzz_test" ["address"] ["/p/build/lib/helper.so"])).archive ∧
      ∀ f ∈ (assembleArtifacts sampleHost sampleOpts []
          (sampleBuild "some_fuzz_test" ["address"] ["/p/build/lib/helper.so"])).fuzzers,
        f.Path = filepathJoin "linux"
          [filepathJoin "linux"
            [filepathJoin "linux"
              [if isCoverageBuild ["address"] then "replayer" else "libfuzzer",
               if stringsJoin ["address"] "+" = "" then "none" else stringsJoin ["address"] "+",
               "some_fuzz_test"],
             "bin"],
           "some_fuzz_test"] ∧ f.Target = "some_fuzz_test")
    ∧ (assembleArtifacts sampleHost sampleOpts []
        (sampleBuild "some_fuzz_test" ["address"] ["/p/build/lib/helper.so"])).fuzzers.map
          (fun f => f.Path) = ["libfuzzer/address/some_fuzz_test/bin/some_fuzz_test"]
    ∧ (assembleArtifacts sampleHost sampleOpts []
        (sampleBuild "some_fuzz_test" ["coverage"] ["/p/build/lib/helper.so"])).fuzzers.map
          (fun f => f.Path) = ["replayer/coverage/some_fuzz_test/bin/some_fuzz_test"]
    ∧ fuzzTestPrefix "linux" (sampleBuild "some_fuzz_test" [] []) =
        "libfuzzer/none/some_fuzz_test" :=
  ⟨executable_archive_path sampleHost sampleOpts []
      (sampleBuild "some_fuzz_test" ["address"] ["/p/build/lib/helper.so"])
      "some_fuzz_test" [1] (by decide) (by decide) (by decide),
    by decide, by decide, by decide⟩

/-! ## One runtime dependency -/

theorem assembleDep_wellKnown {h : Host} (opts : Opts) {br : CBuildResult} (st : DepsState)
    {dep : String} (hb : h.isBelow dep br.BuildDir = .ok false)
    (hwk : matchesWellKnown h dep = true) :
    assembleDep h opts br st dep = (st, none) := by
  unfold matchesWellKnown at hwk
  unfold assembleDep
  simp only [hb, hwk, if_true]

theorem assembleDep_uncommon {h : Host} (opts : Opts) {br : CBuildResult} (st : DepsState)
    {dep : String} (hb : h.isBelow dep br.BuildDir = .ok false)
    (hwk : matchesWellKnown h dep = false) (hsys : h.isSystemLibrary dep = true) :
    assembleDep h opts br st dep = ({ st with systemDeps := st.systemDeps ++ [dep] }, none) := by
  unfold matchesWellKnown at hwk
  unfold assembleDep
  simp [hb, hwk, hsys]

theorem assembleDep_external {h : Host} (opts : Opts) {br : CBuildResult} (st : DepsState)
    {dep : String} (hb : h.isBelow dep br.BuildDir = .ok false)
    (hwk : matchesWellKnown h dep = false) (hsys : h.isSystemLibrary dep = false) :
    assembleDep h opts br st dep =
      if HasFileEntry st.archive (stagingPath h br dep) then
        ({ st with externalLibrariesPrefix :=
            filepathJoin h.goos [fuzzTestPrefix h.goos br, "external_libs"] },
          some (.conflict br.Name dep (GetSourcePath st.archive (stagingPath h br dep))))
      else
        match h.readFile dep with
        | none =>
          ({ st with externalLibrariesPrefix :=
              filepathJoin h.goos [fuzzTestPrefix h.goos br, "external_libs"] },
            some (.helper ("failed to read " ++ dep)))
        | some _ =>
          ({ st with
              externalLibrariesPrefix :=
                filepathJoin h.goos [fuzzTestPrefix h.goos br, "external_libs"]
              archive := st.archive ++ [⟨stagingPath h br dep, .file, dep⟩] }, none) := by
  unfold matchesWellKnown at hwk
  unfold assembleDep
  simp only [hb, hwk, hsys, stagingPath]
  by_cases hhas : HasFileEntry st.archive
      (filepathJoin h.goos
        [filepathJoin h.goos [fuzzTestPrefix h.goos br, "external_libs"],
          filepathBase h.goos dep]) = true
  · simp [hhas]
  · simp only [hhas]
    cases hr : h.readFile dep with
    | none => simp [WriteFile, hr]
    | some c => simp [WriteFile, hr]

theorem assembleDep_inTree {h : Host} (opts : Opts) {br : CBuildResult} (st : DepsState)
    {dep rel hash : String} (hb : h.isBelow dep br.BuildDir = .ok true)
    (hrel : filepathRel h.goos br.BuildDir dep = .ok rel)
    (hsha : sha256sum h dep = .ok hash) :
    (assembleDep h opts br st dep).2 = none ∧
    (assembleDep h opts br st dep).1.archive =
      (if HasFileEntry st.archive (storePath h hash dep) then
        st.archive ++ [⟨linkPath h br rel, .hardLink, storePath h hash dep⟩]
      else
        st.archive ++ [⟨storePath h hash dep, .file, dep⟩,
          ⟨linkPath h br rel, .hardLink, storePath h hash dep⟩]) ∧
    (assembleDep h opts br st dep).1.systemDeps = st.systemDeps ∧
    (assembleDep h opts br st dep).1.externalLibrariesPrefix = st.externalLibrariesPrefix := by
  have hread : ∃ c, h.readFile dep = some c := by
    unfold sha256sum at hsha
    cases hr : h.readFile dep with
    | none => simp [hr] at hsha
    | some c => exact ⟨c, rfl⟩
  obtain ⟨c, hc⟩ := hread
  unfold assembleDep
  simp only [hb, hrel, hsha, storePath, linkPath, binDir]
  by_cases hhas : HasFileEntry st.archive
      (filepathJoin h.goos ["cas", hash.take 2, hash.drop 2, filepathBase h.goos dep]) = true
  · simp [hhas, WriteHardLink]
  · have hfalse : HasFileEntry st.archive
        (filepathJoin h.goos ["cas", hash.take 2, hash.drop 2, filepathBase h.goos dep])
          = false := by
      simpa using hhas
    have hnew : HasFileEntry
        (st.archive ++ [(⟨filepathJoin h.goos
          ["cas", hash.take 2, hash.drop 2, filepathBase h.goos dep], .file, dep⟩ : Entry)])
        (filepathJoin h.goos ["cas", hash.take 2, hash.drop 2, filepathBase h.goos dep])
          = true := by
      simp [hasFileEntry_append, HasFileEntry]
    simp only [hfalse, WriteFile, hc, WriteHardLink, hnew]
    simp

/-- C8: for an in-tree dependency whose bytes have the SHA-256 digest `hash`, the
store path is `cas/<first two characters of hash>/<remaining 62 characters>/<basename>`;
the loop body writes the file there only if the archive has no entry at that
path yet, then in either case writes a hard link from
`<prefix>/bin/<path relative to the build directory>` to the store path, which
has an entry at that moment, and returns without error. -/
theorem in_tree_store_and_link (h : Host) (opts : Opts) (br : CBuildResult) (st : DepsState)
    (dep rel : String) (content : List UInt8)
    (hb : h.isBelow dep br.BuildDir = .ok true)
    (hrel : filepathRel h.goos br.BuildDir dep = .ok rel)
    (hread : h.readFile dep = some content) :
    ((h.sha256Hex content).take 2).length = 2 ∧
    ((h.sha256Hex content).drop 2).length = 62 ∧
    (h.sha256Hex content).take 2 ++ (h.sha256Hex content).drop 2 = h.sha256Hex content ∧
    (assembleDep h opts br st dep).2 = none ∧
    (HasFileEntry st.archive
        (filepathJoin h.goos ["cas", (h.sha256Hex content).take 2,
          (h.sha256Hex content).drop 2, filepathBase h.goos dep]) = true →
      (assembleDep h opts br st dep).1.archive = st.archive ++
        [⟨filepathJoin h.goos [filepathJoin h.goos [fuzzTestPrefix h.goos br, "bin"], rel],
          .hardLink,
          filepathJoin h.goos ["cas", (h.sha256Hex content).take 2,
            (h.sha256Hex content).drop 2, filepathBase h.goos dep]⟩]) ∧
    (HasFileEntry st.archive
        (filepathJoin h.goos ["cas", (h.sha256Hex content).take 2,
          (h.sha256Hex content).drop 2, filepathBase h.goos dep]) = false →
      (assembleDep h opts br st dep).1.archive = st.archive ++
        [⟨filepathJoin h.goos ["cas", (h.sha256Hex content).take 2,
            (h.sha256Hex content).drop 2, filepathBase h.goos dep], .file, dep⟩,
         ⟨filepathJoin h.goos [filepathJoin h.goos [fuzzTestPrefix h.goos br, "bin"], rel],
          .hardLink,
          filepathJoin h.goos ["cas", (h.sha256Hex content).take 2,
            (h.sha256Hex content).drop 2, filepathBase h.goos dep]⟩]) ∧
    HasFileEntry (assembleDep h opts br st dep).1.archive.dropLast
      (filepathJoin h.goos ["cas", (h.sha256Hex content).take 2,
        (h.sha256Hex content).drop 2, filepathBase h.goos dep]) = true := by
  have hlen := h.sha256Hex_length content
  have hsha : sha256sum h dep = .ok (h.sha256Hex content) := by simp [sha256sum, hread]
  obtain ⟨hnone, harch, -, -⟩ := assembleDep_inTree opts st hb hrel hsha
  have hl : (h.sha256Hex content).data.length = 64 := hlen
  refine ⟨?_, ?_, ?_, hnone, ?_, ?_, ?_⟩
  · rw [String.take_eq]
    show ((h.sha256Hex content).data.take 2).length = 2
    rw [List.length_take, hl]
    rfl
  · rw [String.drop_eq]
    show ((h.sha256Hex content).data.drop 2).length = 62
    rw [List.length_drop, hl]
  · rw [String.take_eq, String.drop_eq]
    show (⟨(h.sha256Hex content).data.take 2 ++ (h.sha256Hex content).data.drop 2⟩ : String)
      = h.sha256Hex content
    rw [List.take_append_drop]
  · intro hhas
    rw [harch]
    simp only [storePath, linkPath, binDir, hhas, if_true]
  · intro hhas
    rw [harch]
    simp [storePath, linkPath, binDir, hhas]
  · rw [harch]
    by_cases hhas : HasFileEntry st.archive (storePath h (h.sha256Hex content) dep) = true
    · rw [if_pos hhas, List.dropLast_concat]
      exact hhas
    · rw [if_neg hhas]
      have : st.archive ++
          [(⟨storePath h (h.sha256Hex content) dep, .file, dep⟩ : Entry),
            ⟨linkPath h br rel, .hardLink, storePath h (h.sha256Hex content) dep⟩]
          = (st.archive ++ [(⟨storePath h (h.sha256Hex content) dep, .file, dep⟩ : Entry)])
            ++ [⟨linkPath h br rel, .hardLink, storePath h (h.sha256Hex content) dep⟩] := by
        simp
      rw [this, List.dropLast_concat]
      simp [hasFileEntry_append, HasFileEntry, storePath]

theorem in_tree_store_and_link_witness :
    ((sampleHost.sha256Hex [2, 3]).take 2).length = 2 ∧
    ((sampleHost.sha256Hex [2, 3]).drop 2).length = 62 ∧
    (sampleHost.sha256Hex [2, 3]).take 2 ++ (sampleHost.sha256Hex [2, 3]).drop 2
      = sampleHost.sha256Hex [2, 3] ∧
    (assembleDep sampleHost sampleOpts (sampleBuild "foo" ["address"] [])
      ⟨[], [], "", []⟩ "/p/build/lib/helper.so").2 = none ∧
    (HasFileEntry []
        (filepathJoin "linux" ["cas", (sampleHost.sha256Hex [2, 3]).take 2,
          (sampleHost.sha256Hex [2, 3]).drop 2,
          filepathBase "linux" "/p/build/lib/helper.so"]) = true →
      (assembleDep sampleHost sampleOpts (sampleBuild "foo" ["address"] [])
        ⟨[], [], "", []⟩ "/p/build/lib/helper.so").1.archive = [] ++
        [⟨filepathJoin "linux"
            [filepathJoin "linux"
              [fuzzTestPrefix "linux" (sampleBuild "foo" ["address"] []), "bin"],
             "lib/helper.so"],
          .hardLink,
          filepathJoin "linux" ["cas", (sampleHost.sha256Hex [2, 3]).take 2,
            (sampleHost.sha256Hex [2, 3]).drop 2,
            filepathBase "linux" "/p/build/lib/helper.so"]⟩]) ∧
    (HasFileEntry []
        (filepathJoin "linux" ["cas", (sampleHost.sha256Hex [2, 3]).take 2,
          (sampleHost.sha256Hex [2, 3]).drop 2,
          filepathBase "linux" "/p/build/lib/helper.so"]) = false →
      (assembleDep sampleHost sampleOpts (sampleBuild "foo" ["address"] [])
        ⟨[], [], "", []⟩ "/p/build/lib/helper.so").1.archive = [] ++
        [⟨filepathJoin "linux" ["cas", (sampleHost.sha256Hex [2, 3]).take 2,
            (sampleHost.sha256Hex [2, 3]).drop 2,
            filepathBase "linux" "/p/build/lib/helper.so"], .file, "/p/build/lib/helper.so"⟩,
         ⟨filepathJoin "linux"
            [filepathJoin "linux"
              [fuzzTestPrefix "linux" (sampleBuild "foo" ["address"] []), "bin"],
             "lib/helper.so"],
          .hardLink,
          filepathJoin "linux" ["cas", (sampleHost.sha256Hex [2, 3]).take 2,
            (sampleHost.sha256Hex [2, 3]).drop 2,
            filepathBase "linux" "/p/build/lib/helper.so"]⟩]) ∧
    HasFileEntry (assembleDep sampleHost sampleOpts (sampleBuild "foo" ["address"] [])
        ⟨[], [], "", []⟩ "/p/build/lib/helper.so").1.archive.dropLast
      (filepathJoin "linux" ["cas", (sampleHost.sha256Hex [2, 3]).take 2,
        (sampleHost.sha256Hex [2, 3]).drop 2,
        filepathBase "linux" "/p/build/lib/helper.so"]) = true :=
  in_tree_store_and_link sampleHost sampleOpts (sampleBuild "foo" ["address"] [])
    ⟨[], [], "", []⟩ "/p/build/lib/helper.so" "lib/helper.so" [2, 3]
    (by decide) (by decide) (by decide)

/-- C2: when `fileutil.IsBelow` answers for a runtime dependency, the loop body
puts it in exactly one of the four categories in-tree, well-known system
library, uncommon system library and external, tested in this order; for a
well-known system library it changes nothing, for an uncommon system library it
only appends the path to the system dependencies and leaves the archive as it
is; an in-tree or external dependency that is processed without error adds
entries to the archive. -/
theorem classification_complete (h : Host) (opts : Opts) (br : CBuildResult)
    (st : DepsState) (dep : String) (b : Bool)
    (hb : h.isBelow dep br.BuildDir = .ok b) :
    (∃! c, inCategory h br.BuildDir dep c) ∧
    (inCategory h br.BuildDir dep .wellKnownSystem →
      assembleDep h opts br st dep = (st, none)) ∧
    (inCategory h br.BuildDir dep .uncommonSystem →
      assembleDep h opts br st dep =
        ({ st with systemDeps := st.systemDeps ++ [dep] }, none)) ∧
    (inCategory h br.BuildDir dep .inTree → (assembleDep h opts br st dep).2 = none →
      st.archive.length < (assembleDep h opts br st dep).1.archive.length) ∧
    (inCategory h br.BuildDir dep .external → (assembleDep h opts br st dep).2 = none →
      (assembleDep h opts br st dep).1.archive =
        st.archive ++ [⟨stagingPath h br dep, .file, dep⟩]) := by
  refine ⟨?_, ?_, ?_, ?_, ?_⟩
  · cases b with
    | true =>
      refine ⟨.inTree, hb, ?_⟩
      intro c hc
      cases c <;> simp [inCategory, hb] at hc ⊢
    | false =>
      cases hwk : matchesWellKnown h dep with
      | true =>
        refine ⟨.wellKnownSystem, ⟨hb, hwk⟩, ?_⟩
        intro c hc
        cases c <;> simp [inCategory, hb, hwk] at hc ⊢
      | false =>
        cases hsys : h.isSystemLibrary dep with
        | true =>
          refine ⟨.uncommonSystem, ⟨hb, hwk, hsys⟩, ?_⟩
          intro c hc
          cases c <;> simp [inCategory, hb, hwk, hsys] at hc ⊢
        | false =>
          refine ⟨.external, ⟨hb, hwk, hsys⟩, ?_⟩
          intro c hc
          cases c <;> simp [inCategory, hb, hwk, hsys] at hc ⊢
  · rintro ⟨hb2, hwk⟩
    exact assembleDep_wellKnown opts st hb2 hwk
  · rintro ⟨hb2, hwk, hsys⟩
    exact assembleDep_uncommon opts st hb2 hwk hsys
  · intro hin hnone
    have hin2 : h.isBelow dep br.BuildDir = .ok true := hin
    cases hrel : filepathRel h.goos br.BuildDir dep with
    | error e =>
      simp [assembleDep, hin2, hrel] at hnone
    | ok rel =>
      cases hsha : sha256sum h dep with
      | error e =>
        simp [assembleDep, hin2, hrel, hsha] at hnone
      | ok hash =>
        obtain ⟨-, harch, -, -⟩ := assembleDep_inTree opts st hin2 hrel hsha
        rw [harch]
        split <;> simp
  · rintro ⟨hb2, hwk, hsys⟩ hnone
    rw [assembleDep_external opts st hb2 hwk hsys] at hnone ⊢
    by_cases hhas : HasFileEntry st.archive (stagingPath h br dep) = true
    · simp [hhas] at hnone
    · simp only [hhas] at hnone ⊢
      cases hr : h.readFile dep with
      | none => simp [hr] at hnone
      | some c => simp

theorem classification_complete_witness :
    (∃! c, inCategory sampleHost "/p/build" "/usr/lib/libBLAS.so" c) ∧
    (inCategory sampleHost "/p/build" "/usr/lib/libBLAS.so" .wellKnownSystem →
      assembleDep sampleHost sampleOpts (sampleBuild "foo" ["address"] []) ⟨[], [], "", []⟩
        "/usr/lib/libBLAS.so" = (⟨[], [], "", []⟩, none)) ∧
    (inCategory sampleHost "/p/build" "/usr/lib/libBLAS.so" .uncommonSystem →
      assembleDep sampleHost sampleOpts (sampleBuild "foo" ["address"] []) ⟨[], [], "", []⟩
        "/usr/lib/libBLAS.so" =
        ({ (⟨[], [], "", []⟩ : DepsState) with
            systemDeps := (⟨[], [], "", []⟩ : DepsState).systemDeps
              ++ ["/usr/lib/libBLAS.so"] }, none)) ∧
    (inCategory sampleHost "/p/build" "/usr/lib/libBLAS.so" .inTree →
      (assembleDep sampleHost sampleOpts (sampleBuild "foo" ["address"] []) ⟨[], [], "", []⟩
        "/usr/lib/libBLAS.so").2 = none →
      (⟨[], [], "", []⟩ : DepsState).archive.length <
        (assembleDep sampleHost sampleOpts (sampleBuild "foo" ["address"] []) ⟨[], [], "", []⟩
          "/usr/lib/libBLAS.so").1.archive.length) ∧
    (inCategory sampleHost "/p/build" "/usr/lib/libBLAS.so" .external →
      (assembleDep sampleHost sampleOpts (sampleBuild "foo" ["address"] []) ⟨[], [], "", []⟩
        "/usr/lib/libBLAS.so").2 = none →
      (assembleDep sampleHost sampleOpts (sampleBuild "foo" ["address"] []) ⟨[], [], "", []⟩
        "/usr/lib/libBLAS.so").1.archive =
        (⟨[], [], "", []⟩ : DepsState).archive ++
          [⟨stagingPath sampleHost (sampleBuild "foo" ["address"] []) "/usr/lib/libBLAS.so",
            .file, "/usr/lib/libBLAS.so"⟩]) :=
  classification_complete sampleHost sampleOpts (sampleBuild "foo" ["address"] [])
    ⟨[], [], "", []⟩ "/usr/lib/libBLAS.so" false (by decide)

/-! ## The loop over the runtime dependencies -/

theorem depsLoop_cons (h : Host) (opts : Opts) (br : CBuildResult) (dep : String)
    (deps : List String) (st : DepsState) :
    depsLoop h opts br (dep :: deps) st =
      match assembleDep h opts br st dep with
      | (st1, some e) => (st1, some e)
      | (st1, none) => depsLoop h opts br deps st1 := by
  rw [depsLoop]

theorem depsLoop_cons_ok {h : Host} {opts : Opts} {br : CBuildResult} {dep : String}
    {deps : List String} {st : DepsState}
    (hok : (depsLoop h opts br (dep :: deps) st).2 = none) :
    (assembleDep h opts br st dep).2 = none ∧
    depsLoop h opts br (dep :: deps) st =
      depsLoop h opts br deps (assembleDep h opts br st dep).1 := by
  rw [depsLoop_cons] at hok ⊢
  cases hres : assembleDep h opts br st dep with
  | mk st1 oe =>
    cases oe with
    | some e => simp [hres] at hok
    | none => exact ⟨rfl, rfl⟩

theorem depsLoop_cons_of_ok {h : Host} {opts : Opts} {br : CBuildResult} {dep : String}
    (deps : List String) {st : DepsState}
    (hstep : (assembleDep h opts br st dep).2 = none) :
    depsLoop h opts br (dep :: deps) st =
      depsLoop h opts br deps (assembleDep h opts br st dep).1 := by
  rw [depsLoop_cons]
  cases hres : assembleDep h opts br st dep with
  | mk st1 oe =>
    cases oe with
    | some e => simp [hres] at hstep
    | none => rfl

theorem depsLoop_cons_err {h : Host} {opts : Opts} {br : CBuildResult} {dep : String}
    (deps : List String) {st : DepsState} {e : BundleError}
    (herr : (assembleDep h opts br st dep).2 = some e) :
    depsLoop h opts br (dep :: deps) st = ((assembleDep h opts br st dep).1, some e) := by
  rw [depsLoop_cons]
  cases hres : assembleDep h opts br st dep with
  | mk st1 oe =>
    cases oe with
    | some e1 =>
      simp only [hres, Option.some.injEq] at herr
      rw [herr]
    | none => simp [hres] at herr

theorem depsLoop_append (h : Host) (opts : Opts) (br : CBuildResult) (l1 l2 : List String) :
    ∀ st : DepsState, (depsLoop h opts br l1 st).2 = none →
      depsLoop h opts br (l1 ++ l2) st = depsLoop h opts br l2 (depsLoop h opts br l1 st).1 := by
  induction l1 with
  | nil => intro st _; rfl
  | cons d l1 ih =>
    intro st hok
    obtain ⟨hstep, heq⟩ := depsLoop_cons_ok hok
    rw [heq] at hok ⊢
    rw [List.cons_append, depsLoop_cons_of_ok _ hstep]
    exact ih _ hok

theorem hasFileEntry_mono {w v : Archive} {p : String} (hpre : w <+: v)
    (hhas : HasFileEntry w p = true) : HasFileEntry v p = true := by
  obtain ⟨new, rfl⟩ := hpre
  rw [hasFileEntry_append, hhas]
  rfl

theorem getSourcePath_mono {w v : Archive} {p : String} (hpre : w <+: v)
    (hhas : HasFileEntry w p = true) : GetSourcePath v p = GetSourcePath w p := by
  obtain ⟨new, rfl⟩ := hpre
  unfold HasFileEntry at hhas
  rw [List.any_eq_true] at hhas
  obtain ⟨e, he, hp⟩ := hhas
  unfold GetSourcePath
  rw [List.find?_append]
  cases hf : List.find? (fun e => decide (e.path = p)) w with
  | some e1 => rfl
  | none =>
    rw [List.find?_eq_none] at hf
    exact absurd hp (hf e he)

theorem getSourcePath_fresh {w : Archive} {p src : String} {k : EntryKind}
    (hhas : HasFileEntry w p = false) : GetSourcePath (w ++ [⟨p, k, src⟩]) p = src := by
  unfold GetSourcePath
  rw [List.find?_append]
  have hf : List.find? (fun e => decide (e.path = p)) w = none := by
    rw [List.find?_eq_none]
    intro e he hp
    have : HasFileEntry w p = true := by
      unfold HasFileEntry
      rw [List.any_eq_true]
      exact ⟨e, he, hp⟩
    rw [hhas] at this
    exact absurd this (by simp)
  rw [hf]
  simp

theorem assembleDep_external_ok {h : Host} {opts : Opts} {br : CBuildResult} {st : DepsState}
    {dep : String} (hext : inCategory h br.BuildDir dep .external)
    (hok : (assembleDep h opts br st dep).2 = none) :
    HasFileEntry st.archive (stagingPath h br dep) = false ∧
    (assembleDep h opts br st dep).1.archive =
      st.archive ++ [⟨stagingPath h br dep, .file, dep⟩] := by
  obtain ⟨hb, hwk, hsys⟩ := hext
  rw [assembleDep_external opts st hb hwk hsys] at hok ⊢
  by_cases hhas : HasFileEntry st.archive (stagingPath h br dep) = true
  · simp [hhas] at hok
  · simp only [hhas] at hok ⊢
    cases hr : h.readFile dep with
    | none => simp [hr] at hok
    | some c => simp

theorem assembleDep_external_conflict {h : Host} (opts : Opts) {br : CBuildResult}
    {st : DepsState} {dep : String} (hext : inCategory h br.BuildDir dep .external)
    (hhas : HasFileEntry st.archive (stagingPath h br dep) = true) :
    (assembleDep h opts br st dep).2 =
      some (.conflict br.Name dep (GetSourcePath st.archive (stagingPath h br dep))) ∧
    (assembleDep h opts br st dep).1.archive = st.archive ∧
    (assembleDep h opts br st dep).1.systemDeps = st.systemDeps := by
  obtain ⟨hb, hwk, hsys⟩ := hext
  rw [assembleDep_external opts st hb hwk hsys]
  simp [hhas]

theorem stagingPath_of_base {h : Host} (br : CBuildResult) {d0 dep : String}
    (hbase : filepathBase h.goos d0 = filepathBase h.goos dep) :
    stagingPath h br d0 = stagingPath h br dep := by
  unfold stagingPath
  rw [hbase]

/-- After a loop without error over dependencies among which `d0` is external,
the staging path of `d0` has an entry whose source is `d0`. -/
theorem depsLoop_staged (h : Host) (opts : Opts) (br : CBuildResult) (d0 : String)
    (hext0 : inCategory h br.BuildDir d0 .external) (pre : List String) :
    ∀ st : DepsState, d0 ∈ pre → (depsLoop h opts br pre st).2 = none →
      HasFileEntry (depsLoop h opts br pre st).1.archive (stagingPath h br d0) = true ∧
      GetSourcePath (depsLoop h opts br pre st).1.archive (stagingPath h br d0) = d0 := by
  induction pre with
  | nil => intro st hmem; simp at hmem
  | cons d pre ih =>
    intro st hmem hok
    obtain ⟨hstep, heq⟩ := depsLoop_cons_ok hok
    rw [heq] at hok ⊢
    by_cases hd : d0 ∈ pre
    · exact ih _ hd hok
    · have hdd : d0 = d := by
        rcases List.mem_cons.mp hmem with h1 | h1
        · exact h1
        · exact absurd h1 hd
      subst hdd
      obtain ⟨hfree, harch⟩ := assembleDep_external_ok hext0 hstep
      have hgrow := depsLoop_grows h opts br pre (assembleDep h opts br st d0).1
      have hhas : HasFileEntry (assembleDep h opts br st d0).1.archive
          (stagingPath h br d0) = true := by
        rw [harch, hasFileEntry_append]
        simp [HasFileEntry]
      refine ⟨hasFileEntry_mono hgrow hhas, ?_⟩
      rw [getSourcePath_mono hgrow hhas, harch]
      exact getSourcePath_fresh hfree

/-- A loop over dependencies among which an external one has its staging path
taken already does not finish without error. -/
theorem depsLoop_fails_of_entry (h : Host) (opts : Opts) (br : CBuildResult) (dep : String)
    (hext : inCategory h br.BuildDir dep .external) (deps : List String) :
    ∀ st : DepsState, dep ∈ deps →
      HasFileEntry st.archive (stagingPath h br dep) = true →
      (depsLoop h opts br deps st).2 ≠ none := by
  induction deps with
  | nil => intro st hmem; simp at hmem
  | cons d deps ih =>
    intro st hmem hhas hok
    obtain ⟨hstep, heq⟩ := depsLoop_cons_ok hok
    rw [heq] at hok
    by_cases hd : dep ∈ deps
    · exact ih _ hd (hasFileEntry_mono (assembleDep_grows h opts br st d) hhas) hok
    · have hdd : dep = d := by
        rcases List.mem_cons.mp hmem with h1 | h1
        · exact h1
        · exact absurd h1 hd
      subst hdd
      rw [(assembleDep_external_conflict opts hext hhas).1] at hstep
      simp at hstep

theorem assembleArtifacts_loop_err {h : Host} {opts : Opts} {w w1 : Archive}
    {br : CBuildResult} {exePath : String} {st : DepsState} {e : BundleError}
    (hexe : assembleExecutable h w br = (w1, .ok exePath))
    (hloop : depsLoop h opts br br.RuntimeDeps ⟨w1, [], "", []⟩ = (st, some e)) :
    assembleArtifacts h opts w br = ⟨[], st.systemDeps, some e, st.archive, opts⟩ := by
  simp [assembleArtifacts, hexe, hloop]

theorem infix_of_append (a b c : String) : b.data <:+: (a ++ b ++ c).data := by
  refine ⟨a.data, c.data, ?_⟩
  simp [String.data_append]

/-! ## External dependencies -/

/-- C3: if, while a build result is assembled, an external dependency has the
same basename as an external dependency staged earlier under the same
`<prefix>/external_libs` directory, `assembleArtifacts` fails with the conflict
error, whose message names both source paths; it returns no records and the
archive is left as it was when the loop reached the new dependency. -/
theorem collision_detected (h : Host) (opts : Opts) (w : Archive) (br : CBuildResult)
    (pre post : List String) (d0 dep : String) (quote : String → String)
    (w1 : Archive) (exePath : String)
    (hdeps : br.RuntimeDeps = pre ++ dep :: post)
    (hexe : assembleExecutable h w br = (w1, .ok exePath))
    (hok : (depsLoop h opts br pre ⟨w1, [], "", []⟩).2 = none)
    (hmem : d0 ∈ pre)
    (hext0 : inCategory h br.BuildDir d0 .external)
    (hext : inCategory h br.BuildDir dep .external)
    (hbase : filepathBase h.goos d0 = filepathBase h.goos dep) :
    (assembleArtifacts h opts w br).err = some (.conflict br.Name dep d0) ∧
    (assembleArtifacts h opts w br).fuzzers = [] ∧
    (assembleArtifacts h opts w br).archive =
      (depsLoop h opts br pre ⟨w1, [], "", []⟩).1.archive ∧
    dep.data <:+: ((BundleError.conflict br.Name dep d0).message quote).data ∧
    d0.data <:+: ((BundleError.conflict br.Name dep d0).message quote).data := by
  obtain ⟨hhas, hsrc⟩ := depsLoop_staged h opts br d0 hext0 pre _ hmem hok
  rw [stagingPath_of_base br hbase] at hhas hsrc
  obtain ⟨herr, harch, hsys⟩ := assembleDep_external_conflict opts hext hhas
  rw [hsrc] at herr
  have hloop : depsLoop h opts br br.RuntimeDeps ⟨w1, [], "", []⟩ =
      ((assembleDep h opts br (depsLoop h opts br pre ⟨w1, [], "", []⟩).1 dep).1,
        some (.conflict br.Name dep d0)) := by
    rw [hdeps, depsLoop_append h opts br pre (dep :: post) _ hok]
    exact depsLoop_cons_err post herr
  rw [assembleArtifacts_loop_err hexe hloop]
  refine ⟨rfl, rfl, harch, ?_, ?_⟩
  · show dep.data <:+: ("fuzz test " ++ quote br.Name
      ++ " has conflicting runtime dependencies: " ++ dep ++ " and " ++ d0).data
    have := infix_of_append
      ("fuzz test " ++ quote br.Name ++ " has conflicting runtime dependencies: ") dep
      (" and " ++ d0)
    simpa [String.append_assoc] using this
  · show d0.data <:+: ("fuzz test " ++ quote br.Name
      ++ " has conflicting runtime dependencies: " ++ dep ++ " and " ++ d0).data
    have := infix_of_append
      ("fuzz test " ++ quote br.Name ++ " has conflicting runtime dependencies: "
        ++ dep ++ " and ") d0 ""
    simpa [String.append_assoc] using this

theorem collision_detected_witness :
    (assembleArtifacts sampleHost sampleOpts []
      (sampleBuild "foo" ["address"]
        ["/ext/one/libexternal.so", "/p/build/lib.so", "/ext/two/libexternal.so"])).err
      = some (.conflict "foo" "/ext/two/libexternal.so" "/ext/one/libexternal.so") ∧
    (assembleArtifacts sampleHost sampleOpts []
      (sampleBuild "foo" ["address"]
        ["/ext/one/libexternal.so", "/p/build/lib.so", "/ext/two/libexternal.so"])).fuzzers
      = [] ∧
    (assembleArtifacts sampleHost sampleOpts []
      (sampleBuild "foo" ["address"]
        ["/ext/one/libexternal.so", "/p/build/lib.so", "/ext/two/libexternal.so"])).archive =
      (depsLoop sampleHost sampleOpts
        (sampleBuild "foo" ["address"]
          ["/ext/one/libexternal.so", "/p/build/lib.so", "/ext/two/libexternal.so"])
        ["/ext/one/libexternal.so", "/p/build/lib.so"]
        ⟨[⟨"libfuzzer/address/foo/bin/foo", .file, "/p/build/foo"⟩], [], "", []⟩).1.archive ∧
    "/ext/two/libexternal.so".data <:+:
      ((BundleError.conflict "foo" "/ext/two/libexternal.so"
        "/ext/one/libexternal.so").message id).data ∧
    "/ext/one/libexternal.so".data <:+:
      ((BundleError.conflict "foo" "/ext/two/libexternal.so"
        "/ext/one/libexternal.so").message id).data :=
  collision_detected sampleHost sampleOpts []
    (sampleBuild "foo" ["address"]
      ["/ext/one/libexternal.so", "/p/build/lib.so", "/ext/two/libexternal.so"])
    ["/ext/one/libexternal.so", "/p/build/lib.so"] [] "/ext/one/libexternal.so"
    "/ext/two/libexternal.so" id
    [⟨"libfuzzer/address/foo/bin/foo", .file, "/p/build/foo"⟩] "libfuzzer/address/foo/bin/foo"
    rfl (by decide) (by decide) (by decide) (by decide) (by decide) (by decide)

theorem depsLoop_basenames_distinct (h : Host) (opts : Opts) (br : CBuildResult)
    (deps : List String) :
    ∀ st : DepsState, (depsLoop h opts br deps st).2 = none →
      deps.Pairwise (fun a b =>
        inCategory h br.BuildDir a .external → inCategory h br.BuildDir b .external →
          filepathBase h.goos a ≠ filepathBase h.goos b) := by
  induction deps with
  | nil => intro _ _; exact List.Pairwise.nil
  | cons d deps ih =>
    intro st hok
    obtain ⟨hstep, heq⟩ := depsLoop_cons_ok hok
    rw [heq] at hok
    refine List.Pairwise.cons ?_ (ih _ hok)
    intro b hb hextd hextb hbase
    obtain ⟨-, harch⟩ := assembleDep_external_ok hextd hstep
    have hhas : HasFileEntry (assembleDep h opts br st d).1.archive
        (stagingPath h br b) = true := by
      rw [harch, hasFileEntry_append, ← stagingPath_of_base br hbase]
      simp [HasFileEntry]
    exact depsLoop_fails_of_entry h opts br b hextb deps _ hb hhas hok

/-- C9 (counterexample): two external dependencies with the same basename and
identical content make `assembleArtifacts` fail with the conflict error. -/
theorem identical_external_duplicates_fail :
    sampleHost.readFile "/ext/one/libexternal.so" =
      sampleHost.readFile "/ext/three/libexternal.so" ∧
    inCategory sampleHost "/p/build" "/ext/one/libexternal.so" .external ∧
    inCategory sampleHost "/p/build" "/ext/three/libexternal.so" .external ∧
    filepathBase "linux" "/ext/one/libexternal.so" =
      filepathBase "linux" "/ext/three/libexternal.so" ∧
    (assembleArtifacts sampleHost sampleOpts []
      (sampleBuild "foo" ["address"]
        ["/ext/one/libexternal.so", "/ext/three/libexternal.so"])).err =
      some (.conflict "foo" "/ext/three/libexternal.so" "/ext/one/libexternal.so") := by
  decide

/-- C9 (amended): the conflict check looks at the staging path only, not at the
content: whenever `assembleArtifacts` succeeds, no two external runtime
dependencies of the build result have the same basename, whatever their
content. -/
theorem external_basenames_distinct (h : Host) (opts : Opts) (w : Archive)
    (br : CBuildResult) (hok : (assembleArtifacts h opts w br).err = none) :
    br.RuntimeDeps.Pairwise (fun a b =>
      inCategory h br.BuildDir a .external → inCategory h br.BuildDir b .external →
        filepathBase h.goos a ≠ filepathBase h.goos b) := by
  obtain ⟨w1, exePath, st, opts1, w2, dict, w3, seeds, env, -, hd, -, -, -, -⟩ :=
    assembleArtifacts_ok hok
  have hloop : (depsLoop h opts br br.RuntimeDeps ⟨w1, [], "", []⟩).2 = none := by
    rw [hd]
  exact depsLoop_basenames_distinct h opts br br.RuntimeDeps _ hloop

theorem external_basenames_distinct_witness :
    ["/ext/one/libexternal.so", "/p/build/lib.so", "/ext/one/libother.so"].Pairwise
      (fun a b =>
        inCategory sampleHost "/p/build" a .external →
        inCategory sampleHost "/p/build" b .external →
          filepathBase "linux" a ≠ filepathBase "linux" b) :=
  external_basenames_distinct sampleHost sampleOpts []
    (sampleBuild "foo" ["address"]
      ["/ext/one/libexternal.so", "/p/build/lib.so", "/ext/one/libother.so"]) (by decide)

/-! ## The content-addressed store -/

theorem sha256sum_ok {h : Host} {dep hash : String} (hsha : sha256sum h dep = .ok hash) :
    ∃ c, h.readFile dep = some c ∧ hash = h.sha256Hex c := by
  unfold sha256sum at hsha
  cases hr : h.readFile dep with
  | none => simp [hr] at hsha
  | some c =>
    simp only [hr, Except.ok.injEq] at hsha
    exact ⟨c, rfl, hsha.symm⟩

theorem assembleDep_shape {h : Host} {opts : Opts} {br : CBuildResult} {st : DepsState}
    {dep : String} (hok : (assembleDep h opts br st dep).2 = none) :
    StepShape h br st.archive dep (assembleDep h opts br st dep).1.archive := by
  cases hb : h.isBelow dep br.BuildDir with
  | error e => simp [assembleDep, hb] at hok
  | ok b =>
    cases b with
    | true =>
      cases hrel : filepathRel h.goos br.BuildDir dep with
      | error e => simp [assembleDep, hb, hrel] at hok
      | ok rel =>
        cases hsha : sha256sum h dep with
        | error e => simp [assembleDep, hb, hrel, hsha] at hok
        | ok hash =>
          obtain ⟨c, hc, hhash⟩ := sha256sum_ok hsha
          subst hhash
          obtain ⟨-, harch, -, -⟩ := assembleDep_inTree opts st hb hrel hsha
          rw [harch]
          by_cases hhas : HasFileEntry st.archive (storePath h (h.sha256Hex c) dep) = true
          · rw [if_pos hhas]
            exact StepShape.linked rel c hb hrel hc hhas
          · rw [if_neg hhas]
            exact StepShape.stored rel c hb hrel hc (by simpa using hhas)
    | false =>
      cases hwk : matchesWellKnown h dep with
      | true =>
        rw [assembleDep_wellKnown opts st hb hwk]
        exact StepShape.skipped hb
      | false =>
        cases hsys : h.isSystemLibrary dep with
        | true =>
          rw [assembleDep_uncommon opts st hb hwk hsys]
          exact StepShape.skipped hb
        | false =>
          rw [(assembleDep_external_ok ⟨hb, hwk, hsys⟩ hok).2]
          exact StepShape.staged hb

theorem entriesAt_append (w v : Archive) (p : String) :
    entriesAt (w ++ v) p = entriesAt w p ++ entriesAt v p := by
  simp [entriesAt, List.filter_append]

theorem entriesAt_eq_nil {w : Archive} {p : String} :
    entriesAt w p = [] ↔ HasFileEntry w p = false := by
  unfold entriesAt HasFileEntry
  rw [List.filter_eq_nil_iff]
  constructor
  · intro hall
    rw [Bool.eq_false_iff]
    intro hany
    rw [List.any_eq_true] at hany
    obtain ⟨e, he, hp⟩ := hany
    exact hall e he hp
  · intro hany e he hp
    have : (w.any fun e => decide (e.path = p)) = true := by
      rw [List.any_eq_true]
      exact ⟨e, he, hp⟩
    rw [hany] at this
    exact absurd this (by simp)

theorem entriesAt_single_ne {e : Entry} {p : String} (hne : e.path ≠ p) :
    entriesAt [e] p = [] := by
  simp [entriesAt, hne]

theorem entriesAt_single_eq (p : String) (k : EntryKind) (src : String) :
    entriesAt [⟨p, k, src⟩] p = [⟨p, k, src⟩] := by
  simp [entriesAt]

/-- One step of the loop keeps the store path `p` to at most its payload, when
neither the link path nor the staging path of the dependency is `p`. -/
theorem stepShape_payload {h : Host} {br : CBuildResult} {p : String}
    {w v : Archive} {dep : String} (hsh : StepShape h br w dep v)
    (hstage : stagingPath h br dep ≠ p)
    (hlink : ∀ rel, filepathRel h.goos br.BuildDir dep = .ok rel → linkPath h br rel ≠ p) :
    (entriesAt w p = [] ∨ PayloadAt h p w → entriesAt v p = [] ∨ PayloadAt h p v) ∧
    (PayloadAt h p w → PayloadAt h p v) ∧
    (∀ rel c, filepathRel h.goos br.BuildDir dep = .ok rel → h.readFile dep = some c →
      storePath h (h.sha256Hex c) dep = p → h.isBelow dep br.BuildDir = .ok true →
      (entriesAt w p = [] ∨ PayloadAt h p w) →
        PayloadAt h p v ∧ (⟨linkPath h br rel, .hardLink, p⟩ : Entry) ∈ v) := by
  have keep : ∀ {v1 : Archive}, entriesAt v1 p = entriesAt w p →
      (entriesAt w p = [] ∨ PayloadAt h p w →
        entriesAt v1 p = [] ∨ PayloadAt h p v1) ∧
      (PayloadAt h p w → PayloadAt h p v1) := by
    intro v1 heq
    have hp : PayloadAt h p w → PayloadAt h p v1 := by
      rintro ⟨d, c, hc, hs, hent⟩
      exact ⟨d, c, hc, hs, by rw [heq, hent]⟩
    refine ⟨?_, hp⟩
    rintro (h0 | h1)
    · exact Or.inl (by rw [heq, h0])
    · exact Or.inr (hp h1)
  cases hsh with
  | skipped hb0 =>
    refine ⟨(keep rfl).1, (keep rfl).2, ?_⟩
    intro rel c _ _ _ hb _
    rw [hb0] at hb
    simp at hb
  | staged hb0 =>
    have heq : entriesAt (w ++ [(⟨stagingPath h br dep, .file, dep⟩ : Entry)]) p
        = entriesAt w p := by
      rw [entriesAt_append, entriesAt_single_ne (by exact hstage), List.append_nil]
    refine ⟨(keep heq).1, (keep heq).2, ?_⟩
    intro rel c _ _ _ hb _
    rw [hb0] at hb
    simp at hb
  | linked rel content hb hrel hread hhas =>
    have heq : entriesAt (w ++ [(⟨linkPath h br rel, .hardLink,
        storePath h (h.sha256Hex content) dep⟩ : Entry)]) p = entriesAt w p := by
      rw [entriesAt_append, entriesAt_single_ne (by exact hlink rel hrel), List.append_nil]
    refine ⟨(keep heq).1, (keep heq).2, ?_⟩
    intro rel1 c1 hrel1 hread1 hstore _ hinv
    have hr : rel1 = rel := by
      rw [hrel] at hrel1
      exact (Except.ok.inj hrel1).symm
    have hc : c1 = content := by
      rw [hread] at hread1
      exact (Option.some.inj hread1).symm
    subst hr hc
    rw [hstore] at hhas ⊢
    refine ⟨?_, by simp⟩
    rcases hinv with h0 | h1
    · rw [entriesAt_eq_nil.mp h0] at hhas
      simp at hhas
    · have h2 := (keep heq).2 h1
      rw [hstore] at h2
      exact h2
  | stored rel content hb hrel hread hhas =>
    by_cases hS : storePath h (h.sha256Hex content) dep = p
    · rw [hS] at hhas ⊢
      have hent : entriesAt (w ++ [(⟨p, .file, dep⟩ : Entry),
          ⟨linkPath h br rel, .hardLink, p⟩]) p = [⟨p, .file, dep⟩] := by
        have hsplit : w ++ [(⟨p, .file, dep⟩ : Entry), ⟨linkPath h br rel, .hardLink, p⟩]
            = w ++ ([(⟨p, .file, dep⟩ : Entry)] ++ [⟨linkPath h br rel, .hardLink, p⟩]) := by
          simp
        rw [hsplit, entriesAt_append, entriesAt_append, entriesAt_eq_nil.mpr hhas,
          entriesAt_single_eq, entriesAt_single_ne (by exact hlink rel hrel)]
        simp
      have hpay : PayloadAt h p (w ++ [(⟨p, .file, dep⟩ : Entry),
          ⟨linkPath h br rel, .hardLink, p⟩]) :=
        ⟨dep, content, hread, hS, hent⟩
      refine ⟨fun _ => Or.inr hpay, fun _ => hpay, ?_⟩
      intro rel1 c1 hrel1 _ _ _ _
      have hr : rel1 = rel := by
        rw [hrel] at hrel1
        exact (Except.ok.inj hrel1).symm
      subst hr
      exact ⟨hpay, by simp⟩
    · have heq : entriesAt (w ++ [(⟨storePath h (h.sha256Hex content) dep, .file, dep⟩ : Entry),
          ⟨linkPath h br rel, .hardLink, storePath h (h.sha256Hex content) dep⟩]) p
          = entriesAt w p := by
        have hsplit : w ++ [(⟨storePath h (h.sha256Hex content) dep, .file, dep⟩ : Entry),
            ⟨linkPath h br rel, .hardLink, storePath h (h.sha256Hex content) dep⟩]
            = w ++ ([(⟨storePath h (h.sha256Hex content) dep, .file, dep⟩ : Entry)]
              ++ [⟨linkPath h br rel, .hardLink, storePath h (h.sha256Hex content) dep⟩]) := by
          simp
        rw [hsplit, entriesAt_append, entriesAt_append, entriesAt_single_ne (by exact hS),
          entriesAt_single_ne (by exact hlink rel hrel)]
        simp
      refine ⟨(keep heq).1, (keep heq).2, ?_⟩
      intro rel1 c1 _ hread1 hstore _ _
      have hc : c1 = content := by
        rw [hread] at hread1
        exact (Option.some.inj hread1).symm
      subst hc
      exact absurd hstore hS

theorem avoidsPath_spec {h : Host} {br : CBuildResult} {p dep : String}
    (ha : avoidsPath h br p dep = true) :
    stagingPath h br dep ≠ p ∧
    ∀ rel, filepathRel h.goos br.BuildDir dep = .ok rel → linkPath h br rel ≠ p := by
  unfold avoidsPath at ha
  rw [Bool.and_eq_true] at ha
  obtain ⟨h1, h2⟩ := ha
  refine ⟨by simpa using h1, ?_⟩
  intro rel hrel
  rw [hrel] at h2
  simpa using h2

theorem depsLoop_payload (h : Host) (opts : Opts) (br : CBuildResult)
    (p : String) (l : List String) :
    ∀ st : DepsState, (∀ d ∈ l, avoidsPath h br p d = true) →
      (depsLoop h opts br l st).2 = none →
      (entriesAt st.archive p = [] ∨ PayloadAt h p st.archive →
        entriesAt (depsLoop h opts br l st).1.archive p = [] ∨
          PayloadAt h p (depsLoop h opts br l st).1.archive) ∧
      (PayloadAt h p st.archive →
        PayloadAt h p (depsLoop h opts br l st).1.archive) := by
  induction l with
  | nil => intro st _ _; exact ⟨fun hi => hi, fun hi => hi⟩
  | cons d l ih =>
    intro st hall hok
    obtain ⟨hstep, heq⟩ := depsLoop_cons_ok hok
    rw [heq] at hok ⊢
    have hav := hall d (List.mem_cons_self d l)
    obtain ⟨hst, hlk⟩ := avoidsPath_spec hav
    obtain ⟨s1, s2, -⟩ := stepShape_payload (assembleDep_shape hstep) hst hlk
    obtain ⟨i1, i2⟩ := ih (assembleDep h opts br st d).1
      (fun x hx => hall x (List.mem_cons_of_mem d hx)) hok
    exact ⟨fun hi => i1 (s1 hi), fun hi => i2 (s2 hi)⟩

theorem depsLoop_linked (h : Host) (opts : Opts) (br : CBuildResult)
    (p : String) (d rel : String) (c : List UInt8)
    (hb : h.isBelow d br.BuildDir = .ok true)
    (hrel : filepathRel h.goos br.BuildDir d = .ok rel)
    (hread : h.readFile d = some c)
    (hstore : storePath h (h.sha256Hex c) d = p) (l : List String) :
    ∀ st : DepsState, d ∈ l → (∀ x ∈ l, avoidsPath h br p x = true) →
      (depsLoop h opts br l st).2 = none →
      (entriesAt st.archive p = [] ∨ PayloadAt h p st.archive) →
      PayloadAt h p (depsLoop h opts br l st).1.archive ∧
      (⟨linkPath h br rel, .hardLink, p⟩ : Entry) ∈ (depsLoop h opts br l st).1.archive := by
  induction l with
  | nil => intro st hmem; simp at hmem
  | cons x l ih =>
    intro st hmem hall hok hinv
    obtain ⟨hstep, heq⟩ := depsLoop_cons_ok hok
    rw [heq] at hok ⊢
    have hav := hall x (List.mem_cons_self x l)
    obtain ⟨hst, hlk⟩ := avoidsPath_spec hav
    obtain ⟨s1, -, s3⟩ := stepShape_payload (assembleDep_shape hstep) hst hlk
    have hall2 : ∀ y ∈ l, avoidsPath h br p y = true :=
      fun y hy => hall y (List.mem_cons_of_mem x hy)
    by_cases hd : d ∈ l
    · exact ih _ hd hall2 hok (s1 hinv)
    · have hdx : d = x := by
        rcases List.mem_cons.mp hmem with h1 | h1
        · exact h1
        · exact absurd h1 hd
      subst hdx
      obtain ⟨hpay, hlink⟩ := s3 rel c hrel hread hstore hb hinv
      exact ⟨(depsLoop_payload h opts br p l _ hall2 hok).2 hpay,
        (depsLoop_grows h opts br l _).subset hlink⟩

/-- C1 (counterexample): two in-tree dependencies with identical content at
different in-tree paths whose basenames differ are stored as two payload files
below `cas/`. -/
theorem identical_content_two_payloads :
    sampleHost.readFile "/p/build/lib/a.so" = sampleHost.readFile "/p/build/lib/b.so" ∧
    sampleHost.readFile "/p/build/lib/a.so" ≠ none ∧
    inCategory sampleHost "/p/build" "/p/build/lib/a.so" .inTree ∧
    inCategory sampleHost "/p/build" "/p/build/lib/b.so" .inTree ∧
    (assembleArtifacts sampleHost sampleOpts []
      (sampleBuild "foo" ["address"] ["/p/build/lib/a.so", "/p/build/lib/b.so"])).err = none ∧
    (casPayloads (assembleArtifacts sampleHost sampleOpts []
      (sampleBuild "foo" ["address"]
        ["/p/build/lib/a.so", "/p/build/lib/b.so"])).archive).length = 2 := by
  decide

/-- C1 (amended): when the dependency loop of `assembleArtifacts` processes,
without error, two in-tree dependencies with identical content and the same
basename, and their store path `cas/<2>/<62>/<basename>` holds, before the
loop, no entry or only a payload written earlier, and is neither the link path
nor the staging path of a dependency, then the archive after the loop has
exactly one entry at that store path, a payload file whose digest and basename
give that path, and a hard-link entry referencing it for each of the two
dependencies. -/
theorem store_dedup (h : Host) (opts : Opts) (br : CBuildResult) (st : DepsState)
    (deps : List String) (d1 d2 rel1 rel2 : String) (content : List UInt8)
    (hm1 : d1 ∈ deps) (hm2 : d2 ∈ deps)
    (hb1 : h.isBelow d1 br.BuildDir = .ok true)
    (hb2 : h.isBelow d2 br.BuildDir = .ok true)
    (hr1 : filepathRel h.goos br.BuildDir d1 = .ok rel1)
    (hr2 : filepathRel h.goos br.BuildDir d2 = .ok rel2)
    (hc1 : h.readFile d1 = some content) (hc2 : h.readFile d2 = some content)
    (hbase : filepathBase h.goos d1 = filepathBase h.goos d2)
    (hinit : entriesAt st.archive (storePath h (h.sha256Hex content) d1) = [] ∨
      PayloadAt h (storePath h (h.sha256Hex content) d1) st.archive)
    (hsep : ∀ d ∈ deps, avoidsPath h br (storePath h (h.sha256Hex content) d1) d = true)
    (hok : (depsLoop h opts br deps st).2 = none) :
    (∃ d c, h.readFile d = some c ∧
      storePath h (h.sha256Hex c) d = storePath h (h.sha256Hex content) d1 ∧
      entriesAt (depsLoop h opts br deps st).1.archive (storePath h (h.sha256Hex content) d1)
        = [⟨storePath h (h.sha256Hex content) d1, .file, d⟩]) ∧
    (⟨linkPath h br rel1, .hardLink, storePath h (h.sha256Hex content) d1⟩ : Entry)
      ∈ (depsLoop h opts br deps st).1.archive ∧
    (⟨linkPath h br rel2, .hardLink, storePath h (h.sha256Hex content) d1⟩ : Entry)
      ∈ (depsLoop h opts br deps st).1.archive := by
  have hs2 : storePath h (h.sha256Hex content) d2 = storePath h (h.sha256Hex content) d1 := by
    unfold storePath
    rw [hbase]
  obtain ⟨hpay, hl1⟩ := depsLoop_linked h opts br _ d1 rel1 content hb1 hr1 hc1 rfl
    deps st hm1 hsep hok hinit
  obtain ⟨-, hl2⟩ := depsLoop_linked h opts br _ d2 rel2 content hb2 hr2 hc2 hs2
    deps st hm2 hsep hok hinit
  exact ⟨hpay, hl1, hl2⟩

theorem store_dedup_witness :
    (∃ d c, sampleHost.readFile d = some c ∧
      storePath sampleHost (sampleHost.sha256Hex c) d
        = storePath sampleHost (sampleHost.sha256Hex [7, 7]) "/p/build/lib/a.so" ∧
      entriesAt (depsLoop sampleHost sampleOpts (sampleBuild "foo" ["address"] [])
          ["/p/build/lib/a.so", "/ext/one/libexternal.so", "/p/build/lib/sub/a.so"]
          ⟨[], [], "", []⟩).1.archive
          (storePath sampleHost (sampleHost.sha256Hex [7, 7]) "/p/build/lib/a.so")
        = [⟨storePath sampleHost (sampleHost.sha256Hex [7, 7]) "/p/build/lib/a.so", .file, d⟩]) ∧
    (⟨linkPath sampleHost (sampleBuild "foo" ["address"] []) "lib/a.so", .hardLink,
        storePath sampleHost (sampleHost.sha256Hex [7, 7]) "/p/build/lib/a.so"⟩ : Entry)
      ∈ (depsLoop sampleHost sampleOpts (sampleBuild "foo" ["address"] [])
          ["/p/build/lib/a.so", "/ext/one/libexternal.so", "/p/build/lib/sub/a.so"]
          ⟨[], [], "", []⟩).1.archive ∧
    (⟨linkPath sampleHost (sampleBuild "foo" ["address"] []) "lib/sub/a.so", .hardLink,
        storePath sampleHost (sampleHost.sha256Hex [7, 7]) "/p/build/lib/a.so"⟩ : Entry)
      ∈ (depsLoop sampleHost sampleOpts (sampleBuild "foo" ["address"] [])
          ["/p/build/lib/a.so", "/ext/one/libexternal.so", "/p/build/lib/sub/a.so"]
          ⟨[], [], "", []⟩).1.archive :=
  store_dedup sampleHost sampleOpts (sampleBuild "foo" ["address"] []) ⟨[], [], "", []⟩
    ["/p/build/lib/a.so", "/ext/one/libexternal.so", "/p/build/lib/sub/a.so"]
    "/p/build/lib/a.so" "/p/build/lib/sub/a.so" "lib/a.so" "lib/sub/a.so" [7, 7]
    (by decide) (by decide) (by decide) (by decide) (by decide) (by decide) (by decide)
    (by decide) (by decide) (Or.inl (by decide)) (by decide) (by decide)

/-! ## Several build results in one archive -/

theorem assembleArtifacts_loop_grows {h : Host} {opts : Opts} {w w1 : Archive}
    {br : CBuildResult} {exePath : String} {st : DepsState}
    (hexe : assembleExecutable h w br = (w1, .ok exePath))
    (hloop : depsLoop h opts br br.RuntimeDeps ⟨w1, [], "", []⟩ = (st, none)) :
    st.archive <+: (assembleArtifacts h opts w br).archive := by
  have h3 := assembleDictionary_grows h opts st.archive br
  unfold assembleArtifacts
  simp only [hexe, hloop]
  split
  · rename_i opts1 w2 e hdict
    rw [hdict] at h3
    exact h3
  · rename_i opts1 w2 dict hdict
    rw [hdict] at h3
    have h4 := assembleSeeds_grows h opts1 w2 br
    split
    · rename_i w3 e hs
      rw [hs] at h4
      exact h3.trans h4
    · rename_i w3 seeds hs
      rw [hs] at h4
      split
      · exact h3.trans h4
      · exact h3.trans h4

/-- C10 (counterexample): two different fuzz tests that each depend on an
external library with the same basename and different content are bundled
into one archive without error; both libraries are written, each below the
`external_libs` directory of its own fuzz test. -/
theorem different_fuzz_tests_no_collision :
    sampleHost.readFile "/ext/one/libexternal.so" ≠
      sampleHost.readFile "/ext/two/libexternal.so" ∧
    filepathBase "linux" "/ext/one/libexternal.so" =
      filepathBase "linux" "/ext/two/libexternal.so" ∧
    inCategory sampleHost "/p/build" "/ext/one/libexternal.so" .external ∧
    inCategory sampleHost "/p/build" "/ext/two/libexternal.so" .external ∧
    (bundleLoop sampleHost
      [sampleBuild "foo" ["address"] ["/ext/one/libexternal.so"],
       sampleBuild "bar" ["address"] ["/ext/two/libexternal.so"]]
      ⟨[], [], none, [], sampleOpts⟩).err = none ∧
    (⟨"libfuzzer/address/foo/external_libs/libexternal.so", .file,
        "/ext/one/libexternal.so"⟩ : Entry) ∈
      (bundleLoop sampleHost
        [sampleBuild "foo" ["address"] ["/ext/one/libexternal.so"],
         sampleBuild "bar" ["address"] ["/ext/two/libexternal.so"]]
        ⟨[], [], none, [], sampleOpts⟩).archive ∧
    (⟨"libfuzzer/address/bar/external_libs/libexternal.so", .file,
        "/ext/two/libexternal.so"⟩ : Entry) ∈
      (bundleLoop sampleHost
        [sampleBuild "foo" ["address"] ["/ext/one/libexternal.so"],
         sampleBuild "bar" ["address"] ["/ext/two/libexternal.so"]]
        ⟨[], [], none, [], sampleOpts⟩).archive := by
  decide

/-- C10 (amended): when two build results with the same fuzz-test prefix each
depend on an external library with the same basename and are assembled with
the same archive writer, the second assembly fails with the conflict error
naming both source paths as soon as it reaches its library, which is not
written, and the loop of `bundle` returns that error; and the loop body never
reports a conflict for an external library whose own staging path
`<prefix>/external_libs/<basename>` has no entry. -/
theorem collision_same_prefix (h : Host) (opts : Opts) (w : Archive)
    (br1 br2 : CBuildResult) (rest : List CBuildResult) (pre post : List String)
    (d1 d2 : String) (w1 : Archive) (exePath : String)
    (fuzzers0 : List Fuzzer) (systemDeps0 : List String) (quote : String → String)
    (hok1 : (assembleArtifacts h opts w br1).err = none)
    (hm1 : d1 ∈ br1.RuntimeDeps)
    (hext1 : inCategory h br1.BuildDir d1 .external)
    (hsame : fuzzTestPrefix h.goos br1 = fuzzTestPrefix h.goos br2)
    (hbase : filepathBase h.goos d1 = filepathBase h.goos d2)
    (hdeps : br2.RuntimeDeps = pre ++ d2 :: post)
    (hext2 : inCategory h br2.BuildDir d2 .external)
    (hexe : assembleExecutable h (assembleArtifacts h opts w br1).archive br2
      = (w1, .ok exePath))
    (hpre : (depsLoop h (assembleArtifacts h opts w br1).opts br2 pre
      ⟨w1, [], "", []⟩).2 = none) :
    (assembleArtifacts h (assembleArtifacts h opts w br1).opts
      (assembleArtifacts h opts w br1).archive br2).err
        = some (.conflict br2.Name d2 d1) ∧
    (assembleArtifacts h (assembleArtifacts h opts w br1).opts
      (assembleArtifacts h opts w br1).archive br2).archive
        = (depsLoop h (assembleArtifacts h opts w br1).opts br2 pre
            ⟨w1, [], "", []⟩).1.archive ∧
    (bundleLoop h (br1 :: br2 :: rest) ⟨fuzzers0, systemDeps0, none, w, opts⟩).err
      = some (.conflict br2.Name d2 d1) ∧
    d2.data <:+: ((BundleError.conflict br2.Name d2 d1).message quote).data ∧
    d1.data <:+: ((BundleError.conflict br2.Name d2 d1).message quote).data ∧
    (∀ (o : Opts) (st : DepsState) (d : String), inCategory h br2.BuildDir d .external →
      HasFileEntry st.archive (stagingPath h br2 d) = false →
      ∀ n a b, (assembleDep h o br2 st d).2 ≠ some (.conflict n a b)) := by
  obtain ⟨w0, exe0, st1, opts1, w2, dict, w3, seeds, env, he1, hd1, -, -, -, -⟩ :=
    assembleArtifacts_ok hok1
  have hloop1 : (depsLoop h opts br1 br1.RuntimeDeps ⟨w0, [], "", []⟩).2 = none := by
    rw [hd1]
  obtain ⟨hhas1, hsrc1⟩ := depsLoop_staged h opts br1 d1 hext1 br1.RuntimeDeps _ hm1 hloop1
  rw [hd1] at hhas1 hsrc1
  have hpath : stagingPath h br1 d1 = stagingPath h br2 d2 := by
    unfold stagingPath
    rw [hsame, hbase]
  rw [hpath] at hhas1 hsrc1
  have g1 : st1.archive <+: (assembleArtifacts h opts w br1).archive :=
    assembleArtifacts_loop_grows he1 hd1
  have g2 : (assembleArtifacts h opts w br1).archive <+: w1 := by
    have := assembleExecutable_grows h (assembleArtifacts h opts w br1).archive br2
    rw [hexe] at this
    exact this
  have g3 := depsLoop_grows h (assembleArtifacts h opts w br1).opts br2 pre ⟨w1, [], "", []⟩
  have g : st1.archive <+: (depsLoop h (assembleArtifacts h opts w br1).opts br2 pre
      ⟨w1, [], "", []⟩).1.archive := (g1.trans g2).trans g3
  have hhas := hasFileEntry_mono g hhas1
  have hsrc := (getSourcePath_mono g hhas1).trans hsrc1
  obtain ⟨herr, harch, -⟩ :=
    assembleDep_external_conflict (assembleArtifacts h opts w br1).opts hext2 hhas
  rw [hsrc] at herr
  have hloop : depsLoop h (assembleArtifacts h opts w br1).opts br2 br2.RuntimeDeps
      ⟨w1, [], "", []⟩ =
      ((assembleDep h (assembleArtifacts h opts w br1).opts br2
        (depsLoop h (assembleArtifacts h opts w br1).opts br2 pre ⟨w1, [], "", []⟩).1 d2).1,
        some (.conflict br2.Name d2 d1)) := by
    rw [hdeps, depsLoop_append h _ br2 pre (d2 :: post) _ hpre]
    exact depsLoop_cons_err post herr
  have hr2 := assembleArtifacts_loop_err hexe hloop
  refine ⟨by rw [hr2], by rw [hr2]; exact harch, ?_, ?_, ?_, ?_⟩
  · simp only [bundleLoop, hok1, hr2]
  · show d2.data <:+: ("fuzz test " ++ quote br2.Name
      ++ " has conflicting runtime dependencies: " ++ d2 ++ " and " ++ d1).data
    have := infix_of_append
      ("fuzz test " ++ quote br2.Name ++ " has conflicting runtime dependencies: ") d2
      (" and " ++ d1)
    simpa [String.append_assoc] using this
  · show d1.data <:+: ("fuzz test " ++ quote br2.Name
      ++ " has conflicting runtime dependencies: " ++ d2 ++ " and " ++ d1).data
    have := infix_of_append
      ("fuzz test " ++ quote br2.Name ++ " has conflicting runtime dependencies: "
        ++ d2 ++ " and ") d1 ""
    simpa [String.append_assoc] using this
  · intro o st d hext hfree n a b hconf
    obtain ⟨hb, hwk, hsys⟩ := hext
    rw [assembleDep_external o st hb hwk hsys] at hconf
    simp only [hfree] at hconf
    cases hr : h.readFile d with
    | none => simp [hr] at hconf
    | some c => simp [hr] at hconf

theorem collision_same_prefix_witness :
    (assembleArtifacts sampleHost
      (assembleArtifacts sampleHost sampleOpts []
        (sampleBuild "foo" ["address"] ["/ext/one/libexternal.so"])).opts
      (assembleArtifacts sampleHost sampleOpts []
        (sampleBuild "foo" ["address"] ["/ext/one/libexternal.so"])).archive
      (sampleBuild "foo" ["address"] ["/p/build/lib.so", "/ext/two/libexternal.so"])).err
        = some (.conflict "foo" "/ext/two/libexternal.so" "/ext/one/libexternal.so") ∧
    (bundleLoop sampleHost
      [sampleBuild "foo" ["address"] ["/ext/one/libexternal.so"],
       sampleBuild "foo" ["address"] ["/p/build/lib.so", "/ext/two/libexternal.so"]]
      ⟨[], [], none, [], sampleOpts⟩).err
        = some (.conflict "foo" "/ext/two/libexternal.so" "/ext/one/libexternal.so") := by
  have t := collision_same_prefix sampleHost sampleOpts []
    (sampleBuild "foo" ["address"] ["/ext/one/libexternal.so"])
    (sampleBuild "foo" ["address"] ["/p/build/lib.so", "/ext/two/libexternal.so"])
    [] ["/p/build/lib.so"] [] "/ext/one/libexternal.so" "/ext/two/libexternal.so"
    (assembleExecutable sampleHost
      (assembleArtifacts sampleHost sampleOpts []
        (sampleBuild "foo" ["address"] ["/ext/one/libexternal.so"])).archive
      (sampleBuild "foo" ["address"] ["/p/build/lib.so", "/ext/two/libexternal.so"])).1
    "libfuzzer/address/foo/bin/foo" [] [] id
    (by decide) (by decide) (by decide) (by decide) (by decide) rfl (by decide)
    (by decide) (by decide)
  exact ⟨t.1, t.2.2.1⟩

/-! ## System dependencies and library paths -/

/-- The effect on the variables of the loop of a dependency processed without
error. -/
theorem assembleDep_fields {h : Host} {opts : Opts} {br : CBuildResult} {st : DepsState}
    {dep : String} (hok : (assembleDep h opts br st dep).2 = none) :
    (assembleDep h opts br st dep).1.systemDeps =
      st.systemDeps ++
        (if inCategory h br.BuildDir dep .uncommonSystem then [dep] else []) ∧
    (assembleDep h opts br st dep).1.externalLibrariesPrefix =
      (if inCategory h br.BuildDir dep .external then
        filepathJoin h.goos [fuzzTestPrefix h.goos br, "external_libs"]
      else st.externalLibrariesPrefix) ∧
    (assembleDep h opts br st dep).1.libraryPaths =
      (if inCategory h br.BuildDir dep .inTree ∧ opts.BuildSystem = .other ∧
          sliceutilContains st.libraryPaths (libraryDir h br dep) = false then
        st.libraryPaths ++ [libraryDir h br dep]
      else st.libraryPaths) := by
  cases hb : h.isBelow dep br.BuildDir with
  | error e => simp [assembleDep, hb] at hok
  | ok b =>
    cases b with
    | true =>
      cases hrel : filepathRel h.goos br.BuildDir dep with
      | error e => simp [assembleDep, hb, hrel] at hok
      | ok rel =>
        cases hsha : sha256sum h dep with
        | error e => simp [assembleDep, hb, hrel, hsha] at hok
        | ok hash =>
          obtain ⟨-, -, hsys, hext⟩ := assembleDep_inTree opts st hb hrel hsha
          refine ⟨?_, ?_, ?_⟩
          · rw [hsys]
            simp [inCategory, hb]
          · rw [hext]
            simp [inCategory, hb]
          · obtain ⟨c, hc, -⟩ := sha256sum_ok hsha
            unfold assembleDep
            simp only [hb, hrel, hsha, inCategory, libraryDir, binDir, true_and]
            by_cases hhas : HasFileEntry st.archive
                (filepathJoin h.goos ["cas", hash.take 2, hash.drop 2, filepathBase h.goos dep])
                  = true
            · simp [hhas, WriteHardLink]
            · have hfalse : HasFileEntry st.archive
                  (filepathJoin h.goos ["cas", hash.take 2, hash.drop 2, filepathBase h.goos dep])
                    = false := by
                simpa using hhas
              have hnew : HasFileEntry
                  (st.archive ++ [(⟨filepathJoin h.goos
                    ["cas", hash.take 2, hash.drop 2, filepathBase h.goos dep], .file, dep⟩ : Entry)])
                  (filepathJoin h.goos ["cas", hash.take 2, hash.drop 2, filepathBase h.goos dep])
                    = true := by
                simp [hasFileEntry_append, HasFileEntry]
              simp only [hfalse, WriteFile, hc, WriteHardLink, hnew]
              simp
    | false =>
      cases hwk : matchesWellKnown h dep with
      | true =>
        rw [assembleDep_wellKnown opts st hb hwk]
        simp [inCategory, hb, hwk]
      | false =>
        cases hsys : h.isSystemLibrary dep with
        | true =>
          rw [assembleDep_uncommon opts st hb hwk hsys]
          simp [inCategory, hb, hwk, hsys]
        | false =>
          rw [assembleDep_external opts st hb hwk hsys] at hok ⊢
          by_cases hhas : HasFileEntry st.archive (stagingPath h br dep) = true
          · simp [hhas] at hok
          · simp only [hhas] at hok ⊢
            cases hr : h.readFile dep with
            | none => simp [hr] at hok
            | some c => simp [inCategory, hb, hwk, hsys]

theorem sliceutilContains_iff (l : List String) (x : String) :
    sliceutilContains l x = true ↔ x ∈ l := by
  unfold sliceutilContains
  rw [List.any_eq_true]
  constructor
  · rintro ⟨e, he, hx⟩
    have : e = x := by simpa using hx
    exact this ▸ he
  · intro hx
    exact ⟨x, hx, by simp⟩

theorem foldl_addLibraryPath (xs : List String) :
    ∀ acc : List String,
      xs.foldl addLibraryPath acc = acc ++ (firstOccurrences xs).filter (fun y => y ∉ acc) := by
  induction xs with
  | nil => intro acc; simp [firstOccurrences]
  | cons x xs ih =>
    intro acc
    rw [List.foldl_cons, ih]
    unfold addLibraryPath
    by_cases hx : x ∈ acc
    · rw [if_pos ((sliceutilContains_iff acc x).mpr hx)]
      simp only [firstOccurrences, List.filter_cons, hx, not_true_eq_false, decide_False,
        List.filter_filter]
      congr 1
      apply List.filter_congr
      intro y _
      by_cases hy : y ∈ acc
      · simp [hy]
      · have : y ≠ x := fun hyx => hy (hyx ▸ hx)
        simp [hy, this]
    · have hc : ¬ sliceutilContains acc x = true := fun hcon =>
        hx ((sliceutilContains_iff acc x).mp hcon)
      rw [if_neg hc]
      simp only [firstOccurrences, List.filter_cons, hx, not_false_eq_true, decide_True,
        List.filter_filter, List.append_assoc, List.singleton_append, ite_true]
      congr 2
      apply List.filter_congr
      intro y _
      by_cases hy : y ∈ acc
      · simp [hy]
      · by_cases hyx : y = x
        · simp [hyx]
        · simp [hy, hyx]

theorem firstOccurrences_eq_foldl (xs : List String) :
    firstOccurrences xs = xs.foldl addLibraryPath [] := by
  rw [foldl_addLibraryPath]
  simp

theorem firstOccurrences_subset (xs : List String) : ∀ y ∈ firstOccurrences xs, y ∈ xs := by
  induction xs with
  | nil => intro y hy; simp [firstOccurrences] at hy
  | cons x xs ih =>
    intro y hy
    simp only [firstOccurrences, List.mem_cons, List.mem_filter] at hy
    rcases hy with h1 | ⟨h2, -⟩
    · exact h1 ▸ List.mem_cons_self _ _
    · exact List.mem_cons_of_mem _ (ih y h2)

theorem firstOccurrences_nodup (xs : List String) : (firstOccurrences xs).Nodup := by
  induction xs with
  | nil => simp [firstOccurrences]
  | cons x xs ih =>
    simp only [firstOccurrences, List.nodup_cons, List.mem_filter]
    refine ⟨?_, ih.filter _⟩
    rintro ⟨-, hne⟩
    simp at hne

theorem mem_firstOccurrences (xs : List String) (y : String) :
    y ∈ firstOccurrences xs ↔ y ∈ xs := by
  constructor
  · exact firstOccurrences_subset xs y
  · intro hy
    induction xs with
    | nil => simp at hy
    | cons x xs ih =>
      simp only [firstOccurrences, List.mem_cons, List.mem_filter]
      by_cases hyx : y = x
      · exact Or.inl hyx
      · rcases List.mem_cons.mp hy with h1 | h1
        · exact absurd h1 hyx
        · exact Or.inr ⟨ih h1, by simpa using hyx⟩

theorem depsLoop_fields (h : Host) (opts : Opts) (br : CBuildResult) (deps : List String) :
    ∀ st : DepsState, (depsLoop h opts br deps st).2 = none →
      (depsLoop h opts br deps st).1.systemDeps =
        st.systemDeps ++
          deps.filter (fun d => decide (inCategory h br.BuildDir d .uncommonSystem)) ∧
      (depsLoop h opts br deps st).1.externalLibrariesPrefix =
        (if deps.any (fun d => decide (inCategory h br.BuildDir d .external)) then
          filepathJoin h.goos [fuzzTestPrefix h.goos br, "external_libs"]
        else st.externalLibrariesPrefix) ∧
      (depsLoop h opts br deps st).1.libraryPaths =
        (if opts.BuildSystem = .other then
          ((deps.filter (fun d => decide (inCategory h br.BuildDir d .inTree))).map
            (libraryDir h br)).foldl addLibraryPath st.libraryPaths
        else st.libraryPaths) := by
  induction deps with
  | nil => intro st _; simp [depsLoop]
  | cons d deps ih =>
    intro st hok
    obtain ⟨hstep, heq⟩ := depsLoop_cons_ok hok
    rw [heq] at hok ⊢
    obtain ⟨f1, f2, f3⟩ := assembleDep_fields hstep
    obtain ⟨i1, i2, i3⟩ := ih _ hok
    refine ⟨?_, ?_, ?_⟩
    · rw [i1, f1]
      by_cases hu : inCategory h br.BuildDir d .uncommonSystem
      · simp [hu]
      · simp [hu]
    · rw [i2, f2]
      by_cases he : inCategory h br.BuildDir d .external
      · simp [he]
      · simp [he]
    · rw [i3, f3]
      by_cases ho : opts.BuildSystem = .other
      · by_cases hin : inCategory h br.BuildDir d .inTree
        · simp only [ho, hin, true_and, if_true, List.filter_cons, decide_True, List.map_cons,
            List.foldl_cons, addLibraryPath]
          by_cases hc : sliceutilContains st.libraryPaths (libraryDir h br d) = true
          · simp [hc]
          · simp [hc]
        · simp [ho, hin]
      · simp [ho]

theorem cleanFinish_ne_empty (out : List Char) :
    (if out = [] then "." else String.mk out) ≠ "" := by
  split
  · decide
  · rename_i hne
    intro hcon
    apply hne
    have := congrArg String.data hcon
    simpa using this

theorem filepathClean_ne_empty (goos path : String) : filepathClean goos path ≠ "" := by
  unfold filepathClean
  exact cleanFinish_ne_empty _

theorem filepathJoin_ne_empty (goos : String) (elem : List String)
    (hne : ∃ e ∈ elem, e ≠ "") : filepathJoin goos elem ≠ "" := by
  unfold filepathJoin
  split
  · rename_i hnil
    obtain ⟨e, he, hee⟩ := hne
    rw [List.dropWhile_eq_nil_iff] at hnil
    have := hnil e he
    simp at this
    exact absurd this hee
  · exact filepathClean_ne_empty _ _

theorem makeFuzzers_fields (br : CBuildResult) (base : Fuzzer) :
    ∀ f ∈ makeFuzzers br base,
      f.Target = base.Target ∧ f.Path = base.Path ∧ f.Dictionary = base.Dictionary ∧
      f.Seeds = base.Seeds ∧ f.LibraryPaths = base.LibraryPaths ∧
      f.EngineOptions.Env = base.EngineOptions.Env := by
  intro f hf
  unfold makeFuzzers at hf
  split at hf
  · simp only [List.mem_singleton] at hf
    subst hf
    exact ⟨rfl, rfl, rfl, rfl, rfl, rfl⟩
  · rw [sanitizerFuzzers_eq] at hf
    simp only [List.nil_append, List.mem_map] at hf
    obtain ⟨s, -, hs⟩ := hf
    subst hs
    exact ⟨rfl, rfl, rfl, rfl, rfl, rfl⟩

/-- C11: the system-dependency list returned by a successful `assembleArtifacts`
is the sub-list, in the original order, of the runtime dependencies that are
not below the build directory, match no pattern of `wellKnownSystemLibraries`
and are system libraries. -/
theorem system_deps_returned (h : Host) (opts : Opts) (w : Archive) (br : CBuildResult)
    (hok : (assembleArtifacts h opts w br).err = none) :
    (assembleArtifacts h opts w br).systemDeps =
      br.RuntimeDeps.filter (fun d =>
        decide (h.isBelow d br.BuildDir = .ok false ∧ matchesWellKnown h d = false ∧
          h.isSystemLibrary d = true)) := by
  obtain ⟨w1, exePath, st, opts1, w2, dict, w3, seeds, env, -, hd, -, -, -, hr⟩ :=
    assembleArtifacts_ok hok
  have hloop : (depsLoop h opts br br.RuntimeDeps ⟨w1, [], "", []⟩).2 = none := by
    rw [hd]
  obtain ⟨hsys, -, -⟩ := depsLoop_fields h opts br br.RuntimeDeps _ hloop
  rw [hd] at hsys
  rw [hr]
  simpa [inCategory] using hsys

theorem system_deps_returned_witness :
    (assembleArtifacts sampleHost sampleOpts []
      (sampleBuild "some_fuzz_test" ["address"]
        ["/p/build/lib/helper.so", "/ext/one/libexternal.so", "/usr/lib/libBLAS.so",
          "/lib/x86_64-linux-gnu/libc.so.6"])).systemDeps =
      ["/p/build/lib/helper.so", "/ext/one/libexternal.so", "/usr/lib/libBLAS.so",
        "/lib/x86_64-linux-gnu/libc.so.6"].filter (fun d =>
        decide (sampleHost.isBelow d "/p/build" = .ok false ∧
          matchesWellKnown sampleHost d = false ∧ sampleHost.isSystemLibrary d = true))
    ∧ (assembleArtifacts sampleHost sampleOpts []
      (sampleBuild "some_fuzz_test" ["address"]
        ["/p/build/lib/helper.so", "/ext/one/libexternal.so", "/usr/lib/libBLAS.so"])).systemDeps
      = ["/usr/lib/libBLAS.so"] :=
  ⟨system_deps_returned sampleHost sampleOpts []
    (sampleBuild "some_fuzz_test" ["address"]
      ["/p/build/lib/helper.so", "/ext/one/libexternal.so", "/usr/lib/libBLAS.so",
        "/lib/x86_64-linux-gnu/libc.so.6"]) (by decide), by decide⟩

/-- C20: after a successful `assembleArtifacts` the `LibraryPaths` of every
returned record are: for the build system "other" the directories
`<prefix>/bin/<directory of the dependency relative to the build directory>` of
the in-tree dependencies, each once, in the order of first occurrence, and for
every other build system none of them; followed by `<prefix>/external_libs` if
and only if a dependency is external. -/
theorem library_paths (h : Host) (opts : Opts) (w : Archive) (br : CBuildResult)
    (hok : (assembleArtifacts h opts w br).err = none) :
    (∀ f ∈ (assembleArtifacts h opts w br).fuzzers,
      f.LibraryPaths =
        (if opts.BuildSystem = .other then
          firstOccurrences
            ((br.RuntimeDeps.filter
              (fun d => decide (inCategory h br.BuildDir d .inTree))).map
                (fun d => match filepathRel h.goos br.BuildDir d with
                  | .ok rel =>
                    filepathJoin h.goos
                      [filepathJoin h.goos [fuzzTestPrefix h.goos br, "bin"],
                        filepathDir h.goos rel]
                  | .error _ => ""))
        else []) ++
        (if br.RuntimeDeps.any (fun d => decide (inCategory h br.BuildDir d .external)) then
          [filepathJoin h.goos [fuzzTestPrefix h.goos br, "external_libs"]]
        else [])) ∧
    (firstOccurrences
      ((br.RuntimeDeps.filter (fun d => decide (inCategory h br.BuildDir d .inTree))).map
        (fun d => match filepathRel h.goos br.BuildDir d with
          | .ok rel =>
            filepathJoin h.goos
              [filepathJoin h.goos [fuzzTestPrefix h.goos br, "bin"], filepathDir h.goos rel]
          | .error _ => ""))).Nodup := by
  refine ⟨?_, firstOccurrences_nodup _⟩
  obtain ⟨w1, exePath, st, opts1, w2, dict, w3, seeds, env, -, hd, -, -, -, hr⟩ :=
    assembleArtifacts_ok hok
  have hloop : (depsLoop h opts br br.RuntimeDeps ⟨w1, [], "", []⟩).2 = none := by
    rw [hd]
  obtain ⟨-, hext, hlib⟩ := depsLoop_fields h opts br br.RuntimeDeps _ hloop
  rw [hd] at hext hlib
  dsimp only at hext hlib
  intro f hf
  rw [hr] at hf
  obtain ⟨-, -, -, -, hlp, -⟩ := makeFuzzers_fields br _ f hf
  rw [hlp]
  have hdir : (fun d => match filepathRel h.goos br.BuildDir d with
      | .ok rel =>
        filepathJoin h.goos
          [filepathJoin h.goos [fuzzTestPrefix h.goos br, "bin"], filepathDir h.goos rel]
      | .error _ => "") = libraryDir h br := by
    funext d
    rfl
  rw [hdir, firstOccurrences_eq_foldl]
  have hne : filepathJoin h.goos [fuzzTestPrefix h.goos br, "external_libs"] ≠ "" :=
    filepathJoin_ne_empty _ _ ⟨"external_libs", by simp, by decide⟩
  simp only [baseFuzzer, hext, hlib]
  by_cases hany : (br.RuntimeDeps.any
      (fun d => decide (inCategory h br.BuildDir d .external))) = true
  · simp [hany, hne]
  · simp [hany]

theorem library_paths_witness :
    (∀ f ∈ (assembleArtifacts sampleHost { sampleOpts with BuildSystem := .other } []
        (sampleBuild "foo" ["address"]
          ["/p/build/lib/a.so", "/ext/one/libexternal.so", "/p/build/lib/sub/a.so",
            "/p/build/lib/b.so", "/p/build/lib.so", "/usr/lib/libBLAS.so"])).fuzzers,
      f.LibraryPaths =
        (if BuildSystem.other = .other then
          firstOccurrences
            ((["/p/build/lib/a.so", "/ext/one/libexternal.so", "/p/build/lib/sub/a.so",
                "/p/build/lib/b.so", "/p/build/lib.so", "/usr/lib/libBLAS.so"].filter
              (fun d => decide (inCategory sampleHost "/p/build" d .inTree))).map
                (fun d => match filepathRel "linux" "/p/build" d with
                  | .ok rel =>
                    filepathJoin "linux"
                      [filepathJoin "linux"
                        [fuzzTestPrefix "linux" (sampleBuild "foo" ["address"] []), "bin"],
                        filepathDir "linux" rel]
                  | .error _ => ""))
        else []) ++
        (if ["/p/build/lib/a.so", "/ext/one/libexternal.so", "/p/build/lib/sub/a.so",
              "/p/build/lib/b.so", "/p/build/lib.so", "/usr/lib/libBLAS.so"].any
            (fun d => decide (inCategory sampleHost "/p/build" d .external)) then
          [filepathJoin "linux"
            [fuzzTestPrefix "linux" (sampleBuild "foo" ["address"] []), "external_libs"]]
        else [])) ∧
    (assembleArtifacts sampleHost { sampleOpts with BuildSystem := .other } []
        (sampleBuild "foo" ["address"]
          ["/p/build/lib/a.so", "/ext/one/libexternal.so", "/p/build/lib/sub/a.so",
            "/p/build/lib/b.so", "/p/build/lib.so", "/usr/lib/libBLAS.so"])).fuzzers.map
        (fun f => f.LibraryPaths) =
      [["libfuzzer/address/foo/bin/lib", "libfuzzer/address/foo/bin/lib/sub",
        "libfuzzer/address/foo/bin", "libfuzzer/address/foo/external_libs"]] ∧
    (assembleArtifacts sampleHost sampleOpts []
        (sampleBuild "some_fuzz_test" ["address"]
          ["/p/build/lib/helper.so", "/ext/one/libexternal.so",
            "/usr/lib/libBLAS.so"])).fuzzers.map (fun f => f.LibraryPaths) =
      [["libfuzzer/address/some_fuzz_test/external_libs"]] :=
  ⟨(library_paths sampleHost { sampleOpts with BuildSystem := .other } []
      (sampleBuild "foo" ["address"]
        ["/p/build/lib/a.so", "/ext/one/libexternal.so", "/p/build/lib/sub/a.so",
          "/p/build/lib/b.so", "/p/build/lib.so", "/usr/lib/libBLAS.so"]) (by decide)).1,
    by decide, by decide⟩

/-! ## The prefix and its separators -/

theorem sortStrings_sample :
    sortStrings ["undefined", "address", "coverage"] = ["address", "coverage", "undefined"] := by
  decide

theorem resolveDictionary_env {h : Host} {opts opts1 : Opts} {br : CBuildResult}
    (hr : resolveDictionary h opts br = .ok opts1) : opts1.Env = opts.Env := by
  unfold resolveDictionary at hr
  split at hr
  · split at hr
    · simp at hr
    · simp only [Except.ok.injEq] at hr
      rw [← hr]
    · simp only [Except.ok.injEq] at hr
      rw [← hr]
  · simp only [Except.ok.injEq] at hr
    rw [← hr]

theorem assembleDictionary_ok {h : Host} {opts opts1 : Opts} {w w2 : Archive}
    {br : CBuildResult} {dict : String}
    (hd : assembleDictionary h opts w br = (opts1, w2, .ok dict)) :
    resolveDictionary h opts br = .ok opts1 ∧
    archiveDictionary h opts1 w br = (w2, .ok dict) := by
  unfold assembleDictionary at hd
  split at hd
  · simp at hd
  · rename_i o1 hres
    simp only [Prod.mk.injEq] at hd
    obtain ⟨ho, ha⟩ := hd
    subst ho
    exact ⟨hres, ha⟩

theorem archiveDictionary_ok {h : Host} {opts1 : Opts} {w w2 : Archive}
    {br : CBuildResult} {dict : String}
    (ha : archiveDictionary h opts1 w br = (w2, .ok dict)) :
    (opts1.Dictionary ≠ "" →
      dict = filepathJoin h.goos [fuzzTestPrefix h.goos br, "dict"] ∧
      w2 = w ++ [⟨filepathJoin h.goos [fuzzTestPrefix h.goos br, "dict"], .file,
        opts1.Dictionary⟩]) ∧
    (opts1.Dictionary = "" → dict = "" ∧ w2 = w) := by
  unfold archiveDictionary at ha
  by_cases hne : opts1.Dictionary ≠ ""
  · rw [if_pos hne] at ha
    dsimp only at ha
    refine ⟨fun _ => ?_, fun he => absurd he hne⟩
    split at ha
    · simp at ha
    · rename_i w1 hw1
      simp only [Prod.mk.injEq, Except.ok.injEq] at ha
      obtain ⟨h1, h2⟩ := ha
      exact ⟨h2.symm, by rw [← h1, writeFile_ok hw1]⟩
  · rw [if_neg hne] at ha
    simp only [Prod.mk.injEq, Except.ok.injEq] at ha
    obtain ⟨h1, h2⟩ := ha
    exact ⟨fun hn => absurd hn hne, fun _ => ⟨h2.symm, h1.symm⟩⟩

theorem dictionary_resolution_sample :
    (assembleArtifacts sampleHost sampleOpts []
      (sampleBuild "some_fuzz_test" ["address"] [])).fuzzers.map (fun f => f.Dictionary) =
      ["libfuzzer/address/some_fuzz_test/dict"] ∧
    (assembleArtifacts sampleHost { sampleOpts with Dictionary := "/ext/one/libother.so" } []
      (sampleBuild "some_fuzz_test" ["address"] [])).archive.filter
        (fun e => e.path = "libfuzzer/address/some_fuzz_test/dict") =
      [⟨"libfuzzer/address/some_fuzz_test/dict", .file, "/ext/one/libother.so"⟩] ∧
    (assembleArtifacts sampleHost sampleOpts []
      { sampleBuild "some_fuzz_test" ["address"] [] with Dictionary := "/p/nodict" }).fuzzers.map
        (fun f => f.Dictionary) = [""] := by
  decide

theorem setsVariable_self (key value : String) :
    setsVariable key (key ++ "=" ++ value) = true := by
  unfold setsVariable
  rw [List.isPrefixOf_iff_prefix]
  exact ⟨value.data, by simp [String.data_append]⟩

theorem setenvEntries_mem (key value : String) (env : List String) :
    key ++ "=" ++ value ∈ setenvEntries key value env := by
  induction env with
  | nil => simp [setenvEntries]
  | cons e rest ih =>
    unfold setenvEntries
    split
    · exact List.mem_cons_self _ _
    · exact List.mem_cons_of_mem _ ih

theorem setenvEntries_others (key value : String) (env : List String) :
    (setenvEntries key value env).filter (fun e => !setsVariable key e) =
      env.filter (fun e => !setsVariable key e) := by
  induction env with
  | nil => simp [setenvEntries, setsVariable_self]
  | cons e rest ih =>
    unfold setenvEntries
    by_cases he : setsVariable key e = true
    · simp [he, setsVariable_self]
    · simp [he, ih]

theorem setenvEntries_append (key value : String) (env : List String)
    (hno : ∀ e ∈ env, setsVariable key e = false) :
    setenvEntries key value env = env ++ [key ++ "=" ++ value] := by
  induction env with
  | nil => rfl
  | cons e rest ih =>
    unfold setenvEntries
    rw [if_neg (by simp [hno e (List.mem_cons_self _ _)]),
      ih (fun x hx => hno x (List.mem_cons_of_mem _ hx))]
    rfl

theorem assembleArtifacts_env {h : Host} {opts : Opts} {w : Archive} {br : CBuildResult} :
    ∀ f ∈ (assembleArtifacts h opts w br).fuzzers,
      h.setenv opts.Env "NO_CIFUZZ" "1" = .ok f.EngineOptions.Env := by
  intro f hf
  cases herr : (assembleArtifacts h opts w br).err with
  | some e =>
    rw [assembleArtifacts_err_fuzzers herr] at hf
    simp at hf
  | none =>
    obtain ⟨w1, exePath, st, opts1, w2, dict, w3, seeds, env, -, -, hdict, -, henv, hr⟩ :=
      assembleArtifacts_ok herr
    obtain ⟨hres, -⟩ := assembleDictionary_ok hdict
    rw [hr] at hf
    obtain ⟨-, -, -, -, -, he⟩ := makeFuzzers_fields br _ f hf
    rw [he, ← resolveDictionary_env hres, henv]
    rfl

/-- C19: when `envutil.Setenv` puts `NO_CIFUZZ=1` into the environment of the
options as `Setenv` does, every record returned by `assembleArtifacts` has
`NO_CIFUZZ=1` in `EngineOptions.Env` and the other variables of the options in
their original order; when the options do not set `NO_CIFUZZ`, the environment
of the record is the one of the options followed by `NO_CIFUZZ=1`. -/
theorem no_cifuzz_env (h : Host) (opts : Opts) (w : Archive) (br : CBuildResult)
    (hset : h.setenv opts.Env "NO_CIFUZZ" "1" = Setenv opts.Env "NO_CIFUZZ" "1") :
    ∀ f ∈ (assembleArtifacts h opts w br).fuzzers,
      "NO_CIFUZZ=1" ∈ f.EngineOptions.Env ∧
      f.EngineOptions.Env.filter (fun e => !setsVariable "NO_CIFUZZ" e) =
        opts.Env.filter (fun e => !setsVariable "NO_CIFUZZ" e) ∧
      ((∀ e ∈ opts.Env, setsVariable "NO_CIFUZZ" e = false) →
        f.EngineOptions.Env = opts.Env ++ ["NO_CIFUZZ=1"]) := by
  intro f hf
  have henv := assembleArtifacts_env f hf
  rw [hset] at henv
  have he : f.EngineOptions.Env = setenvEntries "NO_CIFUZZ" "1" opts.Env :=
    (Except.ok.inj henv).symm
  rw [he]
  exact ⟨setenvEntries_mem "NO_CIFUZZ" "1" opts.Env,
    setenvEntries_others "NO_CIFUZZ" "1" opts.Env,
    fun hno => setenvEntries_append "NO_CIFUZZ" "1" opts.Env hno⟩

theorem no_cifuzz_env_witness :
    (∀ f ∈ (assembleArtifacts sampleHostSetenv sampleOpts []
        (sampleBuild "some_fuzz_test" ["address"] [])).fuzzers,
      "NO_CIFUZZ=1" ∈ f.EngineOptions.Env ∧
      f.EngineOptions.Env.filter (fun e => !setsVariable "NO_CIFUZZ" e) =
        ["FOO=foo"].filter (fun e => !setsVariable "NO_CIFUZZ" e) ∧
      ((∀ e ∈ ["FOO=foo"], setsVariable "NO_CIFUZZ" e = false) →
        f.EngineOptions.Env = ["FOO=foo"] ++ ["NO_CIFUZZ=1"])) ∧
    (assembleArtifacts sampleHostSetenv sampleOpts []
      (sampleBuild "some_fuzz_test" ["address"] [])).fuzzers.map
        (fun f => f.EngineOptions.Env) = [["FOO=foo", "NO_CIFUZZ=1"]] ∧
    (assembleArtifacts sampleHostSetenv
      { sampleOpts with Env := ["A=1", "NO_CIFUZZ=0", "B=2"] } []
      (sampleBuild "some_fuzz_test" ["coverage"] [])).fuzzers.map
        (fun f => f.EngineOptions.Env) = [["A=1", "NO_CIFUZZ=1", "B=2"]] :=
  ⟨no_cifuzz_env sampleHostSetenv sampleOpts [] (sampleBuild "some_fuzz_test" ["address"] [])
    rfl, by decide, by decide⟩

/-! ## Seed corpus directories -/

theorem digitChar_value (d : Nat) (hd : d < 10) : (Nat.digitChar d).toNat - 48 = d := by
  interval_cases d <;> rfl

theorem digitsValue_append (ds es : List Char) :
    digitsValue (ds ++ es) = es.foldl (fun acc c => acc * 10 + (c.toNat - 48)) (digitsValue ds) := by
  simp [digitsValue, List.foldl_append]

theorem toDigitsCore_append (fuel : Nat) :
    ∀ (n : Nat) (ds : List Char),
      Nat.toDigitsCore 10 fuel n ds = Nat.toDigitsCore 10 fuel n [] ++ ds := by
  induction fuel with
  | zero => intro n ds; simp [Nat.toDigitsCore]
  | succ fuel ih =>
    intro n ds
    simp only [Nat.toDigitsCore]
    split
    · simp
    · rw [ih (n / 10) (Nat.digitChar (n % 10) :: ds), ih (n / 10) [Nat.digitChar (n % 10)]]
      simp

theorem digitsValue_toDigitsCore (fuel : Nat) :
    ∀ n : Nat, n < fuel → digitsValue (Nat.toDigitsCore 10 fuel n []) = n := by
  induction fuel with
  | zero => intro n hn; omega
  | succ fuel ih =>
    intro n hn
    simp only [Nat.toDigitsCore]
    split
    · rename_i hz
      have hlt : n < 10 := by omega
      simp [digitsValue, digitChar_value (n % 10) (Nat.mod_lt _ (by decide))]
      omega
    · rename_i hz
      rw [toDigitsCore_append, digitsValue_append]
      have hlt : n / 10 < fuel := by omega
      rw [ih (n / 10) hlt]
      simp [digitChar_value (n % 10) (Nat.mod_lt _ (by decide))]
      omega

theorem digitsValue_repr (n : Nat) : digitsValue (toString n).data = n := by
  show digitsValue (Nat.repr n).data = n
  unfold Nat.repr Nat.toDigits
  simp only [List.asString]
  exact digitsValue_toDigitsCore (n + 1) n (Nat.lt_succ_self n)

theorem toString_nat_injective {n m : Nat} (hnm : toString n = toString m) : n = m := by
  have := congrArg (fun s : String => digitsValue s.data) hnm
  simpa [digitsValue_repr] using this

theorem candidate_injective (basename : String) {n m : Nat}
    (hnm : basename ++ "-" ++ toString n = basename ++ "-" ++ toString m) : n = m := by
  apply toString_nat_injective
  have := congrArg String.data hnm
  simp only [String.data_append, List.append_assoc] at this
  have h2 := List.append_cancel_left (List.append_cancel_left this)
  exact String.ext h2

theorem candidate_ne_basename (basename : String) (n : Nat) :
    basename ++ "-" ++ toString n ≠ basename := by
  intro hcon
  have := congrArg String.length hcon
  simp only [String.length_append] at this
  have h1 : ("-" : String).length = 1 := rfl
  omega

theorem chooseTargetDir_none (taken : List String) (basename : String) (fuel : Nat) :
    ∀ (i : Nat) (cur : String), chooseTargetDir taken basename (fuel + 1) i cur = none →
      cur ∈ taken ∧ ∀ m, i ≤ m → m < i + fuel → basename ++ "-" ++ toString m ∈ taken := by
  induction fuel with
  | zero =>
    intro i cur hc
    unfold chooseTargetDir at hc
    by_cases hcur : cur ∈ taken
    · exact ⟨hcur, fun m h1 h2 => by omega⟩
    · have hnc : ¬ sliceutilContains taken cur = true :=
        fun hcon => hcur ((sliceutilContains_iff taken cur).mp hcon)
      rw [if_neg hnc] at hc
      simp at hc
  | succ fuel ih =>
    intro i cur hc
    unfold chooseTargetDir at hc
    by_cases hcur : cur ∈ taken
    · rw [if_pos ((sliceutilContains_iff taken cur).mpr hcur)] at hc
      obtain ⟨h1, h2⟩ := ih (i + 1) (basename ++ "-" ++ toString i) hc
      refine ⟨hcur, ?_⟩
      intro m hm1 hm2
      by_cases hmi : m = i
      · rw [hmi]
        exact h1
      · exact h2 m (by omega) (by omega)
    · have hnc : ¬ sliceutilContains taken cur = true :=
        fun hcon => hcur ((sliceutilContains_iff taken cur).mp hcon)
      rw [if_neg hnc] at hc
      simp at hc

/-- The search loop of `prepareSeeds` finds a target directory within the
budget the model gives it. -/
theorem chooseTargetDir_terminates (taken : List String) (basename : String) :
    ∃ t, chooseTargetDir taken basename (taken.length + 1) 1 basename = some t := by
  cases hc : chooseTargetDir taken basename (taken.length + 1) 1 basename with
  | some t => exact ⟨t, rfl⟩
  | none =>
    exfalso
    obtain ⟨h0, hall⟩ := chooseTargetDir_none taken basename taken.length 1 basename hc
    have hsub : (basename :: (List.range' 1 taken.length).map
        (fun m => basename ++ "-" ++ toString m)) ⊆ taken := by
      intro x hx
      rcases List.mem_cons.mp hx with h1 | h1
      · rw [h1]
        exact h0
      · rw [List.mem_map] at h1
        obtain ⟨m, hm, rfl⟩ := h1
        rw [List.mem_range'_1] at hm
        exact hall m hm.1 (by omega)
    have hnd : (basename :: (List.range' 1 taken.length).map
        (fun m => basename ++ "-" ++ toString m)).Nodup := by
      rw [List.nodup_cons]
      refine ⟨?_, ?_⟩
      · intro hmem
        rw [List.mem_map] at hmem
        obtain ⟨m, -, hm⟩ := hmem
        exact candidate_ne_basename basename m hm
      · exact (List.nodup_range' 1 taken.length).map
          (fun a b hab => candidate_injective basename hab)
    have hlen := (List.subperm_of_subset hnd hsub).length_le
    simp at hlen

/-- The search loop of `prepareSeeds` never uses up its budget: the only errors
of `prepareSeeds` are those of the archive writer. -/
theorem prepareSeedsLoop_never_budget (h : Host) (archiveSeedsDir : String) :
    ∀ (dirs taken : List String) (w : Archive),
      (prepareSeedsLoop h archiveSeedsDir dirs taken w).2 ≠ some .budget := by
  intro dirs
  induction dirs with
  | nil => intro taken w; simp [prepareSeedsLoop]
  | cons d rest ih =>
    intro taken w
    obtain ⟨t, ht⟩ := chooseTargetDir_terminates taken
      (filepathJoin h.goos [archiveSeedsDir, filepathBase h.goos d])
    unfold prepareSeedsLoop
    simp only [ht]
    cases hw : WriteDir h w t d with
    | error e => simp
    | ok w1 => exact ih _ _

/-- The same seed corpus directory given twice is copied to `seeds/seeds` and to
`seeds/seeds-1`. -/
theorem seeds_twice_sample :
    prepareSeeds sampleHost ["/p/seeds", "/p/seeds"] "libfuzzer/address/foo/seeds" [] =
      (dirEntries sampleHost "libfuzzer/address/foo/seeds/seeds" "/p/seeds" ++
        dirEntries sampleHost "libfuzzer/address/foo/seeds/seeds-1" "/p/seeds", none) := by
  decide

/-! ## Archive paths written more than once -/

theorem freshFiles_append (a : Archive) :
    ∀ (old b : Archive),
      freshFiles old (a ++ b) = (freshFiles old a && freshFiles (old ++ a) b) := by
  induction a with
  | nil => intro old b; simp [freshFiles]
  | cons e a ih =>
    intro old b
    have hassoc : old ++ e :: a = old ++ [e] ++ a := by simp
    rw [List.cons_append, freshFiles, freshFiles, ih (old ++ [e]) b, hassoc, Bool.and_assoc]

theorem freshFiles_spec (new : Archive) :
    ∀ (old : Archive), freshFiles old new = true →
      ∀ pre e post, new = pre ++ e :: post → e.kind = .file →
        HasFileEntry (old ++ pre) e.path = false := by
  induction new with
  | nil => intro old _ pre e post hsplit; simp at hsplit
  | cons x new ih =>
    intro old hfresh pre e post hsplit hkind
    simp only [freshFiles, Bool.and_eq_true, Bool.or_eq_true, decide_eq_true_eq,
      Bool.not_eq_true'] at hfresh
    cases pre with
    | nil =>
      simp only [List.nil_append, List.cons.injEq] at hsplit
      obtain ⟨hx, -⟩ := hsplit
      subst hx
      rcases hfresh.1 with h1 | h1
      · exact absurd hkind h1
      · simpa using h1
    | cons y pre =>
      simp only [List.cons_append, List.cons.injEq] at hsplit
      obtain ⟨hx, hrest⟩ := hsplit
      subst hx
      have := ih (old ++ [x]) hfresh.2 pre e post hrest hkind
      simpa [List.append_assoc] using this

theorem assembleDep_fresh (h : Host) (opts : Opts) (br : CBuildResult) (st : DepsState)
    (dep : String) :
    ∃ new, (assembleDep h opts br st dep).1.archive = st.archive ++ new ∧
      freshFiles st.archive new = true := by
  unfold assembleDep
  split
  · exact ⟨[], by simp, rfl⟩
  · split
    · exact ⟨[], by simp, rfl⟩
    · split
      · exact ⟨[], by simp, rfl⟩
      · dsimp only
        split
        · split
          · exact ⟨[], by simp, rfl⟩
          · rename_i w hw
            exact ⟨_, writeHardLink_ok hw, by simp [freshFiles]⟩
        · rename_i hhas
          split
          · exact ⟨[], by simp, rfl⟩
          · rename_i w1 hw1
            have h1 := writeFile_ok hw1
            split
            · exact ⟨_, h1, by simpa [freshFiles] using hhas⟩
            · rename_i w2 hw2
              have h2 := writeHardLink_ok hw2
              refine ⟨_, by rw [h2, h1, List.append_assoc], ?_⟩
              simpa [freshFiles] using hhas
  · split
    · exact ⟨[], by simp, rfl⟩
    · split
      · exact ⟨[], by simp, rfl⟩
      · dsimp only
        split
        · exact ⟨[], by simp, rfl⟩
        · rename_i hhas
          split
          · exact ⟨[], by simp, rfl⟩
          · rename_i w hw
            exact ⟨_, writeFile_ok hw, by simpa [freshFiles] using hhas⟩

theorem depsLoop_fresh (h : Host) (opts : Opts) (br : CBuildResult) (deps : List String) :
    ∀ st : DepsState, ∃ new, (depsLoop h opts br deps st).1.archive = st.archive ++ new ∧
      freshFiles st.archive new = true := by
  induction deps with
  | nil => intro st; exact ⟨[], by simp [depsLoop], rfl⟩
  | cons dep deps ih =>
    intro st
    obtain ⟨n1, h1, f1⟩ := assembleDep_fresh h opts br st dep
    rw [depsLoop_cons]
    cases hres : assembleDep h opts br st dep with
    | mk st1 oe =>
      rw [hres] at h1
      cases oe with
      | some e => exact ⟨n1, h1, f1⟩
      | none =>
        obtain ⟨n2, h2, f2⟩ := ih st1
        dsimp only at h1 ⊢
        refine ⟨n1 ++ n2, by rw [h2, h1, List.append_assoc], ?_⟩
        rw [freshFiles_append, f1, ← h1, f2]
        rfl

/-- C14 (refuted as stated): a build result that lists the same in-tree
runtime dependency twice is assembled without error and its link path
`<prefix>/bin/lib.so` is written twice, as two hard-link entries. -/
theorem link_path_written_twice :
    (assembleArtifacts sampleHost sampleOpts []
      (sampleBuild "foo" ["address"] ["/p/build/lib.so", "/p/build/lib.so"])).err = none ∧
    entriesAt (assembleArtifacts sampleHost sampleOpts []
      (sampleBuild "foo" ["address"] ["/p/build/lib.so", "/p/build/lib.so"])).archive
        "libfuzzer/address/foo/bin/lib.so" =
      [⟨"libfuzzer/address/foo/bin/lib.so", .hardLink,
         "cas/04/00000000000000000000000000000000000000000000000000000000000000/lib.so"⟩,
       ⟨"libfuzzer/address/foo/bin/lib.so", .hardLink,
         "cas/04/00000000000000000000000000000000000000000000000000000000000000/lib.so"⟩] := by
  decide

/-- C14 (amended): the writes of the dependency loop that follow a has-entry
check are never duplicates.  Whatever the runtime dependencies and whether or
not the loop ends with an error, every file entry the loop writes (a store
payload or a staged external library) is written at an archive path that had no
entry at that moment. -/
theorem checked_writes_fresh (h : Host) (opts : Opts) (br : CBuildResult)
    (deps : List String) (st : DepsState) :
    ∃ new, (depsLoop h opts br deps st).1.archive = st.archive ++ new ∧
      ∀ pre e post, new = pre ++ e :: post → e.kind = .file →
        HasFileEntry (st.archive ++ pre) e.path = false := by
  obtain ⟨new, h1, h2⟩ := depsLoop_fresh h opts br deps st
  exact ⟨new, h1, freshFiles_spec new st.archive h2⟩

/-! ## Round trip of the metadata document -/

namespace archive

/-- The round trip of a metadata value as the bundler builds it for a build
with engine arguments. -/
theorem yaml_round_trip_sample :
    roundTrip (sampleMetadata (some [some
        { sampleFuzzer with EngineOptions := ⟨some ["-runs=1"], some ["NO_CIFUZZ=1"]⟩ }, none])) =
      .ok (sampleMetadata (some [some
        { sampleFuzzer with EngineOptions := ⟨some ["-runs=1"], some ["NO_CIFUZZ=1"]⟩ }, none])) ∧
    roundTrip ⟨none, none, none⟩ = .ok ⟨none, none, some []⟩ := by
  decide

end archive

/-! ## Lexical facts about `filepath.Clean` and `filepath.Join` -/

theorem filepathClean_eq (goos : String) (path : String) :
    filepathClean goos path =
      (if renderPath goos (pathRooted goos path) (pathStack goos path) = [] then "."
       else String.mk (renderPath goos (pathRooted goos path) (pathStack goos path))) := by
  unfold filepathClean renderPath pathStack pathRooted
  rfl

theorem splitAux_append (p : Char → Bool) (s : Char) (hs : p s = true) (b : List Char) :
    ∀ a : List Char, splitAux p (a ++ s :: b) =
      ((splitAux p a).1, (splitAux p a).2 ++ splitChars p b) := by
  intro a
  induction a with
  | nil => simp [splitAux, hs, splitChars]
  | cons c a ih =>
    simp only [List.cons_append, splitAux]
    by_cases hc : p c = true
    · simp [hc, ih]
    · simp [hc, ih]

theorem splitChars_append (p : Char → Bool) (s : Char) (hs : p s = true) (a b : List Char) :
    splitChars p (a ++ s :: b) = splitChars p a ++ splitChars p b := by
  simp [splitChars, splitAux_append p s hs b a]

theorem splitAux_nosep (p : Char → Bool) :
    ∀ w : List Char, (∀ ch ∈ w, p ch = false) → splitAux p w = (w, []) := by
  intro w
  induction w with
  | nil => intro _; rfl
  | cons c w ih =>
    intro hw
    have hc : p c = false := hw c (List.mem_cons_self _ _)
    have := ih (fun ch hch => hw ch (List.mem_cons_of_mem _ hch))
    simp [splitAux, hc, this]

theorem splitChars_nosep (p : Char → Bool) (w : List Char) (hw : ∀ ch ∈ w, p ch = false) :
    splitChars p w = [w] := by
  simp [splitChars, splitAux_nosep p w hw]

theorem splitChars_mem_nosep (p : Char → Bool) :
    ∀ cs : List Char, ∀ w ∈ splitChars p cs, ∀ ch ∈ w, p ch = false := by
  intro cs
  induction cs with
  | nil =>
    intro w hw ch hch
    simp [splitChars, splitAux] at hw
    subst hw
    simp at hch
  | cons c cs ih =>
    intro w hw ch hch
    by_cases hc : p c = true
    · have hsplit : splitChars p (c :: cs) = [] :: splitChars p cs := by
        simp [splitChars, splitAux, hc]
      rw [hsplit] at hw
      rcases List.mem_cons.mp hw with h1 | h1
      · subst h1
        simp at hch
      · exact ih w h1 ch hch
    · have hsplit : splitChars p (c :: cs) =
          (c :: (splitAux p cs).1) :: (splitAux p cs).2 := by
        simp [splitChars, splitAux, hc]
      rw [hsplit] at hw
      rcases List.mem_cons.mp hw with h1 | h1
      · subst h1
        rcases List.mem_cons.mp hch with h2 | h2
        · subst h2
          simpa using hc
        · exact ih _ (by simp [splitChars]) ch h2
      · exact ih w (by simp [splitChars, h1]) ch hch

theorem splitChars_ne_nil (p : Char → Bool) (cs : List Char) : splitChars p cs ≠ [] := by
  simp [splitChars]

theorem splitChars_joinChars (p : Char → Bool) (s : Char) (hs : p s = true) :
    ∀ L : List (List Char), L ≠ [] → (∀ w ∈ L, ∀ ch ∈ w, p ch = false) →
      splitChars p (joinChars [s] L) = L := by
  intro L
  induction L with
  | nil => intro h; exact absurd rfl h
  | cons w L ih =>
    intro _ hL
    cases L with
    | nil =>
      simp only [joinChars]
      exact splitChars_nosep p w (hL w (List.mem_cons_self _ _))
    | cons w2 L =>
      have hrest := ih (by simp) (fun x hx => hL x (List.mem_cons_of_mem _ hx))
      simp only [joinChars, List.append_assoc, List.singleton_append]
      rw [splitChars_append p s hs, hrest, splitChars_nosep p w (hL w (List.mem_cons_self _ _))]
      rfl

theorem isPathSeparator_separator (goos : String) :
    isPathSeparator goos (separator goos) = true := by
  unfold isPathSeparator separator
  by_cases hg : goos = "windows"
  · simp [hg]
  · simp [hg]

theorem cleanStep_plain (rooted : Bool) (stack : List (List Char)) (c : List Char)
    (hc : isPlainName c = true) : cleanStep rooted stack c = c :: stack := by
  simp only [isPlainName, Bool.decide_and, Bool.and_eq_true, decide_eq_true_eq] at hc
  unfold cleanStep
  rw [if_neg (by tauto), if_neg hc.2.2]

theorem foldl_cleanStep_plain (rooted : Bool) :
    ∀ (L : List (List Char)) (stack : List (List Char)), L.all isPlainName = true →
      L.foldl (cleanStep rooted) stack = L.reverse ++ stack := by
  intro L
  induction L with
  | nil => intro stack _; rfl
  | cons c L ih =>
    intro stack hL
    simp only [List.all_cons, Bool.and_eq_true] at hL
    simp only [List.foldl_cons, cleanStep_plain rooted stack c hL.1, ih _ hL.2,
      List.reverse_cons, List.append_assoc, List.singleton_append]

theorem stackInv_dots (goos : String) :
    ∀ stack : List (List Char), (∀ d ∈ stack, d = ['.', '.']) → StackInv goos false stack := by
  intro stack
  induction stack with
  | nil => intro _; trivial
  | cons c rest ih =>
    intro hall
    have hc : c = ['.', '.'] := hall c (List.mem_cons_self _ _)
    have hrest : ∀ d ∈ rest, d = ['.', '.'] := fun d hd => hall d (List.mem_cons_of_mem _ hd)
    subst hc
    refine ⟨?_, by simp, by simp, ?_⟩
    · intro ch hch
      simp only [List.mem_cons, List.mem_singleton, or_self, List.not_mem_nil, or_false] at hch
      subst hch
      unfold isPathSeparator
      by_cases hg : goos = "windows" <;> simp [hg]
    · rw [if_pos rfl]
      exact ⟨rfl, hrest⟩

theorem stackInv_tail {goos : String} {rooted : Bool} {c : List Char}
    {rest : List (List Char)} (hinv : StackInv goos rooted (c :: rest)) :
    StackInv goos rooted rest := by
  obtain ⟨-, -, -, h4⟩ := hinv
  by_cases hc : c = ['.', '.']
  · rw [if_pos hc] at h4
    have hr := h4.1
    subst hr
    exact stackInv_dots goos rest h4.2
  · rw [if_neg hc] at h4
    exact h4

theorem stackInv_step (goos : String) (rooted : Bool) (stack : List (List Char))
    (c : List Char) (hinv : StackInv goos rooted stack)
    (hc : ∀ ch ∈ c, isPathSeparator goos ch = false) :
    StackInv goos rooted (cleanStep rooted stack c) := by
  unfold cleanStep
  by_cases h1 : c = [] ∨ c = ['.']
  · rw [if_pos h1]
    exact hinv
  · rw [if_neg h1]
    have hne : c ≠ [] := fun h => h1 (Or.inl h)
    have hnd : c ≠ ['.'] := fun h => h1 (Or.inr h)
    by_cases h2 : c = ['.', '.']
    · rw [if_pos h2]
      cases stack with
      | nil =>
        cases rooted with
        | true => trivial
        | false =>
          refine ⟨hc, hne, hnd, ?_⟩
          rw [if_pos h2]
          exact ⟨rfl, by simp⟩
      | cons top rest =>
        by_cases h3 : top = ['.', '.']
        · simp only [h3, if_true]
          refine ⟨hc, hne, hnd, ?_⟩
          rw [if_pos h2]
          obtain ⟨-, -, -, h4⟩ := hinv
          rw [if_pos h3] at h4
          refine ⟨h4.1, ?_⟩
          intro d hd
          rcases List.mem_cons.mp hd with hd1 | hd1
          · rw [hd1]
          · exact h4.2 d hd1
        · simp only [h3, if_false]
          exact stackInv_tail hinv
    · rw [if_neg h2]
      refine ⟨hc, hne, hnd, ?_⟩
      rw [if_neg h2]
      exact hinv

theorem stackInv_foldl (goos : String) (rooted : Bool) :
    ∀ (L : List (List Char)) (stack : List (List Char)), StackInv goos rooted stack →
      (∀ c ∈ L, ∀ ch ∈ c, isPathSeparator goos ch = false) →
      StackInv goos rooted (L.foldl (cleanStep rooted) stack) := by
  intro L
  induction L with
  | nil => intro stack hinv _; exact hinv
  | cons c L ih =>
    intro stack hinv hL
    simp only [List.foldl_cons]
    exact ih _ (stackInv_step goos rooted stack c hinv (hL c (List.mem_cons_self _ _)))
      (fun d hd => hL d (List.mem_cons_of_mem _ hd))

theorem stackInv_pathStack (goos : String) (path : String) :
    StackInv goos (pathRooted goos path) (pathStack goos path) :=
  stackInv_foldl goos _ _ [] trivial (splitChars_mem_nosep _ _)

theorem stackInv_mem {goos : String} {rooted : Bool} :
    ∀ {stack : List (List Char)}, StackInv goos rooted stack →
      ∀ c ∈ stack, (∀ ch ∈ c, isPathSeparator goos ch = false) ∧ c ≠ [] := by
  intro stack
  induction stack with
  | nil => intro _ c hc; simp at hc
  | cons top rest ih =>
    intro hinv c hc
    rcases List.mem_cons.mp hc with h1 | h1
    · subst h1
      exact ⟨hinv.1, hinv.2.1⟩
    · exact ih (stackInv_tail hinv) c h1

theorem refold (goos : String) (rooted : Bool) :
    ∀ stack : List (List Char), StackInv goos rooted stack →
      stack.reverse.foldl (cleanStep rooted) [] = stack := by
  intro stack
  induction stack with
  | nil => intro _; rfl
  | cons c rest ih =>
    intro hinv
    rw [List.reverse_cons, List.foldl_append, ih (stackInv_tail hinv)]
    simp only [List.foldl_cons, List.foldl_nil]
    obtain ⟨-, hne, hnd, h4⟩ := hinv
    unfold cleanStep
    rw [if_neg (by tauto)]
    by_cases h2 : c = ['.', '.']
    · rw [if_pos h2]
      rw [if_pos h2] at h4
      cases rest with
      | nil => simp [h4.1]
      | cons top rest2 =>
        have htop : top = ['.', '.'] := h4.2 top (List.mem_cons_self _ _)
        simp [htop]
    · rw [if_neg h2]

theorem joinChars_cons (s : Char) :
    ∀ (L : List (List Char)) (w : List Char),
      joinChars [s] (w :: L) = w ++ L.flatMap (fun c => s :: c) := by
  intro L
  induction L with
  | nil => intro w; simp [joinChars]
  | cons v L ih =>
    intro w
    rw [joinChars, ih v]
    · simp [List.flatMap_cons]
    · simp

theorem joinChars_append_suffix (s : Char) (L1 L2 : List (List Char)) (h1 : L1 ≠ []) :
    joinChars [s] (L1 ++ L2) = joinChars [s] L1 ++ L2.flatMap (fun c => s :: c) := by
  cases L1 with
  | nil => exact absurd rfl h1
  | cons w L1 =>
    rw [List.cons_append, joinChars_cons, joinChars_cons, List.flatMap_append,
      List.append_assoc]

theorem renderPath_append (goos : String) (rooted : Bool) (L stack : List (List Char))
    (hs : stack ≠ []) :
    renderPath goos rooted (L.reverse ++ stack) =
      renderPath goos rooted stack ++ pathSuffix goos L := by
  have hrev : stack.reverse ≠ [] := by simpa using hs
  unfold renderPath pathSuffix
  rw [List.reverse_append, List.reverse_reverse, joinChars_append_suffix _ _ _ hrev]
  cases rooted <;> simp

theorem joinChars_head (s : Char) (c : List Char) (L : List (List Char)) (ch : Char)
    (cs : List Char) (hc : c = ch :: cs) :
    ∃ rest, joinChars [s] (c :: L) = ch :: rest := by
  rw [joinChars_cons, hc]
  exact ⟨_, rfl⟩

theorem pathStack_render (goos : String) (x : String) (rooted : Bool)
    (stack : List (List Char)) (hform : CleanForm goos x rooted stack) :
    pathRooted goos x = rooted ∧ pathStack goos x = stack := by
  obtain ⟨hinv, hne, hdata⟩ := hform
  have hrev : stack.reverse ≠ [] := by simpa using hne
  have hsplit : splitChars (isPathSeparator goos) (joinChars [separator goos] stack.reverse) =
      stack.reverse :=
    splitChars_joinChars _ _ (isPathSeparator_separator goos) _ hrev
      (fun w hw => (stackInv_mem hinv w (List.mem_reverse.mp hw)).1)
  cases rooted with
  | true =>
    have hd : x.data = separator goos :: joinChars [separator goos] stack.reverse := by
      rw [hdata]
      simp [renderPath]
    have hr : pathRooted goos x = true := by
      unfold pathRooted
      rw [hd]
      exact isPathSeparator_separator goos
    refine ⟨hr, ?_⟩
    unfold pathStack
    rw [hr, hd]
    have := splitChars_append (isPathSeparator goos) (separator goos)
      (isPathSeparator_separator goos) [] (joinChars [separator goos] stack.reverse)
    rw [List.nil_append] at this
    rw [this, hsplit, List.foldl_append]
    have h0 : List.foldl (cleanStep true) [] (splitChars (isPathSeparator goos) []) = [] := by
      simp [splitChars, splitAux, cleanStep]
    rw [h0]
    exact refold goos true stack hinv
  | false =>
    have hd : x.data = joinChars [separator goos] stack.reverse := by
      rw [hdata]
      simp [renderPath]
    have hr : pathRooted goos x = false := by
      unfold pathRooted
      rw [hd]
      cases hrv : stack.reverse with
      | nil => exact absurd hrv hrev
      | cons c L =>
        have hc := stackInv_mem hinv c (List.mem_reverse.mp (by rw [hrv]; exact List.mem_cons_self _ _))
        cases hcc : c with
        | nil => exact absurd hcc hc.2
        | cons ch cs =>
          obtain ⟨rest, hrest⟩ := joinChars_head (separator goos) c L ch cs hcc
          rw [← hcc, hrest]
          exact hc.1 ch (by rw [hcc]; exact List.mem_cons_self _ _)
    refine ⟨hr, ?_⟩
    unfold pathStack
    rw [hr, hd, hsplit]
    exact refold goos false stack hinv

theorem renderPath_ne_nil {goos : String} {rooted : Bool} {stack : List (List Char)}
    (hinv : StackInv goos rooted stack) (hne : stack ≠ []) :
    renderPath goos rooted stack ≠ [] := by
  cases rooted with
  | true => simp [renderPath]
  | false =>
    have hrev : stack.reverse ≠ [] := by simpa using hne
    cases hrv : stack.reverse with
    | nil => exact absurd hrv hrev
    | cons c L =>
      have hc := stackInv_mem hinv c (List.mem_reverse.mp (by rw [hrv]; exact List.mem_cons_self _ _))
      cases hcc : c with
      | nil => exact absurd hcc hc.2
      | cons ch cs =>
        obtain ⟨rest, hrest⟩ := joinChars_head (separator goos) c L ch cs hcc
        simp only [renderPath, hrv, Bool.false_eq_true, if_false]
        rw [hrest]
        simp

theorem cleanForm_ne_empty {goos : String} {x : String} {rooted : Bool}
    {stack : List (List Char)} (hform : CleanForm goos x rooted stack) : x ≠ "" := by
  intro hx
  have := renderPath_ne_nil hform.1 hform.2.1
  rw [← hform.2.2, hx] at this
  exact this rfl

theorem filepathJoin_pair (goos : String) (x r : String) (hx : x ≠ "") :
    filepathJoin goos [x, r] =
      filepathClean goos (String.mk (x.data ++ separator goos :: r.data)) := by
  simp [filepathJoin, List.dropWhile, hx, stringsJoin, joinChars]

theorem data_ne_nil {x : String} (hx : x ≠ "") : x.data ≠ [] := by
  intro hd
  apply hx
  exact String.ext hd

theorem pathRooted_concat (goos : String) (x : String) (tail : List Char) (hx : x ≠ "") :
    pathRooted goos (String.mk (x.data ++ tail)) = pathRooted goos x := by
  unfold pathRooted
  cases hd : x.data with
  | nil => exact absurd hd (data_ne_nil hx)
  | cons c cs => rfl

theorem pathStack_concat (goos : String) (x : String) (r : List Char) (hx : x ≠ "") :
    pathStack goos (String.mk (x.data ++ separator goos :: r)) =
      (splitChars (isPathSeparator goos) r).foldl (cleanStep (pathRooted goos x))
        (pathStack goos x) := by
  unfold pathStack
  rw [pathRooted_concat goos x _ hx]
  simp only []
  rw [splitChars_append _ _ (isPathSeparator_separator goos), List.foldl_append]

theorem cleanForm_join (goos : String) (y rel : String) (hy : y ≠ "")
    (hrel : isPlainPath goos rel = true) :
    CleanForm goos (filepathJoin goos [y, rel]) (pathRooted goos y)
      ((splitChars (isPathSeparator goos) rel.data).reverse ++ pathStack goos y) := by
  have hstack : pathStack goos (String.mk (y.data ++ separator goos :: rel.data)) =
      (splitChars (isPathSeparator goos) rel.data).reverse ++ pathStack goos y := by
    rw [pathStack_concat goos y _ hy]
    exact foldl_cleanStep_plain _ _ _ hrel
  have hroot := pathRooted_concat goos y (separator goos :: rel.data) hy
  have hinv : StackInv goos (pathRooted goos y)
      ((splitChars (isPathSeparator goos) rel.data).reverse ++ pathStack goos y) := by
    have := stackInv_pathStack goos (String.mk (y.data ++ separator goos :: rel.data))
    rw [hstack, hroot] at this
    exact this
  have hne : (splitChars (isPathSeparator goos) rel.data).reverse ++ pathStack goos y ≠ [] := by
    simp [splitChars_ne_nil]
  refine ⟨hinv, hne, ?_⟩
  rw [filepathJoin_pair goos y rel hy, filepathClean_eq, hstack, hroot,
    if_neg (renderPath_ne_nil hinv hne)]

theorem cleanForm_clean {goos : String} {x : String} {rooted : Bool}
    {stack : List (List Char)} (hform : CleanForm goos x rooted stack) :
    filepathClean goos x = x := by
  obtain ⟨hr, hs⟩ := pathStack_render goos x rooted stack hform
  rw [filepathClean_eq, hr, hs, if_neg (renderPath_ne_nil hform.1 hform.2.1)]
  exact String.ext hform.2.2.symm

/-- Joining a clean path with a relative path of plain names appends these
names. -/
theorem join_plain {goos : String} {x : String} {rooted : Bool} {stack : List (List Char)}
    (hform : CleanForm goos x rooted stack) (rel : String)
    (hrel : isPlainPath goos rel = true) :
    (filepathJoin goos [x, rel]).data =
        x.data ++ pathSuffix goos (splitChars (isPathSeparator goos) rel.data) ∧
      CleanForm goos (filepathJoin goos [x, rel]) rooted
        ((splitChars (isPathSeparator goos) rel.data).reverse ++ stack) := by
  obtain ⟨hr, hs⟩ := pathStack_render goos x rooted stack hform
  have hj := cleanForm_join goos x rel (cleanForm_ne_empty hform) hrel
  rw [hr, hs] at hj
  refine ⟨?_, hj⟩
  rw [hj.2.2, renderPath_append goos rooted _ stack hform.2.1, ← hform.2.2]

theorem isBelowDir_of_suffix (goos : String) (dir path : String) (L : List (List Char))
    (more : List Char) (hL : L ≠ []) (hp : path.data = dir.data ++ pathSuffix goos L ++ more) :
    isBelowDir goos dir path = true := by
  unfold isBelowDir
  rw [hp]
  cases L with
  | nil => exact absurd rfl hL
  | cons c L =>
    simp only [pathSuffix, List.flatMap_cons, List.cons_append, List.append_assoc]
    rw [List.isPrefixOf_iff_prefix]
    exact ⟨c ++ ((L.flatMap fun c => separator goos :: c) ++ more), by simp⟩

theorem isBelowDir_join {goos : String} {x : String} {rooted : Bool}
    {stack : List (List Char)} (hform : CleanForm goos x rooted stack) (rel : String)
    (hrel : isPlainPath goos rel = true) :
    isBelowDir goos x (filepathJoin goos [x, rel]) = true :=
  isBelowDir_of_suffix goos x _ _ [] (splitChars_ne_nil _ _)
    (by rw [(join_plain hform rel hrel).1, List.append_nil])

theorem dropWhile_head_false (q : Char → Bool) :
    ∀ (l : List Char) (d : Char) (rest : List Char), l.dropWhile q = d :: rest → q d = false := by
  intro l
  induction l with
  | nil => intro d rest h; simp at h
  | cons c l ih =>
    intro d rest h
    by_cases hc : q c = true
    · rw [List.dropWhile_cons_of_pos hc] at h
      exact ih d rest h
    · rw [List.dropWhile_cons_of_neg hc] at h
      simp only [List.cons.injEq] at h
      rw [← h.1]
      simpa using hc

theorem takeWhile_all (q : Char → Bool) :
    ∀ (l : List Char), ∀ c ∈ l.takeWhile q, q c = true := by
  intro l
  induction l with
  | nil => intro c hc; simp at hc
  | cons x l ih =>
    intro c hc
    by_cases hx : q x = true
    · rw [List.takeWhile_cons_of_pos hx] at hc
      rcases List.mem_cons.mp hc with h1 | h1
      · rw [h1]
        exact hx
      · exact ih c h1
    · rw [List.takeWhile_cons_of_neg hx] at hc
      simp at hc

/-- A path is its directory part, as `filepath.Dir` cuts it off, followed by a
last piece without separator; the directory part is empty or ends with a
separator. -/
theorem dir_part (p : Char → Bool) (cs : List Char) :
    ∃ last, (∀ ch ∈ last, p ch = false) ∧
      cs = (cs.reverse.dropWhile (fun c => !p c)).reverse ++ last ∧
      ((cs.reverse.dropWhile (fun c => !p c)).reverse = [] ∨
        ∃ pre s, p s = true ∧ (cs.reverse.dropWhile (fun c => !p c)).reverse = pre ++ [s]) := by
  refine ⟨(cs.reverse.takeWhile (fun c => !p c)).reverse, ?_, ?_, ?_⟩
  · intro ch hch
    have := takeWhile_all (fun c => !p c) cs.reverse ch (List.mem_reverse.mp hch)
    simpa using this
  · rw [← List.reverse_append, List.takeWhile_append_dropWhile, List.reverse_reverse]
  · cases hd : cs.reverse.dropWhile (fun c => !p c) with
    | nil => exact Or.inl rfl
    | cons d rest =>
      right
      have := dropWhile_head_false (fun c => !p c) cs.reverse d rest hd
      exact ⟨rest.reverse, d, by simpa using this, by simp⟩

theorem plain_head (p : Char → Bool) (cs : List Char)
    (hplain : (splitChars p cs).all isPlainName = true) :
    ∃ c rest, cs = c :: rest ∧ p c = false := by
  cases cs with
  | nil => simp [splitChars, splitAux, isPlainName] at hplain
  | cons c rest =>
    by_cases hc : p c = true
    · simp [splitChars, splitAux, hc, isPlainName] at hplain
    · exact ⟨c, rest, rfl, by simpa using hc⟩

theorem filepathDir_plain (goos : String) (rel : String)
    (hrel : isPlainPath goos rel = true) :
    (filepathDir goos rel = "." ∧
      ∃ last, splitChars (isPathSeparator goos) rel.data = [last]) ∨
    (∃ L last, splitChars (isPathSeparator goos) rel.data = L ++ [last] ∧
      isPlainPath goos (filepathDir goos rel) = true ∧
      splitChars (isPathSeparator goos) (filepathDir goos rel).data = L) := by
  obtain ⟨last, hlast, hcs, hpre⟩ := dir_part (isPathSeparator goos) rel.data
  rcases hpre with hnil | ⟨pre, s, hs, hpre⟩
  · left
    constructor
    · unfold filepathDir
      rw [hnil]
      rfl
    · rw [hnil, List.nil_append] at hcs
      exact ⟨last, by rw [hcs]; exact splitChars_nosep _ _ hlast⟩
  · right
    rw [hpre] at hcs
    have hsplit : splitChars (isPathSeparator goos) rel.data =
        splitChars (isPathSeparator goos) pre ++ [last] := by
      rw [hcs, List.append_assoc, List.singleton_append, splitChars_append _ _ hs,
        splitChars_nosep _ _ hlast]
    have hall : (splitChars (isPathSeparator goos) pre).all isPlainName = true := by
      have h1 : (splitChars (isPathSeparator goos) rel.data).all isPlainName = true := hrel
      rw [hsplit, List.all_append, Bool.and_eq_true] at h1
      exact h1.1
    obtain ⟨c, rest, hpc, hc⟩ := plain_head _ pre hall
    have hstack : pathStack goos (String.mk (pre ++ [s])) =
        (splitChars (isPathSeparator goos) pre).reverse := by
      unfold pathStack
      have hsp : splitChars (isPathSeparator goos) (pre ++ [s]) =
          splitChars (isPathSeparator goos) pre ++ [[]] := by
        rw [splitChars_append _ _ hs]
        rfl
      simp only []
      rw [hsp, List.foldl_append, foldl_cleanStep_plain _ _ _ hall]
      simp [cleanStep]
    have hroot : pathRooted goos (String.mk (pre ++ [s])) = false := by
      unfold pathRooted
      simp only [hpc, List.cons_append]
      exact hc
    have hinv : StackInv goos false (splitChars (isPathSeparator goos) pre).reverse := by
      have := stackInv_pathStack goos (String.mk (pre ++ [s]))
      rw [hstack, hroot] at this
      exact this
    have hne : (splitChars (isPathSeparator goos) pre).reverse ≠ [] := by
      simp [splitChars_ne_nil]
    have hdir : (filepathDir goos rel).data =
        joinChars [separator goos] (splitChars (isPathSeparator goos) pre) := by
      unfold filepathDir
      rw [hpre, filepathClean_eq, hstack, hroot, if_neg (renderPath_ne_nil hinv hne)]
      simp [renderPath]
    have hcomps : splitChars (isPathSeparator goos) (filepathDir goos rel).data =
        splitChars (isPathSeparator goos) pre := by
      rw [hdir]
      exact splitChars_joinChars _ _ (isPathSeparator_separator goos) _
        (splitChars_ne_nil _ _) (splitChars_mem_nosep _ _)
    refine ⟨splitChars (isPathSeparator goos) pre, last, hsplit, ?_, hcomps⟩
    unfold isPlainPath
    rw [hcomps]
    exact hall

theorem filepathJoin_dot {goos : String} {x : String} {rooted : Bool}
    {stack : List (List Char)} (hform : CleanForm goos x rooted stack) :
    filepathJoin goos [x, "."] = x := by
  obtain ⟨hr, hs⟩ := pathStack_render goos x rooted stack hform
  have hx := cleanForm_ne_empty hform
  have hstack : pathStack goos (String.mk (x.data ++ separator goos :: ".".data)) = stack := by
    rw [pathStack_concat goos x _ hx, hr, hs]
    simp [splitChars, splitAux, isPathSeparator, cleanStep]
  rw [filepathJoin_pair goos x "." hx, filepathClean_eq, hstack,
    pathRooted_concat goos x _ hx, hr, if_neg (renderPath_ne_nil hform.1 hform.2.1)]
  exact String.ext hform.2.2.symm

/-- The link path `<dir>/<rel>` of a relative path of plain names lies below
the library directory `<dir>/<directory of rel>`. -/
theorem isBelowDir_libraryDir {goos : String} {x : String} {rooted : Bool}
    {stack : List (List Char)} (hform : CleanForm goos x rooted stack) (rel : String)
    (hrel : isPlainPath goos rel = true) :
    isBelowDir goos (filepathJoin goos [x, filepathDir goos rel])
      (filepathJoin goos [x, rel]) = true := by
  rcases filepathDir_plain goos rel hrel with ⟨hdot, -⟩ | ⟨L, last, hsplit, hplain, hcomps⟩
  · rw [hdot, filepathJoin_dot hform]
    exact isBelowDir_join hform rel hrel
  · have h1 := (join_plain hform rel hrel).1
    have h2 := (join_plain hform (filepathDir goos rel) hplain).1
    rw [hcomps] at h2
    rw [hsplit] at h1
    refine isBelowDir_of_suffix goos _ _ [last] [] (by simp) ?_
    rw [h1, h2]
    simp [pathSuffix, List.flatMap_append]

/-! ## The path fields of the records and the archive -/

theorem isPlainPath_of_nosep (goos : String) (s : String)
    (hsep : ∀ ch ∈ s.data, ch ≠ '/' ∧ ch ≠ '\\') (hname : isPlainName s.data = true) :
    isPlainPath goos s = true := by
  unfold isPlainPath
  rw [splitChars_nosep]
  · simp [hname]
  · intro ch hch
    obtain ⟨h1, h2⟩ := hsep ch hch
    simp [isPathSeparator, h1, h2]

theorem fuzzTestPrefix_ne_empty (goos : String) (br : CBuildResult) :
    fuzzTestPrefix goos br ≠ "" := by
  unfold fuzzTestPrefix
  apply filepathJoin_ne_empty
  by_cases hc : isCoverageBuild br.Sanitizers = true
  · exact ⟨"replayer", by simp [hc], by decide⟩
  · exact ⟨"libfuzzer", by simp [hc], by decide⟩

theorem cleanForm_below_prefix (goos : String) (br : CBuildResult) (name : String)
    (hname : isPlainPath goos name = true) :
    ∃ rooted stack, CleanForm goos (filepathJoin goos [fuzzTestPrefix goos br, name])
      rooted stack :=
  ⟨_, _, cleanForm_join goos _ name (fuzzTestPrefix_ne_empty goos br) hname⟩

theorem hasEntryBelow_mono {goos : String} {w v : Archive} {dir : String} (hpre : w <+: v)
    (hhas : hasEntryBelow goos w dir = true) : hasEntryBelow goos v dir = true := by
  obtain ⟨t, rfl⟩ := hpre
  simp only [hasEntryBelow, List.any_append, Bool.or_eq_true] at hhas ⊢
  exact Or.inl hhas

theorem hasEntryBelow_of_mem {goos : String} {w : Archive} {dir : String} (e : Entry)
    (he : e ∈ w) (hb : isBelowDir goos dir e.path = true) :
    hasEntryBelow goos w dir = true := by
  simp only [hasEntryBelow, List.any_eq_true]
  exact ⟨e, he, hb⟩

theorem depsCovered_step {h : Host} {opts : Opts} {br : CBuildResult} {st : DepsState}
    {dep : String} (hinv : DepsCovered h st) (hplain : plainDep h br dep = true)
    (hok : (assembleDep h opts br st dep).2 = none) :
    DepsCovered h (assembleDep h opts br st dep).1 := by
  obtain ⟨-, hpre, hlib⟩ := assembleDep_fields hok
  have hgrow := assembleDep_grows h opts br st dep
  constructor
  · intro lp hlp
    rw [hlib] at hlp
    by_cases hnew : inCategory h br.BuildDir dep .inTree ∧ opts.BuildSystem = .other ∧
        sliceutilContains st.libraryPaths (libraryDir h br dep) = false
    · rw [if_pos hnew] at hlp
      rcases List.mem_append.mp hlp with hold | hlast
      · exact hasEntryBelow_mono hgrow (hinv.1 lp hold)
      · have hlpeq : lp = libraryDir h br dep := by simpa using hlast
        have hb : h.isBelow dep br.BuildDir = .ok true := hnew.1
        obtain ⟨rooted, stack, hform⟩ := cleanForm_below_prefix h.goos br "bin"
          (isPlainPath_of_nosep _ _ (by decide) (by decide))
        have hlink : ∃ rel, filepathRel h.goos br.BuildDir dep = .ok rel ∧
            ∃ e ∈ (assembleDep h opts br st dep).1.archive, e.path = linkPath h br rel := by
          have hshape := assembleDep_shape hok
          generalize (assembleDep h opts br st dep).1.archive = arch at hshape ⊢
          cases hshape with
          | skipped hb2 => rw [hb] at hb2; exact absurd hb2 (by simp)
          | staged hb2 => rw [hb] at hb2; exact absurd hb2 (by simp)
          | linked rel content _ hrel _ _ =>
            exact ⟨rel, hrel,
              ⟨linkPath h br rel, .hardLink, storePath h (h.sha256Hex content) dep⟩,
              by simp, rfl⟩
          | stored rel content _ hrel _ _ =>
            exact ⟨rel, hrel,
              ⟨linkPath h br rel, .hardLink, storePath h (h.sha256Hex content) dep⟩,
              by simp, rfl⟩
        obtain ⟨rel, hrel, e, he, hpath⟩ := hlink
        have hrelplain : isPlainPath h.goos rel = true := by
          simpa [plainDep, hb, hrel] using hplain
        apply hasEntryBelow_of_mem e he
        rw [hlpeq, hpath]
        unfold libraryDir linkPath binDir
        rw [hrel]
        exact isBelowDir_libraryDir hform rel hrelplain
    · rw [if_neg hnew] at hlp
      exact hasEntryBelow_mono hgrow (hinv.1 lp hlp)
  · intro hne
    rw [hpre] at hne ⊢
    by_cases hext : inCategory h br.BuildDir dep .external
    · rw [if_pos hext]
      obtain ⟨-, harch⟩ := assembleDep_external_ok hext hok
      have hb : h.isBelow dep br.BuildDir = .ok false := hext.1
      have hbase : isPlainPath h.goos (filepathBase h.goos dep) = true := by
        simpa [plainDep, hb] using hplain
      obtain ⟨rooted, stack, hform⟩ := cleanForm_below_prefix h.goos br "external_libs"
        (isPlainPath_of_nosep _ _ (by decide) (by decide))
      apply hasEntryBelow_of_mem ⟨stagingPath h br dep, .file, dep⟩
      · rw [harch]
        simp
      · exact isBelowDir_join hform _ hbase
    · rw [if_neg hext] at hne ⊢
      exact hasEntryBelow_mono hgrow (hinv.2 hne)

theorem depsCovered_loop (h : Host) (opts : Opts) (br : CBuildResult) (deps : List String) :
    ∀ st : DepsState, DepsCovered h st → (∀ dep ∈ deps, plainDep h br dep = true) →
      (depsLoop h opts br deps st).2 = none → DepsCovered h (depsLoop h opts br deps st).1 := by
  induction deps with
  | nil => intro st hinv _ _; exact hinv
  | cons dep deps ih =>
    intro st hinv hplain hok
    obtain ⟨hstep, heq⟩ := depsLoop_cons_ok hok
    rw [heq] at hok ⊢
    exact ih _ (depsCovered_step hinv (hplain dep (List.mem_cons_self _ _)) hstep)
      (fun d hd => hplain d (List.mem_cons_of_mem _ hd)) hok

theorem prepareSeeds_first {h : Host} {d0 : String} {rest : List String} {seedsDir : String}
    {w w3 : Archive} (hp : prepareSeeds h (d0 :: rest) seedsDir w = (w3, none)) :
    ∃ items, h.walkDir d0 = some items ∧
      ∀ it ∈ items, ∃ e ∈ w3, e.path =
        filepathJoin h.goos
          [filepathJoin h.goos [seedsDir, filepathBase h.goos d0], it.1] := by
  unfold prepareSeeds prepareSeedsLoop at hp
  have hchoose : chooseTargetDir []
      (filepathJoin h.goos [seedsDir, filepathBase h.goos d0])
      (([] : List String).length + 1) 1
      (filepathJoin h.goos [seedsDir, filepathBase h.goos d0]) =
        some (filepathJoin h.goos [seedsDir, filepathBase h.goos d0]) := by
    simp [chooseTargetDir, sliceutilContains]
  dsimp only at hp
  rw [hchoose] at hp
  dsimp only at hp
  cases hw : WriteDir h w (filepathJoin h.goos [seedsDir, filepathBase h.goos d0]) d0 with
  | error e =>
    rw [hw] at hp
    simp at hp
  | ok w1 =>
    rw [hw] at hp
    simp only at hp
    have hgrow := prepareSeedsLoop_grows h seedsDir rest
      ([] ++ [filepathJoin h.goos [seedsDir, filepathBase h.goos d0]]) w1
    rw [hp] at hgrow
    unfold WriteDir at hw
    cases hwalk : h.walkDir d0 with
    | none =>
      rw [hwalk] at hw
      simp at hw
    | some items =>
      rw [hwalk] at hw
      simp only [Except.ok.injEq] at hw
      refine ⟨items, rfl, ?_⟩
      intro it hit
      refine ⟨⟨filepathJoin h.goos
          [filepathJoin h.goos [seedsDir, filepathBase h.goos d0], it.1],
        if it.2 then EntryKind.dir else EntryKind.file,
        filepathJoin h.goos [d0, it.1]⟩, ?_, rfl⟩
      apply hgrow.subset
      rw [← hw]
      apply List.mem_append_right
      rw [List.mem_map]
      exact ⟨it, hit, rfl⟩

theorem assembleSeeds_covered {h : Host} {opts1 : Opts} {w2 w3 : Archive} {br : CBuildResult}
    {seeds : String} (hs : assembleSeeds h opts1 w2 br = (w3, .ok seeds)) (hne : seeds ≠ "")
    (hplain : ∀ d ∈ seedCorpusDirs h opts1 br, plainSeedDir h d = true) :
    hasEntryBelow h.goos w3 seeds = true := by
  unfold assembleSeeds at hs
  cases hfe : h.fileExists br.SeedCorpus with
  | error e =>
    rw [hfe] at hs
    simp at hs
  | ok haveDefault =>
    rw [hfe] at hs
    simp only at hs
    have hdirs : (if haveDefault = true then br.SeedCorpus :: opts1.SeedCorpusDirs
        else opts1.SeedCorpusDirs) = seedCorpusDirs h opts1 br := by
      cases haveDefault <;> simp [seedCorpusDirs, hfe]
    rw [hdirs] at hs
    cases hlist : seedCorpusDirs h opts1 br with
    | nil =>
      rw [hlist] at hs
      simp only [List.length_nil, gt_iff_lt, lt_self_iff_false, if_false, Prod.mk.injEq,
        Except.ok.injEq] at hs
      exact absurd hs.2.symm hne
    | cons d0 rest =>
      rw [hlist] at hs
      simp only [List.length_cons, gt_iff_lt, Nat.zero_lt_succ, if_true] at hs
      cases hprep : prepareSeeds h (d0 :: rest)
          (filepathJoin h.goos [fuzzTestPrefix h.goos br, "seeds"]) w2 with
      | mk w4 oe =>
        rw [hprep] at hs
        cases oe with
        | some e => simp at hs
        | none =>
          simp only [Prod.mk.injEq, Except.ok.injEq] at hs
          obtain ⟨hw, hseeds⟩ := hs
          subst hw
          subst hseeds
          obtain ⟨items, hwalk, hentries⟩ := prepareSeeds_first hprep
          have hd0 := hplain d0 (by rw [hlist]; exact List.mem_cons_self _ _)
          simp only [plainSeedDir, hwalk, Bool.and_eq_true, Bool.not_eq_true',
            List.all_eq_true] at hd0
          obtain ⟨hbase, hnonempty, hitems⟩ := hd0
          cases items with
          | nil => simp at hnonempty
          | cons it items =>
            obtain ⟨e, he, hpath⟩ := hentries it (List.mem_cons_self _ _)
            obtain ⟨rooted, stack, hform⟩ := cleanForm_below_prefix h.goos br "seeds"
              (isPlainPath_of_nosep _ _ (by decide) (by decide))
            obtain ⟨hdata1, hform1⟩ := join_plain hform (filepathBase h.goos d0) hbase
            obtain ⟨hdata2, -⟩ := join_plain hform1 it.1 (hitems it (List.mem_cons_self _ _))
            apply hasEntryBelow_of_mem e he
            apply isBelowDir_of_suffix h.goos _ _ _ _ (splitChars_ne_nil _ _)
            rw [hpath, hdata2, hdata1]

theorem resolveDictionary_seedCorpusDirs {h : Host} {opts opts1 : Opts} {br : CBuildResult}
    (hr : resolveDictionary h opts br = .ok opts1) :
    opts1.SeedCorpusDirs = opts.SeedCorpusDirs := by
  unfold resolveDictionary at hr
  split at hr
  · split at hr
    · simp at hr
    · simp only [Except.ok.injEq] at hr
      rw [← hr]
    · simp only [Except.ok.injEq] at hr
      rw [← hr]
  · simp only [Except.ok.injEq] at hr
    rw [← hr]

theorem hasFileAt_of_mem {w : Archive} (path source : String)
    (he : (⟨path, .file, source⟩ : Entry) ∈ w) : hasFileAt w path = true := by
  simp only [hasFileAt, List.any_eq_true]
  exact ⟨_, he, by simp⟩

/-- C15 (refuted as stated): with the parent directory `..` as the only seed
corpus directory the assembly succeeds and the record has the seeds directory
`libfuzzer/address/foo/seeds`, but the seeds were copied to
`libfuzzer/address/foo`, the parent of the seeds directory: no entry of the
archive lies below the seeds directory. -/
theorem seeds_field_without_entry :
    (assembleArtifacts parentSeedsHost { sampleOpts with SeedCorpusDirs := [".."] } []
      { sampleBuild "foo" ["address"] [] with SeedCorpus := "" }).err = none ∧
    (assembleArtifacts parentSeedsHost { sampleOpts with SeedCorpusDirs := [".."] } []
      { sampleBuild "foo" ["address"] [] with SeedCorpus := "" }).fuzzers.map
        (fun f => f.Seeds) = ["libfuzzer/address/foo/seeds"] ∧
    (assembleArtifacts parentSeedsHost { sampleOpts with SeedCorpusDirs := [".."] } []
      { sampleBuild "foo" ["address"] [] with SeedCorpus := "" }).archive.map
        (fun e => e.path) =
      ["libfuzzer/address/foo/bin/foo", "libfuzzer/address/foo/dict",
       "libfuzzer/address/foo/seed1"] ∧
    hasEntryBelow "linux"
      (assembleArtifacts parentSeedsHost { sampleOpts with SeedCorpusDirs := [".."] } []
        { sampleBuild "foo" ["address"] [] with SeedCorpus := "" }).archive
      "libfuzzer/address/foo/seeds" = false := by
  decide

/-- C15 (amended): after a successful `assembleArtifacts` every returned record
has a file entry of the archive at its `Path` and, when it is not empty, at its
`Dictionary`; and when the names involved are plain (the relative path of every
in-tree dependency, the base name of every other dependency and of every seed
corpus directory and the relative paths of the items of the seed corpus
directories consist of names other than `.` and `..`, and every seed corpus
directory holds at least one item) the archive has an entry below its `Seeds`
directory, when that is not empty, and below each of its `LibraryPaths`. -/
theorem path_fields_exist (h : Host) (opts : Opts) (w : Archive) (br : CBuildResult)
    (hok : (assembleArtifacts h opts w br).err = none) :
    (∀ f ∈ (assembleArtifacts h opts w br).fuzzers,
      hasFileAt (assembleArtifacts h opts w br).archive f.Path = true ∧
      (f.Dictionary ≠ "" →
        hasFileAt (assembleArtifacts h opts w br).archive f.Dictionary = true)) ∧
    ((∀ dep ∈ br.RuntimeDeps, plainDep h br dep = true) →
      (∀ d ∈ seedCorpusDirs h opts br, plainSeedDir h d = true) →
      ∀ f ∈ (assembleArtifacts h opts w br).fuzzers,
        (f.Seeds ≠ "" →
          hasEntryBelow h.goos (assembleArtifacts h opts w br).archive f.Seeds = true) ∧
        ∀ lp ∈ f.LibraryPaths,
          hasEntryBelow h.goos (assembleArtifacts h opts w br).archive lp = true) := by
  obtain ⟨w1, exePath, st, opts1, w2, dict, w3, seeds, env, hexe, hloop, hdict, hseeds, -, heq⟩ :=
    assembleArtifacts_ok hok
  have hg1 : w1 <+: st.archive := by
    have := depsLoop_grows h opts br br.RuntimeDeps ⟨w1, [], "", []⟩
    rw [hloop] at this
    exact this
  have hg2 : st.archive <+: w2 := by
    have := assembleDictionary_grows h opts st.archive br
    rw [hdict] at this
    exact this
  have hg3 : w2 <+: w3 := by
    have := assembleSeeds_grows h opts1 w2 br
    rw [hseeds] at this
    exact this
  obtain ⟨hres, harch⟩ := assembleDictionary_ok hdict
  rw [heq]
  dsimp only
  constructor
  · intro f hf
    obtain ⟨-, hpath, hdictf, -, -, -⟩ := makeFuzzers_fields br _ f hf
    constructor
    · obtain ⟨-, rel, -, -, hmem⟩ := assembleExecutable_ok hexe
      rw [hpath]
      exact hasFileAt_of_mem exePath br.Executable
        (hg3.subset (hg2.subset (hg1.subset hmem)))
    · intro hne
      rw [hdictf] at hne ⊢
      have hdne : dict ≠ "" := hne
      obtain ⟨hyes, hno⟩ := archiveDictionary_ok harch
      by_cases hod : opts1.Dictionary = ""
      · exact absurd (hno hod).1 hdne
      · obtain ⟨hd, hw2⟩ := hyes hod
        apply hasFileAt_of_mem dict opts1.Dictionary
        apply hg3.subset
        rw [hw2, hd]
        simp
  · intro hdeps hsd f hf
    obtain ⟨-, -, -, hseedsf, hlibf, -⟩ := makeFuzzers_fields br _ f hf
    constructor
    · intro hne
      rw [hseedsf] at hne ⊢
      have hsne : seeds ≠ "" := hne
      have hdirs : seedCorpusDirs h opts1 br = seedCorpusDirs h opts br := by
        unfold seedCorpusDirs
        rw [resolveDictionary_seedCorpusDirs hres]
      exact assembleSeeds_covered hseeds hsne (by rw [hdirs]; exact hsd)
    · intro lp hlp
      rw [hlibf] at hlp
      have hcov : DepsCovered h st := by
        have := depsCovered_loop h opts br br.RuntimeDeps ⟨w1, [], "", []⟩
          ⟨by simp, by simp⟩ hdeps (by rw [hloop])
        rw [hloop] at this
        exact this
      have hlp2 : lp ∈ st.libraryPaths ∨
          (st.externalLibrariesPrefix ≠ "" ∧ lp = st.externalLibrariesPrefix) := by
        simp only [baseFuzzer] at hlp
        by_cases hpre : st.externalLibrariesPrefix ≠ ""
        · rw [if_pos hpre] at hlp
          rcases List.mem_append.mp hlp with h1 | h1
          · exact Or.inl h1
          · exact Or.inr ⟨hpre, by simpa using h1⟩
        · rw [if_neg hpre] at hlp
          exact Or.inl hlp
      rcases hlp2 with h1 | ⟨hpre, h1⟩
      · exact hasEntryBelow_mono (hg2.trans hg3) (hcov.1 lp h1)
      · rw [h1]
        exact hasEntryBelow_mono (hg2.trans hg3) (hcov.2 hpre)

theorem path_fields_exist_witness :
    (assembleArtifacts sampleHost { sampleOpts with BuildSystem := .other } []
      (sampleBuild "foo" ["address"]
        ["/p/build/lib/helper.so", "/ext/one/libexternal.so", "/usr/lib/libBLAS.so"])).err
      = none ∧
    (∀ dep ∈ (sampleBuild "foo" ["address"]
        ["/p/build/lib/helper.so", "/ext/one/libexternal.so", "/usr/lib/libBLAS.so"]).RuntimeDeps,
      plainDep sampleHost (sampleBuild "foo" ["address"]
        ["/p/build/lib/helper.so", "/ext/one/libexternal.so", "/usr/lib/libBLAS.so"]) dep
        = true) ∧
    (∀ d ∈ seedCorpusDirs sampleHost { sampleOpts with BuildSystem := .other }
        (sampleBuild "foo" ["address"]
          ["/p/build/lib/helper.so", "/ext/one/libexternal.so", "/usr/lib/libBLAS.so"]),
      plainSeedDir sampleHost d = true) ∧
    ∀ f ∈ (assembleArtifacts sampleHost { sampleOpts with BuildSystem := .other } []
      (sampleBuild "foo" ["address"]
        ["/p/build/lib/helper.so", "/ext/one/libexternal.so", "/usr/lib/libBLAS.so"])).fuzzers,
      (f.Seeds ≠ "" →
        hasEntryBelow sampleHost.goos
          (assembleArtifacts sampleHost { sampleOpts with BuildSystem := .other } []
            (sampleBuild "foo" ["address"]
              ["/p/build/lib/helper.so", "/ext/one/libexternal.so",
                "/usr/lib/libBLAS.so"])).archive f.Seeds = true) ∧
      ∀ lp ∈ f.LibraryPaths,
        hasEntryBelow sampleHost.goos
          (assembleArtifacts sampleHost { sampleOpts with BuildSystem := .other } []
            (sampleBuild "foo" ["address"]
              ["/p/build/lib/helper.so", "/ext/one/libexternal.so",
                "/usr/lib/libBLAS.so"])).archive lp = true :=
  ⟨by decide, by decide, by decide,
    (path_fields_exist sampleHost { sampleOpts with BuildSystem := .other } []
      (sampleBuild "foo" ["address"]
        ["/p/build/lib/helper.so", "/ext/one/libexternal.so", "/usr/lib/libBLAS.so"])
      (by decide)).2 (by decide) (by decide)⟩

/-! ## The code revision -/

theorem getCodeRevision_ne_nil (vcsRevision : Option archive.CodeRevision)
    (commit branch : String) : getCodeRevision vcsRevision commit branch ≠ .ok none := by
  unfold getCodeRevision
  dsimp only
  split
  · simp
  · split
    · split
      · simp
      · simp
    · simp

/-- C29 (the code at the failing input): when `vcs.CodeRevision()` yields nil and
neither a commit nor a branch is configured, `getCodeRevision` returns a
revision with an empty Git revision, not nil; it returns nil for no input. -/
theorem code_revision_never_nil :
    getCodeRevision none "" "" = .ok (some ⟨some ⟨"", ""⟩⟩) ∧
    ∀ (vcsRevision : Option archive.CodeRevision) (commit branch : String),
      getCodeRevision vcsRevision commit branch ≠ .ok none :=
  ⟨by decide, getCodeRevision_ne_nil⟩

/-- The revision of the version control system is returned with the configured
commit and branch put in place of its own. -/
theorem getCodeRevision_sample :
    getCodeRevision (some ⟨some ⟨"0123abc", "main"⟩⟩) "" "" =
      .ok (some ⟨some ⟨"0123abc", "main"⟩⟩) ∧
    getCodeRevision (some ⟨some ⟨"0123abc", "main"⟩⟩) "fedcba9" "dev" =
      .ok (some ⟨some ⟨"fedcba9", "dev"⟩⟩) ∧
    getCodeRevision none "fedcba9" "" = .ok (some ⟨some ⟨"fedcba9", ""⟩⟩) := by
  decide

/-! ## The workspace directory -/

theorem getWorkspacePathLoop_never_returns (h : Host)
    (hnone : ∀ path, h.fileExists path = .ok false) :
    ∀ (fuel : Nat) (workDir : String), getWorkspacePathLoop h fuel workDir = none := by
  intro fuel
  induction fuel with
  | zero => intro workDir; rfl
  | succ fuel ih =>
    intro workDir
    unfold getWorkspacePathLoop
    simp only [hnone]
    exact ih _

/-- C30 (the code at the failing input): on a host where neither
`/home/user/project` nor any of its ancestors contains a `WORKSPACE` file the
loop of `getWorkspacePath` never returns, whatever the number of iterations: it
reaches `/`, whose parent directory is `/` again, and the error "not able to
determine the workspace" is not returned. -/
theorem workspace_search_never_returns :
    (∀ fuel, getWorkspacePath emptyHost (.ok "/home/user/project") fuel = none) ∧
    filepathJoin "linux" ["/home/user/project", ".."] = "/home/user" ∧
    filepathJoin "linux" ["/home/user", ".."] = "/home" ∧
    filepathJoin "linux" ["/home", ".."] = "/" ∧
    filepathJoin "linux" ["/", ".."] = "/" := by
  refine ⟨?_, by decide, by decide, by decide, by decide⟩
  intro fuel
  unfold getWorkspacePath
  have hnone : ∀ path, emptyHost.fileExists path = .ok false := fun _ => rfl
  simp only [hnone]
  exact getWorkspacePathLoop_never_returns emptyHost hnone fuel _

/-- When a `WORKSPACE` file is found the directory that contains it is
returned: the working directory itself, or the nearest ancestor. -/
theorem getWorkspacePath_sample :
    getWorkspacePath workspaceHost (.ok "/p") 0 = some (.ok "/p") ∧
    getWorkspacePath workspaceHost (.ok "/p/build/lib") 2 = some (.ok "/p") ∧
    getWorkspacePath workspaceHost (.error "getwd failed") 0 = some (.error "getwd failed") := by
  decide

/-! ## The options after an assembly; unanchored patterns -/

/-- C25 (the code at the failing input): with no dictionary configured,
assembling the build result `foo`, whose default dictionary `/p/dict` exists,
stores `/p/dict` in the options; the build result `bar` assembled next has the
default dictionary `/p/bar.dict`, which does not exist, and gets the dictionary
of `foo` archived at `libfuzzer/address/bar/dict` and put into its record. -/
theorem default_dictionary_leaks :
    sampleOpts.Dictionary = "" ∧
    sampleHost.fileExists "/p/bar.dict" = .ok false ∧
    (assembleArtifacts sampleHost sampleOpts [] (sampleBuild "foo" ["address"] [])).opts.Dictionary
      = "/p/dict" ∧
    (⟨"libfuzzer/address/bar/dict", .file, "/p/dict"⟩ : Entry) ∈
      (bundleLoop sampleHost
        [sampleBuild "foo" ["address"] [],
         { sampleBuild "bar" ["address"] [] with Dictionary := "/p/bar.dict" }]
        ⟨[], [], none, [], sampleOpts⟩).archive ∧
    (bundleLoop sampleHost
        [sampleBuild "foo" ["address"] [],
         { sampleBuild "bar" ["address"] [] with Dictionary := "/p/bar.dict" }]
        ⟨[], [], none, [], sampleOpts⟩).fuzzers.map (fun f => (f.Target, f.Dictionary)) =
      [("foo", "libfuzzer/address/foo/dict"), ("bar", "libfuzzer/address/bar/dict")] ∧
    (assembleArtifacts sampleHost sampleOpts []
      { sampleBuild "bar" ["address"] [] with Dictionary := "/p/bar.dict" }).fuzzers.map
        (fun f => (f.Target, f.Dictionary)) = [("bar", "")] := by
  decide

/-- C26 (the code at the failing input): on Linux the external library
`/ext/libc.so.debug`, whose file name is `libc.so` followed by letters, matches
the pattern of `libc.so` (the match is not anchored at the end), so the loop
body drops it without a trace; so does a library below a directory named
`libm.so.6.d`. -/
theorem unanchored_pattern_drops_library :
    sampleHost.isBelow "/ext/libc.so.debug" "/p/build" = .ok false ∧
    sampleHost.isSystemLibrary "/ext/libc.so.debug" = false ∧
    (versionedLibraryRegexp "libc.so").MatchString "/ext/libc.so.debug" = true ∧
    matchesWellKnown sampleHost "/ext/libc.so.debug" = true ∧
    assembleDep sampleHost sampleOpts (sampleBuild "foo" ["address"] []) ⟨[], [], "", []⟩
      "/ext/libc.so.debug" = (⟨[], [], "", []⟩, none) ∧
    matchesWellKnown sampleHost "/ext/libm.so.6.d/libvendor.so" = true := by
  decide

/-! ## Additional files -/

theorem parse_samples :
    parseAdditionalFilesArgument "linux" "test.txt" = .ok ("test.txt", "work_dir/test.txt") ∧
    parseAdditionalFilesArgument "linux" "/abs/dir/test.txt" =
      .ok ("/abs/dir/test.txt", "work_dir/test.txt") ∧
    parseAdditionalFilesArgument "linux" "test.txt;test2.txt" = .ok ("test.txt", "test2.txt") ∧
    parseAdditionalFilesArgument "linux" "a;b;c" = .error "could not parse '--add' argument" ∧
    parseAdditionalFilesArgument "linux" "" = .error "could not parse '--add' argument" ∧
    parseAdditionalFilesArgument "linux" ";b" = .error "could not parse '--add' argument" ∧
    parseAdditionalFilesArgument "linux" "a;" = .error "could not parse '--add' argument" ∧
    parseAdditionalFilesArgument "linux" "a;/b" =
      .error "when using '--add source;target', target has to be a relative path" ∧
    parseAdditionalFilesArgument "windows" "a;C:\\b" =
      .error "when using '--add source;target', target has to be a relative path" ∧
    parseAdditionalFilesArgument "linux" "a/.." = .ok ("a/..", ".") := by
  decide

theorem joinChars_splitChars (s : Char) :
    ∀ cs : List Char, joinChars [s] (splitChars (fun c => c == s) cs) = cs := by
  intro cs
  induction cs with
  | nil => rfl
  | cons c cs ih =>
    by_cases hc : (c == s) = true
    · have hsplit : splitChars (fun c => c == s) (c :: cs) =
          [] :: splitChars (fun c => c == s) cs := by
        simp [splitChars, splitAux, hc]
      rw [hsplit, joinChars_cons]
      rw [splitChars, joinChars_cons] at ih
      have hcs : c = s := by simpa using hc
      simp only [splitChars, List.flatMap_cons, List.nil_append, List.cons_append]
      rw [ih, hcs]
    · have hsplit : splitChars (fun c => c == s) (c :: cs) =
          (c :: (splitAux (fun c => c == s) cs).1) :: (splitAux (fun c => c == s) cs).2 := by
        simp [splitChars, splitAux, hc]
      rw [hsplit, joinChars_cons]
      rw [splitChars, joinChars_cons] at ih
      rw [List.cons_append, ih]

theorem stringsSplit_bare (arg : String) (hno : ∀ ch ∈ arg.data, ch ≠ ';') :
    stringsSplit arg ';' = [arg] := by
  unfold stringsSplit
  rw [splitChars_nosep]
  · rfl
  · intro ch hch
    simpa using hno ch hch

theorem stringsSplit_pair (src tgt : String) (hsrc : ∀ ch ∈ src.data, ch ≠ ';')
    (htgt : ∀ ch ∈ tgt.data, ch ≠ ';') :
    stringsSplit (src ++ ";" ++ tgt) ';' = [src, tgt] := by
  unfold stringsSplit
  have hdata : (src ++ ";" ++ tgt).data = src.data ++ ';' :: tgt.data := by
    simp [String.data_append]
  rw [hdata, splitChars_append _ _ (by simp), splitChars_nosep _ _ (by simpa using hsrc),
    splitChars_nosep _ _ (by simpa using htgt)]
  rfl

theorem stringsSplit_one {arg p : String} (hs : stringsSplit arg ';' = [p]) :
    p = arg ∧ ∀ ch ∈ arg.data, ch ≠ ';' := by
  unfold stringsSplit at hs
  have hj := joinChars_splitChars ';' arg.data
  have hmem := splitChars_mem_nosep (fun c => c == ';') arg.data
  cases hsp : splitChars (fun c => c == ';') arg.data with
  | nil => rw [hsp] at hs; simp at hs
  | cons w rest =>
    rw [hsp] at hs hj hmem
    cases rest with
    | cons w2 rest2 => simp at hs
    | nil =>
      simp only [List.map_cons, List.map_nil, List.cons.injEq, and_true] at hs
      simp only [joinChars] at hj
      constructor
      · rw [← hs]
        exact String.ext hj
      · intro ch hch
        rw [← hj] at hch
        simpa using hmem w (by simp) ch hch

theorem stringsSplit_two {arg p0 p1 : String} (hs : stringsSplit arg ';' = [p0, p1]) :
    arg = p0 ++ ";" ++ p1 ∧ (∀ ch ∈ p0.data, ch ≠ ';') ∧ ∀ ch ∈ p1.data, ch ≠ ';' := by
  unfold stringsSplit at hs
  have hj := joinChars_splitChars ';' arg.data
  have hmem := splitChars_mem_nosep (fun c => c == ';') arg.data
  cases hsp : splitChars (fun c => c == ';') arg.data with
  | nil => rw [hsp] at hs; simp at hs
  | cons w rest =>
    rw [hsp] at hs hj hmem
    cases rest with
    | nil => simp at hs
    | cons w2 rest2 =>
      cases rest2 with
      | cons w3 rest3 => simp at hs
      | nil =>
        simp only [List.map_cons, List.map_nil, List.cons.injEq, and_true] at hs
        obtain ⟨h0, h1⟩ := hs
        subst h0
        subst h1
        refine ⟨?_, ?_, ?_⟩
        · apply String.ext
          rw [← hj]
          simp [joinChars, String.data_append]
        · intro ch hch
          simpa using hmem w (by simp) ch hch
        · intro ch hch
          simpa using hmem w2 (by simp) ch hch

theorem stringsSplit_ne_nil (arg : String) : stringsSplit arg ';' ≠ [] := by
  simp [stringsSplit, splitChars]

theorem filepathBase_form (goos : String) (path : String) :
    filepathBase goos path = "." ∨ filepathBase goos path = String.mk [separator goos] ∨
      ∃ last : List Char, last ≠ [] ∧ (∀ ch ∈ last, isPathSeparator goos ch = false) ∧
        filepathBase goos path = String.mk last := by
  unfold filepathBase
  by_cases hp : path = ""
  · left
    rw [if_pos hp]
  · rw [if_neg hp]
    dsimp only
    by_cases hl : (List.takeWhile (fun c => !isPathSeparator goos c)
        (List.dropWhile (isPathSeparator goos) path.data.reverse)).reverse = []
    · right
      left
      rw [if_pos hl]
    · right
      right
      rw [if_neg hl]
      refine ⟨_, hl, ?_, rfl⟩
      intro ch hch
      have := takeWhile_all (fun c => !isPathSeparator goos c) _ ch (List.mem_reverse.mp hch)
      simpa using this

theorem workDir_nosep (goos : String) :
    ∀ ch ∈ archiveWorkDirPath.data, isPathSeparator goos ch = false := by
  intro ch hch
  have hd : archiveWorkDirPath.data = ['w', 'o', 'r', 'k', '_', 'd', 'i', 'r'] := rfl
  rw [hd] at hch
  simp only [List.mem_cons, List.mem_singleton, List.not_mem_nil, or_false] at hch
  unfold isPathSeparator
  rcases hch with h | h | h | h | h | h | h | h <;> subst h <;> simp

theorem pathStack_workDir (goos : String) :
    pathRooted goos archiveWorkDirPath = false ∧
    pathStack goos archiveWorkDirPath = [archiveWorkDirPath.data] := by
  constructor
  · have hd : archiveWorkDirPath.data = ['w', 'o', 'r', 'k', '_', 'd', 'i', 'r'] := rfl
    unfold pathRooted
    rw [hd]
    exact workDir_nosep goos 'w' (by rw [hd]; simp)
  · unfold pathStack
    rw [splitChars_nosep _ _ (workDir_nosep goos)]
    simp only [List.foldl_cons, List.foldl_nil]
    exact cleanStep_plain _ _ _ (by decide)

theorem workDir_ne_empty : archiveWorkDirPath ≠ "" := by decide

/-- The target derived from a base name lies in the working directory of the
archive or is the archive root. -/
theorem join_workDir (goos : String) (b : String)
    (hb : b = "." ∨ b = String.mk [separator goos] ∨
      ∃ last : List Char, last ≠ [] ∧ (∀ ch ∈ last, isPathSeparator goos ch = false) ∧
        b = String.mk last) :
    IsWorkDirTarget goos (filepathJoin goos [archiveWorkDirPath, b]) := by
  obtain ⟨hroot, hstack⟩ := pathStack_workDir goos
  have hrender : renderPath goos false [archiveWorkDirPath.data] = archiveWorkDirPath.data := by
    simp [renderPath, joinChars]
  have hsame : ∀ tail : List Char,
      pathStack goos (String.mk (archiveWorkDirPath.data ++ separator goos :: tail)) =
        [archiveWorkDirPath.data] →
      filepathJoin goos [archiveWorkDirPath, String.mk tail] = archiveWorkDirPath := by
    intro tail hst
    rw [filepathJoin_pair goos _ _ workDir_ne_empty, filepathClean_eq, hst,
      pathRooted_concat goos _ _ workDir_ne_empty, hroot, hrender]
    rfl
  rcases hb with hdot | hsep | ⟨last, hne, hnosep, hlast⟩
  · right
    left
    rw [hdot]
    apply hsame ['.']
    rw [pathStack_concat goos _ _ workDir_ne_empty, hroot, hstack]
    simp [splitChars, splitAux, isPathSeparator, cleanStep]
  · right
    left
    rw [hsep]
    apply hsame [separator goos]
    rw [pathStack_concat goos _ _ workDir_ne_empty, hroot, hstack]
    simp [splitChars, splitAux, isPathSeparator_separator, cleanStep]
  · rw [hlast]
    have hst : pathStack goos (String.mk (archiveWorkDirPath.data ++ separator goos :: last)) =
        cleanStep false [archiveWorkDirPath.data] last := by
      rw [pathStack_concat goos _ _ workDir_ne_empty, hroot, hstack,
        splitChars_nosep _ _ hnosep]
      rfl
    by_cases h1 : last = ['.']
    · right
      left
      apply hsame last
      rw [hst, h1]
      simp [cleanStep]
    · by_cases h2 : last = ['.', '.']
      · left
        rw [filepathJoin_pair goos _ _ workDir_ne_empty, filepathClean_eq, hst,
          pathRooted_concat goos _ _ workDir_ne_empty, hroot, h2]
        have hw : archiveWorkDirPath.data ≠ ['.', '.'] := by decide
        simp [cleanStep, hw, renderPath, joinChars]
      · right
        right
        have hplain : isPlainName last = true := by
          simp [isPlainName, hne, h1, h2]
        refine ⟨last, hplain, hnosep, ?_⟩
        rw [filepathJoin_pair goos _ _ workDir_ne_empty, filepathClean_eq, hst,
          pathRooted_concat goos _ _ workDir_ne_empty, hroot,
          cleanStep_plain _ _ _ hplain]
        simp [renderPath, joinChars]

theorem isWorkDirTarget_relative {goos : String} {target : String}
    (ht : IsWorkDirTarget goos target) : target ≠ "" ∧ filepathIsAbs goos target = false := by
  have hd : archiveWorkDirPath.data = ['w', 'o', 'r', 'k', '_', 'd', 'i', 'r'] := rfl
  rcases ht with h | h | ⟨name, -, -, h⟩
  · rw [h]
    refine ⟨by decide, ?_⟩
    unfold filepathIsAbs
    by_cases hg : goos = "windows" <;> simp [hg]
  · rw [h]
    refine ⟨by decide, ?_⟩
    unfold filepathIsAbs
    by_cases hg : goos = "windows"
    · rw [if_pos hg, hd]
      simp [isPathSeparator]
    · rw [if_neg hg, hd]
      simp
  · rw [hd] at h
    constructor
    · intro hempty
      rw [hempty] at h
      simp at h
    · unfold filepathIsAbs
      by_cases hg : goos = "windows"
      · rw [if_pos hg, h]
        simp [isPathSeparator]
      · rw [if_neg hg, h]
        simp

theorem parse_bare (goos : String) (arg : String) (hno : ∀ ch ∈ arg.data, ch ≠ ';')
    (hne : arg ≠ "") :
    parseAdditionalFilesArgument goos arg =
      .ok (arg, filepathJoin goos [archiveWorkDirPath, filepathBase goos arg]) := by
  obtain ⟨h1, h2⟩ := isWorkDirTarget_relative
    (join_workDir goos _ (filepathBase_form goos arg))
  unfold parseAdditionalFilesArgument
  rw [stringsSplit_bare arg hno]
  simp [hne, h1, h2]

theorem parse_pair (goos : String) (src tgt : String) (hsrc : ∀ ch ∈ src.data, ch ≠ ';')
    (htgt : ∀ ch ∈ tgt.data, ch ≠ ';') (hs : src ≠ "") (ht : tgt ≠ "")
    (habs : filepathIsAbs goos tgt = false) :
    parseAdditionalFilesArgument goos (src ++ ";" ++ tgt) = .ok (src, tgt) := by
  unfold parseAdditionalFilesArgument
  rw [stringsSplit_pair src tgt hsrc htgt]
  simp [hs, ht, habs]

theorem parse_ok_cases {goos : String} {arg : String} {r : String × String}
    (hok : parseAdditionalFilesArgument goos arg = .ok r) :
    ((∀ ch ∈ arg.data, ch ≠ ';') ∧ arg ≠ "" ∧
      r = (arg, filepathJoin goos [archiveWorkDirPath, filepathBase goos arg])) ∨
    (∃ src tgt, arg = src ++ ";" ++ tgt ∧ (∀ ch ∈ src.data, ch ≠ ';') ∧
      (∀ ch ∈ tgt.data, ch ≠ ';') ∧ src ≠ "" ∧ tgt ≠ "" ∧
      filepathIsAbs goos tgt = false ∧ r = (src, tgt)) := by
  unfold parseAdditionalFilesArgument at hok
  cases hsp : stringsSplit arg ';' with
  | nil => exact absurd hsp (stringsSplit_ne_nil arg)
  | cons p0 rest =>
    rw [hsp] at hok
    cases rest with
    | nil =>
      obtain ⟨hp, hno⟩ := stringsSplit_one hsp
      subst hp
      left
      simp only [List.length_singleton, List.headD_cons, if_true] at hok
      split at hok
      · simp at hok
      · rename_i hcond
        split at hok
        · simp at hok
        · simp only [Except.ok.injEq] at hok
          refine ⟨hno, ?_, hok.symm⟩
          intro hempty
          exact hcond (Or.inr (Or.inl hempty))
    | cons p1 rest2 =>
      cases rest2 with
      | cons p2 rest3 =>
        simp at hok
      | nil =>
        obtain ⟨harg, h0, h1⟩ := stringsSplit_two hsp
        right
        have hok2 : (if p0 = "" ∨ p1 = "" then
            (Except.error "could not parse '--add' argument" : Except String (String × String))
          else if filepathIsAbs goos p1 = true then
            Except.error "when using '--add source;target', target has to be a relative path"
          else Except.ok (p0, p1)) = Except.ok r := by
          simpa using hok
        by_cases hcond : p0 = "" ∨ p1 = ""
        · rw [if_pos hcond] at hok2
          simp at hok2
        · rw [if_neg hcond] at hok2
          by_cases habs : filepathIsAbs goos p1 = true
          · rw [if_pos habs] at hok2
            simp at hok2
          · rw [if_neg habs] at hok2
            simp only [Except.ok.injEq] at hok2
            simp only [not_or] at hcond
            exact ⟨p0, p1, harg, h0, h1, hcond.1, hcond.2, by simpa using habs, hok2.symm⟩

/-- C23: `parseAdditionalFilesArgument` accepts a bare, non-empty `src` and
yields `(src, work_dir/<basename of src>)`; it accepts `src;target` with
non-empty parts and a target that is not absolute and yields `(src, target)`;
and it accepts nothing else: whenever it succeeds the argument has one of these
two forms and the result is the one stated. -/
theorem parse_additional_files (goos : String) (arg : String) :
    ((∀ ch ∈ arg.data, ch ≠ ';') → arg ≠ "" →
      parseAdditionalFilesArgument goos arg =
        .ok (arg, filepathJoin goos [archiveWorkDirPath, filepathBase goos arg])) ∧
    (∀ src tgt, arg = src ++ ";" ++ tgt → (∀ ch ∈ src.data, ch ≠ ';') →
      (∀ ch ∈ tgt.data, ch ≠ ';') → src ≠ "" → tgt ≠ "" → filepathIsAbs goos tgt = false →
      parseAdditionalFilesArgument goos arg = .ok (src, tgt)) ∧
    (∀ r, parseAdditionalFilesArgument goos arg = .ok r →
      ((∀ ch ∈ arg.data, ch ≠ ';') ∧ arg ≠ "" ∧
        r = (arg, filepathJoin goos [archiveWorkDirPath, filepathBase goos arg])) ∨
      (∃ src tgt, arg = src ++ ";" ++ tgt ∧ (∀ ch ∈ src.data, ch ≠ ';') ∧
        (∀ ch ∈ tgt.data, ch ≠ ';') ∧ src ≠ "" ∧ tgt ≠ "" ∧
        filepathIsAbs goos tgt = false ∧ r = (src, tgt))) := by
  refine ⟨parse_bare goos arg, ?_, fun r hok => parse_ok_cases hok⟩
  intro src tgt harg hsrc htgt hs ht habs
  rw [harg]
  exact parse_pair goos src tgt hsrc htgt hs ht habs

/-- C24 (refuted as stated): a target that climbs out of the archive root and
the target `bundle.yaml` are accepted. -/
theorem climbing_target_accepted :
    parseAdditionalFilesArgument "linux" "job;../../etc/cron.d/job" =
      .ok ("job", "../../etc/cron.d/job") ∧
    parseAdditionalFilesArgument "linux" "my.yaml;bundle.yaml" =
      .ok ("my.yaml", "bundle.yaml") := by
  decide

/-- C24 (amended): every target accepted by `parseAdditionalFilesArgument` is
not empty and not absolute; the target derived for an argument without `;` is
the archive root `.`, `work_dir`, or a plain name in `work_dir`. A target given
after `;` is not checked any further. -/
theorem accepted_target_relative (goos : String) (arg src tgt : String)
    (hok : parseAdditionalFilesArgument goos arg = .ok (src, tgt)) :
    tgt ≠ "" ∧ filepathIsAbs goos tgt = false ∧
      ((∀ ch ∈ arg.data, ch ≠ ';') → IsWorkDirTarget goos tgt) := by
  rcases parse_ok_cases hok with ⟨hno, -, hr⟩ | ⟨s, t, harg, -, -, -, ht, habs, hr⟩
  · have htgt : tgt = filepathJoin goos [archiveWorkDirPath, filepathBase goos arg] :=
      (Prod.mk.inj hr).2
    have hw := join_workDir goos _ (filepathBase_form goos arg)
    rw [← htgt] at hw
    exact ⟨(isWorkDirTarget_relative hw).1, (isWorkDirTarget_relative hw).2, fun _ => hw⟩
  · have htgt : tgt = t := (Prod.mk.inj hr).2
    rw [htgt]
    refine ⟨ht, habs, ?_⟩
    intro hno
    exfalso
    apply hno ';'
    · rw [harg]
      simp [String.data_append]
    · rfl

theorem accepted_target_relative_witness :
    parseAdditionalFilesArgument "linux" "dir/test.txt" =
      .ok ("dir/test.txt", "work_dir/test.txt") ∧
    ("work_dir/test.txt" ≠ "" ∧ filepathIsAbs "linux" "work_dir/test.txt" = false ∧
      ((∀ ch ∈ "dir/test.txt".data, ch ≠ ';') → IsWorkDirTarget "linux" "work_dir/test.txt")) :=
  ⟨by decide,
    accepted_target_relative "linux" "dir/test.txt" "dir/test.txt" "work_dir/test.txt"
      (by decide)⟩

/-! ## The records and the warning of `bundle` -/

theorem bundleLoop_collects (h : Host) (buildResults : List CBuildResult) :
    ∀ s : BundleState, (bundleLoop h buildResults s).err = none → s.err = none →
      (bundleLoop h buildResults s).fuzzers =
        s.fuzzers ++ (assemblies h buildResults s.opts s.archive).flatMap (fun r => r.fuzzers) ∧
      (bundleLoop h buildResults s).systemDeps =
        s.systemDeps ++
          (assemblies h buildResults s.opts s.archive).flatMap (fun r => r.systemDeps) ∧
      ∀ r ∈ assemblies h buildResults s.opts s.archive, r.err = none := by
  induction buildResults with
  | nil =>
    intro s _ _
    simp [bundleLoop, assemblies]
  | cons br rest ih =>
    intro s hok hs
    unfold bundleLoop at hok ⊢
    dsimp only at hok ⊢
    cases herr : (assembleArtifacts h s.opts s.archive br).err with
    | some e =>
      rw [herr] at hok
      simp at hok
    | none =>
      rw [herr] at hok
      dsimp only at hok ⊢
      obtain ⟨h1, h2, h3⟩ := ih _ hok rfl
      dsimp only at h1 h2 h3
      refine ⟨?_, ?_, ?_⟩
      · rw [h1, assemblies]
        simp [List.flatMap_cons, List.append_assoc]
      · rw [h2, assemblies]
        simp [List.flatMap_cons, List.append_assoc]
      · intro r hr
        rw [assemblies] at hr
        rcases List.mem_cons.mp hr with hr1 | hr1
        · rw [hr1]
          exact herr
        · exact h3 r hr1

theorem sortStrings_sorted (l : List String) : (sortStrings l).Sorted stringLe := by
  haveI : IsTotal String stringLe := ⟨fun a b => le_total a.data b.data⟩
  haveI : IsTrans String stringLe := ⟨fun a b c h1 h2 => le_trans h1 h2⟩
  exact List.sorted_insertionSort stringLe l

theorem sortStrings_perm (l : List String) : (sortStrings l).Perm l :=
  List.perm_insertionSort stringLe l

/-- C22: when the builds succeed and `bundle` returns without error, it returns
the records of the assemblies of all build results, concatenated in the order
of the build results; the system libraries it warns about are those returned by
the assemblies, each one once, in ascending order; and it logs the warning
exactly when there is such a library. -/
theorem bundle_records_and_warning (h : Host) (opts : Opts) (w : Archive)
    (buildResults : List CBuildResult)
    (hok : (bundle h opts w (.ok buildResults)).err = none) :
    (∀ r ∈ assemblies h buildResults opts w, r.err = none) ∧
    (bundle h opts w (.ok buildResults)).fuzzers =
      (assemblies h buildResults opts w).flatMap (fun r => r.fuzzers) ∧
    ∃ warned : List String,
      warned.Sorted stringLe ∧ warned.Nodup ∧
      (∀ d, d ∈ warned ↔ ∃ r ∈ assemblies h buildResults opts w, d ∈ r.systemDeps) ∧
      (bundle h opts w (.ok buildResults)).warning =
        (if warned = [] then none else some warned) := by
  unfold bundle at hok ⊢
  dsimp only at hok ⊢
  cases herr : (bundleLoop h buildResults ⟨[], [], none, w, opts⟩).err with
  | some e =>
    rw [herr] at hok
    simp at hok
  | none =>
    dsimp only
    obtain ⟨h1, h2, h3⟩ := bundleLoop_collects h buildResults ⟨[], [], none, w, opts⟩ herr rfl
    dsimp only at h1 h2 h3
    rw [List.nil_append] at h1 h2
    refine ⟨h3, h1, sortStrings (bundleLoop h buildResults ⟨[], [], none, w, opts⟩).systemDeps.dedup,
      sortStrings_sorted _, ?_, ?_, ?_⟩
    · exact (sortStrings_perm _).nodup_iff.mpr (List.nodup_dedup _)
    · intro d
      rw [(sortStrings_perm _).mem_iff, List.mem_dedup, h2, List.mem_flatMap]
    · by_cases hnil : sortStrings
          (bundleLoop h buildResults ⟨[], [], none, w, opts⟩).systemDeps.dedup = []
      · simp [hnil]
      · rw [if_neg hnil, if_pos]
        simpa [List.length_eq_zero] using hnil

theorem bundle_records_and_warning_witness :
    (bundle sampleHost sampleOpts []
      (.ok [sampleBuild "foo" ["address", "undefined"]
              ["/usr/lib/libz.so", "/usr/lib/libBLAS.so"],
            sampleBuild "foo" ["coverage"] ["/usr/lib/libBLAS.so"]])).err = none ∧
    ((∀ r ∈ assemblies sampleHost
        [sampleBuild "foo" ["address", "undefined"]
            ["/usr/lib/libz.so", "/usr/lib/libBLAS.so"],
          sampleBuild "foo" ["coverage"] ["/usr/lib/libBLAS.so"]] sampleOpts [],
        r.err = none) ∧
    (bundle sampleHost sampleOpts []
      (.ok [sampleBuild "foo" ["address", "undefined"]
              ["/usr/lib/libz.so", "/usr/lib/libBLAS.so"],
            sampleBuild "foo" ["coverage"] ["/usr/lib/libBLAS.so"]])).fuzzers =
      (assemblies sampleHost
        [sampleBuild "foo" ["address", "undefined"]
            ["/usr/lib/libz.so", "/usr/lib/libBLAS.so"],
          sampleBuild "foo" ["coverage"] ["/usr/lib/libBLAS.so"]] sampleOpts []).flatMap
        (fun r => r.fuzzers) ∧
    ∃ warned : List String,
      warned.Sorted stringLe ∧ warned.Nodup ∧
      (∀ d, d ∈ warned ↔ ∃ r ∈ assemblies sampleHost
        [sampleBuild "foo" ["address", "undefined"]
            ["/usr/lib/libz.so", "/usr/lib/libBLAS.so"],
          sampleBuild "foo" ["coverage"] ["/usr/lib/libBLAS.so"]] sampleOpts [],
        d ∈ r.systemDeps) ∧
      (bundle sampleHost sampleOpts []
        (.ok [sampleBuild "foo" ["address", "undefined"]
                ["/usr/lib/libz.so", "/usr/lib/libBLAS.so"],
              sampleBuild "foo" ["coverage"] ["/usr/lib/libBLAS.so"]])).warning =
        (if warned = [] then none else some warned)) :=
  ⟨by decide,
    bundle_records_and_warning sampleHost sampleOpts []
      [sampleBuild "foo" ["address", "undefined"] ["/usr/lib/libz.so", "/usr/lib/libBLAS.so"],
        sampleBuild "foo" ["coverage"] ["/usr/lib/libBLAS.so"]] (by decide)⟩

/-- The warning of the sample bundle names each system library once, in
ascending order, and a bundle without system libraries logs no warning. -/
theorem bundle_warning_sample :
    (bundle sampleHost sampleOpts []
      (.ok [sampleBuild "foo" ["address", "undefined"]
              ["/usr/lib/libz.so", "/usr/lib/libBLAS.so"],
            sampleBuild "foo" ["coverage"] ["/usr/lib/libBLAS.so"]])).warning =
      some ["/usr/lib/libBLAS.so", "/usr/lib/libz.so"] ∧
    (bundle sampleHost sampleOpts []
      (.ok [sampleBuild "foo" ["address", "undefined"] []])).warning = none ∧
    (bundle sampleHost sampleOpts []
      (.ok [sampleBuild "foo" ["address", "undefined"]
              ["/usr/lib/libz.so", "/usr/lib/libBLAS.so"],
            sampleBuild "foo" ["coverage"] ["/usr/lib/libBLAS.so"]])).fuzzers.map
        (fun f => (f.Engine, f.Sanitizer)) =
      [("LIBFUZZER", "ADDRESS"), ("LLVM_COV", "")] := by
  decide

/-! ## Cleaning up after `Bundle` -/

theorem bundleBody_err (steps : BundleSteps) (buildLogFile outputPath : String)
    (hprint : steps.printHeader = none) :
    (∃ e, bundleBody steps buildLogFile outputPath = ⟨.error e, some e⟩) ∨
      bundleBody steps buildLogFile outputPath = ⟨.ok outputPath, none⟩ := by
  unfold bundleBody
  rw [hprint]
  repeat' split
  all_goals first
    | exact Or.inr rfl
    | exact Or.inl ⟨_, rfl⟩
    | (rename_i hcon; exact absurd hcon (by simp))

/-- Without a failure of the loop over the headers, an error returned after the
archive file was created leaves no archive file behind. -/
theorem bundle_error_removes_archive (disk : Disk) (steps : BundleSteps)
    (buildLogFile outputPath : String) (hmk : steps.mkdirTemp = none)
    (hcreate : steps.createEmptyBundle = none) (hprint : steps.printHeader = none) (e : String)
    (herr : (Bundle disk steps buildLogFile outputPath).1 = .error e) :
    (Bundle disk steps buildLogFile outputPath).2.archiveFile = false := by
  unfold Bundle at herr ⊢
  rw [hmk, hcreate] at herr ⊢
  dsimp only at herr ⊢
  rcases bundleBody_err steps buildLogFile outputPath hprint with ⟨e1, hb⟩ | hb
  · rw [hb]
    simp [Cleanup]
  · rw [hb] at herr
    simp at herr

/-- The scratch directory does not exist when `Bundle` has returned, unless it
existed before and `os.MkdirTemp` failed. -/
theorem bundle_removes_scratch (disk : Disk) (steps : BundleSteps)
    (buildLogFile outputPath : String) :
    (Bundle disk steps buildLogFile outputPath).2.scratchDir =
      (if steps.mkdirTemp = none then false else disk.scratchDir) := by
  unfold Bundle
  cases steps.mkdirTemp with
  | some e => simp
  | none =>
    cases steps.createEmptyBundle with
    | some e => simp [Cleanup]
    | none => simp [Cleanup]

theorem sortSlice_samples :
    sortSlice (fun (x y : Nat) => decide (x < y)) (fun _ _ => 0) [3, 1, 2] = some [1, 2, 3] ∧
    sortSlice (fun (x y : Nat) => decide (x < y)) (fun _ _ => 0)
        [5, 14, 3, 9, 1, 12, 7, 0, 13, 2, 8, 11, 4, 10, 6] =
      some [0, 1, 2, 3, 4, 5, 6, 7, 8, 9, 10, 11, 12, 13, 14] ∧
    bitsLen 0 = 0 ∧ bitsLen 1 = 1 ∧ bitsLen 13 = 4 ∧ bitsLen 16 = 5 := by
  decide

/-! ### Swaps -/

theorem swapAt_length {α : Type} (d : List α) (i j : Nat) :
    (swapAt d i j).length = d.length := by
  unfold swapAt
  split <;> simp

theorem swapAt_getElem? {α : Type} (d : List α) (i j k : Nat) (hi : i < d.length)
    (hj : j < d.length) :
    (swapAt d i j)[k]? = if k = j then d[i]? else if k = i then d[j]? else d[k]? := by
  unfold swapAt
  rw [List.getElem?_eq_getElem hi, List.getElem?_eq_getElem hj]
  simp only [List.getElem?_set]
  by_cases hkj : k = j
  · subst hkj
    simp [hi, hj]
  · by_cases hki : k = i
    · subst hki
      simp [hkj, hi, hj, Ne.symm hkj]
    · simp [hkj, hki, Ne.symm hkj, Ne.symm hki]

theorem swapAt_outside {α : Type} (d : List α) (i j : Nat)
    (h : ¬ (i < d.length ∧ j < d.length)) : swapAt d i j = d := by
  unfold swapAt
  split
  · rename_i x y hx hy
    exact absurd ⟨(List.getElem?_eq_some.mp hx).1, (List.getElem?_eq_some.mp hy).1⟩ h
  · rfl

theorem swapAt_perm {α : Type} (d : List α) (i j : Nat) : (swapAt d i j).Perm d := by
  classical
  unfold swapAt
  split
  · rename_i x y hx hy
    obtain ⟨hi, hxi⟩ := List.getElem?_eq_some.mp hx
    obtain ⟨hj, hyj⟩ := List.getElem?_eq_some.mp hy
    rw [List.perm_iff_count]
    intro a
    have hj2 : j < (d.set i y).length := by simpa using hj
    have hget : (d.set i y)[j] = y := by
      rw [List.getElem_set]
      split
      · rfl
      · exact hyj
    rw [List.count_set _ _ _ _ hj2, List.count_set _ _ _ _ hi, hget, hxi]
    have hle : (if (x == a) = true then 1 else 0) ≤ d.count a := by
      split
      · rename_i hxa
        have : x = a := by simpa using hxa
        subst this
        exact List.count_pos_iff.mpr (hxi ▸ List.getElem_mem hi)
      · exact Nat.zero_le _
    omega
  · exact List.Perm.refl d

/-! ### Every step of the sort is a swap inside `data[a:b]` or a guarded swap of neighbours -/

theorem swaps_trans {α : Type} {P : List α → Nat → Nat → Prop} {d1 d2 d3 : List α}
    (h1 : Swaps P d1 d2) (h2 : Swaps P d2 d3) : Swaps P d1 d3 := by
  induction h1 with
  | refl d => exact h2
  | step i j hp _ ih => exact Swaps.step i j hp (ih h2)

theorem swaps_single {α : Type} {P : List α → Nat → Nat → Prop} {d : List α} (i j : Nat)
    (h : P d i j) : Swaps P d (swapAt d i j) :=
  Swaps.step i j h (Swaps.refl _)

theorem swaps_mono {α : Type} {P Q : List α → Nat → Nat → Prop}
    (hPQ : ∀ d i j, P d i j → Q d i j) {d d1 : List α} (h : Swaps P d d1) : Swaps Q d d1 := by
  induction h with
  | refl d => exact Swaps.refl d
  | step i j hp _ ih => exact Swaps.step i j (hPQ _ _ _ hp) ih

theorem swaps_perm {α : Type} {P : List α → Nat → Nat → Prop} {d d1 : List α}
    (h : Swaps P d d1) : d1.Perm d := by
  induction h with
  | refl d => exact List.Perm.refl d
  | step i j _ _ ih => exact ih.trans (swapAt_perm _ i j)

theorem sortSwap_window {α : Type} (lt : α → α → Bool) {a b a1 b1 : Nat} (ha : a1 ≤ a)
    (hb : b ≤ b1) {d d1 : List α} (h : Swaps (SortSwap lt a b) d d1) :
    Swaps (SortSwap lt a1 b1) d d1 := by
  refine swaps_mono ?_ h
  intro d i j hp
  rcases hp with hp | hp
  · exact Or.inl ⟨by omega, by omega, by omega, by omega⟩
  · exact Or.inr hp

theorem swaps_foldl {α β : Type} {P : List α → Nat → Nat → Prop} (f : List α → β → List α)
    (l : List β) (hf : ∀ d, ∀ x ∈ l, Swaps P d (f d x)) (d : List α) :
    Swaps P d (l.foldl f d) := by
  induction l generalizing d with
  | nil => exact Swaps.refl d
  | cons x l ih =>
    rw [List.foldl_cons]
    exact swaps_trans (hf d x (List.mem_cons_self _ _))
      (ih (fun d y hy => hf d y (List.mem_cons_of_mem _ hy)) _)

theorem insertionInner_swaps {α : Type} (lt : α → α → Bool) (a b a1 : Nat) (j : Nat)
    (d : List α) : Swaps (SortSwap lt a b) d (insertionInner lt a1 j d) := by
  induction j generalizing d with
  | zero => exact Swaps.refl d
  | succ j ih =>
    rw [insertionInner]
    split
    · rename_i h
      exact Swaps.step (j + 1) j (Or.inr ⟨rfl, h.2⟩) (ih _)
    · exact Swaps.refl d

theorem insertionSort_swaps {α : Type} (lt : α → α → Bool) (a b a1 b1 : Nat) (d : List α) :
    Swaps (SortSwap lt a b) d (insertionSortLessFunc lt d a1 b1) := by
  unfold insertionSortLessFunc
  exact swaps_foldl _ _ (fun d i _ => insertionInner_swaps lt a b a1 i d) d

theorem siftDown_swaps {α : Type} (lt : α → α → Bool) (a b hi : Nat) (hhi : hi ≤ b - a)
    (fuel root : Nat) (d : List α) :
    Swaps (SortSwap lt a b) d (siftDownLessFunc lt hi a fuel root d) := by
  induction fuel generalizing root d with
  | zero => exact Swaps.refl d
  | succ fuel ih =>
    rw [siftDownLessFunc]
    split
    · exact Swaps.refl d
    · rename_i hchild
      dsimp only
      generalize hc : (if 2 * root + 1 + 1 < hi ∧
          lessAt lt d (a + (2 * root + 1)) (a + (2 * root + 1) + 1) = true then
        2 * root + 1 + 1 else 2 * root + 1) = child
      have hcb : child < hi ∧ root < child := by
        rw [← hc]
        split <;> omega
      split
      · exact Swaps.refl d
      · exact Swaps.step _ _ (Or.inl ⟨by omega, by omega, by omega, by omega⟩) (ih _ _)

theorem heapSort_swaps {α : Type} (lt : α → α → Bool) (a b : Nat) (d : List α) :
    Swaps (SortSwap lt a b) d (heapSortLessFunc lt d a b) := by
  unfold heapSortLessFunc
  dsimp only
  refine swaps_trans (swaps_foldl _ _ (fun d i _ => ?_) d) (swaps_foldl _ _ (fun d i hi => ?_) _)
  · exact siftDown_swaps lt a b (b - a) (Nat.le_refl _) _ _ _
  · have hi2 : i < b - a := by simpa using hi
    exact Swaps.step _ _ (Or.inl ⟨by omega, by omega, by omega, by omega⟩)
      (siftDown_swaps lt a b i (by omega) _ _ _)

theorem reverseLoop_swaps {α : Type} (lt : α → α → Bool) (a b : Nat) (n i jn : Nat)
    (d : List α) (hi : a ≤ i) (hj : jn ≤ b) :
    Swaps (SortSwap lt a b) d (reverseLoop n i jn d) := by
  induction n generalizing i jn d with
  | zero => exact Swaps.refl d
  | succ n ih =>
    rw [reverseLoop]
    split
    · exact Swaps.step _ _ (Or.inl ⟨by omega, by omega, by omega, by omega⟩)
        (ih _ _ _ (by omega) (by omega))
    · exact Swaps.refl d

theorem reverseRange_swaps {α : Type} (lt : α → α → Bool) (a b : Nat) (d : List α) :
    Swaps (SortSwap lt a b) d (reverseRangeLessFunc d a b) :=
  reverseLoop_swaps lt a b _ _ _ d (Nat.le_refl a) (Nat.le_refl b)

theorem bitsLenFrom_spec (n : Nat) (fuel k : Nat) (hfuel : n < 2 ^ (k + fuel))
    (hk : ∀ k1, k1 < k → 2 ^ k1 ≤ n) :
    n < 2 ^ bitsLenFrom n fuel k ∧ ∀ k1, k1 < bitsLenFrom n fuel k → 2 ^ k1 ≤ n := by
  induction fuel generalizing k with
  | zero => exact ⟨by simpa [bitsLenFrom] using hfuel, by simpa [bitsLenFrom] using hk⟩
  | succ fuel ih =>
    rw [bitsLenFrom]
    split
    · rename_i h
      exact ⟨h, hk⟩
    · rename_i h
      refine ih (k + 1) (by rw [Nat.add_assoc, Nat.add_comm 1 fuel]; exact hfuel) ?_
      intro k1 hk1
      rcases Nat.lt_succ_iff_lt_or_eq.mp hk1 with h1 | h1
      · exact hk k1 h1
      · subst h1
        exact Nat.le_of_not_lt h

theorem bitsLen_spec (n : Nat) :
    n < 2 ^ bitsLen n ∧ ∀ k1, k1 < bitsLen n → 2 ^ k1 ≤ n :=
  bitsLenFrom_spec n n 0 (by rw [Nat.zero_add]; exact Nat.lt_two_pow n) (fun _ h => absurd h (Nat.not_lt_zero _))

theorem bitsLen_pos (n : Nat) (hn : 0 < n) : bitsLen n ≠ 0 := by
  intro h
  have := (bitsLen_spec n).1
  rw [h] at this
  omega

theorem bitsLen_modulus (n : Nat) (hn : 0 < n) : 2 ^ bitsLen n ≤ 2 * n := by
  have hpos := bitsLen_pos n hn
  obtain ⟨L, hL⟩ := Nat.exists_eq_succ_of_ne_zero hpos
  have h2 := (bitsLen_spec n).2 L (by omega)
  rw [hL, Nat.pow_succ]
  omega

theorem breakPatterns_swaps {α : Type} (lt : α → α → Bool) (random : Nat → Nat → Nat)
    (a b : Nat) (d : List α) :
    Swaps (SortSwap lt a b) d (breakPatternsLessFunc random d a b) := by
  unfold breakPatternsLessFunc
  dsimp only
  split
  · rename_i hlen
    refine swaps_foldl _ _ (fun d i hi => ?_) d
    have hi2 : i < 3 := by simpa using hi
    have hmod := bitsLen_modulus (b - a) (by omega)
    have hpow : 0 < 2 ^ bitsLen (b - a) := Nat.two_pow_pos _
    have hlt : random (b - a) i % 2 ^ bitsLen (b - a) < 2 ^ bitsLen (b - a) := Nat.mod_lt _ hpow
    have hq : 2 ≤ (b - a) / 4 := by omega
    refine swaps_single _ _ (Or.inl ⟨by omega, by omega, by omega, ?_⟩)
    split <;> omega
  · exact Swaps.refl d

theorem scanLess_spec {α : Type} (lt : α → α → Bool) (d : List α) (a n i : Nat) :
    i ≤ scanLess lt d a n i ∧ scanLess lt d a n i ≤ i + n ∧
    (∀ k, i ≤ k → k < scanLess lt d a n i → lessAt lt d k a = true) ∧
    (scanLess lt d a n i = i + n ∨ lessAt lt d (scanLess lt d a n i) a = false) := by
  induction n generalizing i with
  | zero => exact ⟨Nat.le_refl _, Nat.le_refl _, fun k h1 h2 => by simp [scanLess] at h2; omega,
      Or.inl rfl⟩
  | succ n ih =>
    rw [scanLess]
    split
    · rename_i h
      obtain ⟨h1, h2, h3, h4⟩ := ih (i + 1)
      refine ⟨by omega, by omega, fun k hk1 hk2 => ?_, ?_⟩
      · by_cases hki : k = i
        · rw [hki]; exact h
        · exact h3 k (by omega) hk2
      · rcases h4 with h4 | h4
        · exact Or.inl (by omega)
        · exact Or.inr h4
    · rename_i h
      exact ⟨Nat.le_refl _, by omega, fun k h1 h2 => by omega, Or.inr (by simpa using h)⟩

theorem scanNotLess_spec {α : Type} (lt : α → α → Bool) (d : List α) (a i n : Nat) :
    i ≤ scanNotLess lt d a i n ∧ scanNotLess lt d a i n ≤ i + n ∧
    (∀ k, scanNotLess lt d a i n ≤ k → k < i + n → lessAt lt d k a = false) ∧
    (scanNotLess lt d a i n = i ∨ lessAt lt d (scanNotLess lt d a i n - 1) a = true) := by
  induction n with
  | zero => exact ⟨Nat.le_refl _, Nat.le_refl _, fun k h1 h2 => by simp [scanNotLess] at h1; omega,
      Or.inl rfl⟩
  | succ n ih =>
    rw [scanNotLess]
    split
    · rename_i h
      obtain ⟨h1, h2, h3, h4⟩ := ih
      refine ⟨h1, by omega, fun k hk1 hk2 => ?_, h4⟩
      by_cases hki : k = i + n
      · rw [hki]; simpa using h
      · exact h3 k hk1 (by omega)
    · rename_i h
      refine ⟨by omega, by omega, fun k h1 h2 => by omega, Or.inr ?_⟩
      simpa using h

theorem scanNotGreater_bounds {α : Type} (lt : α → α → Bool) (d : List α) (a n i : Nat) :
    i ≤ scanNotGreater lt d a n i ∧ scanNotGreater lt d a n i ≤ i + n := by
  induction n generalizing i with
  | zero => exact ⟨Nat.le_refl _, Nat.le_refl _⟩
  | succ n ih =>
    rw [scanNotGreater]
    split
    · have := ih (i + 1)
      omega
    · omega

theorem scanGreater_bounds {α : Type} (lt : α → α → Bool) (d : List α) (a i n : Nat) :
    i ≤ scanGreater lt d a i n ∧ scanGreater lt d a i n ≤ i + n := by
  induction n with
  | zero => exact ⟨Nat.le_refl _, Nat.le_refl _⟩
  | succ n ih =>
    rw [scanGreater]
    split
    · omega
    · omega

theorem scanSorted_spec {α : Type} (lt : α → α → Bool) (d : List α) (n i : Nat) :
    i ≤ scanSorted lt d n i ∧ scanSorted lt d n i ≤ i + n ∧
    (∀ k, i ≤ k → k < scanSorted lt d n i → lessAt lt d k (k - 1) = false) ∧
    (scanSorted lt d n i = i + n ∨
      lessAt lt d (scanSorted lt d n i) (scanSorted lt d n i - 1) = true) := by
  induction n generalizing i with
  | zero => exact ⟨Nat.le_refl _, Nat.le_refl _, fun k h1 h2 => by simp [scanSorted] at h2; omega,
      Or.inl rfl⟩
  | succ n ih =>
    rw [scanSorted]
    split
    · rename_i h
      obtain ⟨h1, h2, h3, h4⟩ := ih (i + 1)
      refine ⟨by omega, by omega, fun k hk1 hk2 => ?_, ?_⟩
      · by_cases hki : k = i
        · rw [hki]; simpa using h
        · exact h3 k (by omega) hk2
      · rcases h4 with h4 | h4
        · exact Or.inl (by omega)
        · exact Or.inr h4
    · rename_i h
      exact ⟨Nat.le_refl _, by omega, fun k h1 h2 => by omega, Or.inr (by simpa using h)⟩

theorem partitionLoop_swaps {α : Type} (lt : α → α → Bool) (a b : Nat) (fuel : Nat)
    (d : List α) (i jn : Nat) (hi1 : a + 1 ≤ i) (hi2 : i ≤ b) (hj1 : a + 1 ≤ jn)
    (hj2 : jn ≤ b) :
    Swaps (SortSwap lt a b) d (partitionLoop lt a fuel d i jn).1 ∧
    a + 1 ≤ (partitionLoop lt a fuel d i jn).2 ∧ (partitionLoop lt a fuel d i jn).2 ≤ b := by
  induction fuel generalizing d i jn with
  | zero => exact ⟨Swaps.refl d, hj1, hj2⟩
  | succ fuel ih =>
    rw [partitionLoop]
    have hs1 := scanLess_spec lt d a (jn - i) i
    generalize scanLess lt d a (jn - i) i = i1 at hs1 ⊢
    have hs2 := scanNotLess_spec lt d a i1 (jn - i1)
    generalize scanNotLess lt d a i1 (jn - i1) = jn1 at hs2 ⊢
    split
    · exact ⟨Swaps.refl d, by omega, by omega⟩
    · rename_i hlt
      obtain ⟨h1, h2, h3⟩ := ih (swapAt d i1 (jn1 - 1)) (i1 + 1) (jn1 - 1) (by omega) (by omega)
        (by omega) (by omega)
      exact ⟨Swaps.step _ _ (Or.inl ⟨by omega, by omega, by omega, by omega⟩) h1, h2, h3⟩

theorem partition_swaps {α : Type} (lt : α → α → Bool) (a b pivot : Nat) (d : List α)
    (hab : a < b) (hp1 : a ≤ pivot) (hp2 : pivot < b) :
    Swaps (SortSwap lt a b) d (partitionLessFunc lt d a b pivot).1 ∧
    a ≤ (partitionLessFunc lt d a b pivot).2.1 ∧ (partitionLessFunc lt d a b pivot).2.1 < b := by
  unfold partitionLessFunc
  dsimp only
  have hsw : Swaps (SortSwap lt a b) d (swapAt d a pivot) :=
    swaps_single _ _ (Or.inl ⟨Nat.le_refl _, hab, hp1, hp2⟩)
  generalize swapAt d a pivot = d0 at hsw ⊢
  have hs1 := scanLess_spec lt d0 a (b - (a + 1)) (a + 1)
  generalize scanLess lt d0 a (b - (a + 1)) (a + 1) = i1 at hs1 ⊢
  have hs2 := scanNotLess_spec lt d0 a i1 (b - i1)
  generalize scanNotLess lt d0 a i1 (b - i1) = jn1 at hs2 ⊢
  split
  · dsimp only
    exact ⟨swaps_trans hsw (swaps_single _ _ (Or.inl ⟨by omega, by omega, by omega, by omega⟩)),
      by omega, by omega⟩
  · rename_i hlt
    obtain ⟨h1, h2, h3⟩ := partitionLoop_swaps lt a b (jn1 - 1 - (i1 + 1))
      (swapAt d0 i1 (jn1 - 1)) (i1 + 1) (jn1 - 1) (by omega) (by omega) (by omega) (by omega)
    dsimp only
    refine ⟨swaps_trans hsw (Swaps.step _ _ (Or.inl ⟨by omega, by omega, by omega, by omega⟩)
      (swaps_trans h1 (swaps_single _ _ (Or.inl ⟨by omega, by omega, by omega, by omega⟩)))),
      by omega, by omega⟩

theorem partitionEqualLoop_swaps {α : Type} (lt : α → α → Bool) (a b : Nat) (fuel : Nat)
    (d : List α) (i jn : Nat) (hi1 : a + 1 ≤ i) (hi2 : i ≤ b) (hj2 : jn ≤ b) :
    Swaps (SortSwap lt a b) d (partitionEqualLoop lt a fuel d i jn).1 ∧
    a + 1 ≤ (partitionEqualLoop lt a fuel d i jn).2 ∧
    (partitionEqualLoop lt a fuel d i jn).2 ≤ b := by
  induction fuel generalizing d i jn with
  | zero => exact ⟨Swaps.refl d, hi1, hi2⟩
  | succ fuel ih =>
    rw [partitionEqualLoop]
    have hs1 := scanNotGreater_bounds lt d a (jn - i) i
    generalize scanNotGreater lt d a (jn - i) i = i1 at hs1 ⊢
    have hs2 := scanGreater_bounds lt d a i1 (jn - i1)
    generalize scanGreater lt d a i1 (jn - i1) = jn1 at hs2 ⊢
    split
    · exact ⟨Swaps.refl d, by omega, by omega⟩
    · rename_i hlt
      obtain ⟨h1, h2, h3⟩ := ih (swapAt d i1 (jn1 - 1)) (i1 + 1) (jn1 - 1) (by omega) (by omega)
        (by omega)
      exact ⟨Swaps.step _ _ (Or.inl ⟨by omega, by omega, by omega, by omega⟩) h1, h2, h3⟩

theorem partitionEqual_swaps {α : Type} (lt : α → α → Bool) (a b pivot : Nat) (d : List α)
    (hab : a < b) (hp1 : a ≤ pivot) (hp2 : pivot < b) :
    Swaps (SortSwap lt a b) d (partitionEqualLessFunc lt d a b pivot).1 ∧
    a + 1 ≤ (partitionEqualLessFunc lt d a b pivot).2 ∧
    (partitionEqualLessFunc lt d a b pivot).2 ≤ b := by
  unfold partitionEqualLessFunc
  obtain ⟨h1, h2, h3⟩ := partitionEqualLoop_swaps lt a b (b - a) (swapAt d a pivot) (a + 1) b
    (Nat.le_refl _) (by omega) (Nat.le_refl _)
  exact ⟨Swaps.step _ _ (Or.inl ⟨Nat.le_refl _, hab, hp1, hp2⟩) h1, h2, h3⟩

theorem shiftLeft_swaps {α : Type} (lt : α → α → Bool) (a b : Nat) (j : Nat) (d : List α) :
    Swaps (SortSwap lt a b) d (shiftLeft lt j d) := by
  induction j generalizing d with
  | zero => exact Swaps.refl d
  | succ j ih =>
    rw [shiftLeft]
    split
    · exact Swaps.refl d
    · rename_i h
      exact Swaps.step (j + 1) j (Or.inr ⟨rfl, by simpa using h⟩) (ih _)

theorem shiftRight_swaps {α : Type} (lt : α → α → Bool) (a b : Nat) (n j : Nat) (d : List α)
    (hj : 1 ≤ j) : Swaps (SortSwap lt a b) d (shiftRight lt n j d) := by
  induction n generalizing j d with
  | zero => exact Swaps.refl d
  | succ n ih =>
    rw [shiftRight]
    split
    · exact Swaps.refl d
    · rename_i h
      exact Swaps.step j (j - 1) (Or.inr ⟨by omega, by simpa using h⟩) (ih _ _ (by omega))

theorem partialInsertionLoop_swaps {α : Type} (lt : α → α → Bool) (a b : Nat) (steps i : Nat)
    (d : List α) (hi1 : 1 ≤ i) (hi2 : i ≤ b) :
    Swaps (SortSwap lt a b) d (partialInsertionLoop lt a b steps i d).1 := by
  induction steps generalizing i d with
  | zero => exact Swaps.refl d
  | succ steps ih =>
    rw [partialInsertionLoop]
    dsimp only
    have hs := scanSorted_spec lt d (b - i) i
    generalize scanSorted lt d (b - i) i = i1 at hs ⊢
    split
    · exact Swaps.refl d
    · rename_i hne
      split
      · exact Swaps.refl d
      · have hless : lessAt lt d i1 (i1 - 1) = true := by
          rcases hs.2.2.2 with h | h
          · exact absurd (by omega) hne
          · exact h
        have hl : Swaps (SortSwap lt a b) (swapAt d i1 (i1 - 1))
            (if i1 - a ≥ 2 then shiftLeft lt (i1 - 1) (swapAt d i1 (i1 - 1))
              else swapAt d i1 (i1 - 1)) := by
          split
          · exact shiftLeft_swaps lt a b _ _
          · exact Swaps.refl _
        generalize (if i1 - a ≥ 2 then shiftLeft lt (i1 - 1) (swapAt d i1 (i1 - 1))
          else swapAt d i1 (i1 - 1)) = d2 at hl ⊢
        have hr : Swaps (SortSwap lt a b) d2
            (if b - i1 ≥ 2 then shiftRight lt (b - (i1 + 1)) (i1 + 1) d2 else d2) := by
          split
          · exact shiftRight_swaps lt a b _ _ _ (by omega)
          · exact Swaps.refl _
        exact Swaps.step i1 (i1 - 1) (Or.inr ⟨by omega, hless⟩)
          (swaps_trans hl (swaps_trans hr (ih i1 _ (by omega) (by omega))))

theorem partialInsertionSort_swaps {α : Type} (lt : α → α → Bool) (a b : Nat) (d : List α)
    (hab : a < b) : Swaps (SortSwap lt a b) d (partialInsertionSortLessFunc lt d a b).1 :=
  partialInsertionLoop_swaps lt a b 5 (a + 1) d (by omega) (by omega)

theorem median_mem {α : Type} (lt : α → α → Bool) (d : List α) (x y z s : Nat) :
    (medianLessFunc lt d x y z s).1 = x ∨ (medianLessFunc lt d x y z s).1 = y ∨
    (medianLessFunc lt d x y z s).1 = z := by
  unfold medianLessFunc order2LessFunc
  dsimp only
  split_ifs <;> simp

theorem choosePivot_bounds {α : Type} (lt : α → α → Bool) (d : List α) (a b : Nat)
    (hlen : 12 < b - a) :
    a ≤ (choosePivotLessFunc lt d a b).1 ∧ (choosePivotLessFunc lt d a b).1 < b := by
  have hr : ∀ r : Nat × Nat, (a ≤ r.1 ∧ r.1 < b) →
      (a ≤ (if r.2 = 0 then (r.1, SortedHint.increasingHint)
        else if r.2 = 12 then (r.1, SortedHint.decreasingHint)
        else (r.1, SortedHint.unknownHint)).1 ∧
       (if r.2 = 0 then (r.1, SortedHint.increasingHint)
        else if r.2 = 12 then (r.1, SortedHint.decreasingHint)
        else (r.1, SortedHint.unknownHint)).1 < b) := by
    intro r h
    split_ifs <;> exact h
  unfold choosePivotLessFunc
  dsimp only
  apply hr
  have hq : 3 ≤ (b - a) / 4 := by omega
  rw [if_pos (by omega)]
  split
  · rename_i h50
    have hq2 : 12 ≤ (b - a) / 4 := by omega
    unfold medianAdjacentLessFunc
    have m1 := median_mem lt d (a + (b - a) / 4 * 1 - 1) (a + (b - a) / 4 * 1)
      (a + (b - a) / 4 * 1 + 1) 0
    generalize medianLessFunc lt d (a + (b - a) / 4 * 1 - 1) (a + (b - a) / 4 * 1)
      (a + (b - a) / 4 * 1 + 1) 0 = ri at m1 ⊢
    have m2 := median_mem lt d (a + (b - a) / 4 * 2 - 1) (a + (b - a) / 4 * 2)
      (a + (b - a) / 4 * 2 + 1) ri.2
    generalize medianLessFunc lt d (a + (b - a) / 4 * 2 - 1) (a + (b - a) / 4 * 2)
      (a + (b - a) / 4 * 2 + 1) ri.2 = rj at m2 ⊢
    have m3 := median_mem lt d (a + (b - a) / 4 * 3 - 1) (a + (b - a) / 4 * 3)
      (a + (b - a) / 4 * 3 + 1) rj.2
    generalize medianLessFunc lt d (a + (b - a) / 4 * 3 - 1) (a + (b - a) / 4 * 3)
      (a + (b - a) / 4 * 3 + 1) rj.2 = rk at m3 ⊢
    have m4 := median_mem lt d ri.1 rj.1 rk.1 rk.2
    omega
  · have m4 := median_mem lt d (a + (b - a) / 4 * 1) (a + (b - a) / 4 * 2)
      (a + (b - a) / 4 * 3) 0
    omega

theorem pdqsortSetup_swaps {α : Type} (lt : α → α → Bool) (random : Nat → Nat → Nat)
    (d : List α) (a b : Nat) (wb wp : Bool) (hlen : 12 < b - a) :
    Swaps (SortSwap lt a b) d (pdqsortSetup lt random d a b wb wp).1 ∧
    a ≤ (pdqsortSetup lt random d a b wb wp).2.1 ∧
    (pdqsortSetup lt random d a b wb wp).2.1 < b := by
  unfold pdqsortSetup
  dsimp only
  have h1 : Swaps (SortSwap lt a b) d
      (if wb = true then d else breakPatternsLessFunc random d a b) := by
    split
    · exact Swaps.refl d
    · exact breakPatterns_swaps lt random a b d
  generalize (if wb = true then d else breakPatternsLessFunc random d a b) = d1 at h1 ⊢
  have hc := choosePivot_bounds lt d1 a b hlen
  generalize choosePivotLessFunc lt d1 a b = chosen at hc ⊢
  have h2 : Swaps (SortSwap lt a b) d1
      (if chosen.2 = SortedHint.decreasingHint then reverseRangeLessFunc d1 a b else d1) := by
    split
    · exact reverseRange_swaps lt a b d1
    · exact Swaps.refl d1
  generalize (if chosen.2 = SortedHint.decreasingHint then reverseRangeLessFunc d1 a b
    else d1) = d2 at h2 ⊢
  have h3 : ∀ (c : Prop) [Decidable c], Swaps (SortSwap lt a b) d2
      (if c then partialInsertionSortLessFunc lt d2 a b else (d2, false)).1 := by
    intro c _
    split
    · exact partialInsertionSort_swaps lt a b d2 (by omega)
    · exact Swaps.refl d2
  refine ⟨swaps_trans h1 (swaps_trans h2 (h3 _)), ?_, ?_⟩
  · split <;> omega
  · split <;> omega

/-- With a budget of `b - a` rounds `pdqsortLessFunc` returns, and its result is
reached from the data by swaps inside `data[a:b]` and guarded swaps of
neighbours; so it is a permutation of the data. This holds for every
comparison. -/
theorem pdqsort_swaps {α : Type} (lt : α → α → Bool) (random : Nat → Nat → Nat) (fuel : Nat)
    (d : List α) (a b limit : Nat) (wb wp : Bool) (hfuel : b - a ≤ fuel) :
    ∃ d1, pdqsortLessFunc lt random fuel d a b limit wb wp = some d1 ∧
      Swaps (SortSwap lt a b) d d1 := by
  induction fuel generalizing d a b limit wb wp with
  | zero =>
    rw [pdqsortLessFunc, if_pos (by omega)]
    exact ⟨_, rfl, insertionSort_swaps lt a b a b d⟩
  | succ fuel ih =>
    rw [pdqsortLessFunc]
    split
    · exact ⟨_, rfl, insertionSort_swaps lt a b a b d⟩
    · rename_i hlen
      split
      · exact ⟨_, rfl, heapSort_swaps lt a b d⟩
      · dsimp only
        obtain ⟨hs1, hs2, hs3⟩ := pdqsortSetup_swaps lt random d a b wb wp (by omega)
        generalize pdqsortSetup lt random d a b wb wp = s at hs1 hs2 hs3 ⊢
        generalize (if wb = true then limit else limit - 1) = limit1
        split
        · exact ⟨_, rfl, hs1⟩
        · split
          · obtain ⟨hr1, hr2, hr3⟩ := partitionEqual_swaps lt a b s.2.1 s.1 (by omega) hs2 hs3
            generalize partitionEqualLessFunc lt s.1 a b s.2.1 = r at hr1 hr2 hr3 ⊢
            obtain ⟨d1, hd1, hsw⟩ := ih r.1 r.2 b limit1 wb wp (by omega)
            exact ⟨d1, hd1, swaps_trans hs1 (swaps_trans hr1
              (sortSwap_window lt (by omega) (Nat.le_refl _) hsw))⟩
          · obtain ⟨hr1, hr2, hr3⟩ := partition_swaps lt a b s.2.1 s.1 (by omega) hs2 hs3
            generalize partitionLessFunc lt s.1 a b s.2.1 = r at hr1 hr2 hr3 ⊢
            split
            · obtain ⟨d1, hd1, hsw1⟩ := ih r.1 a r.2.1 limit1 true true (by omega)
              rw [hd1]
              dsimp only
              obtain ⟨d2, hd2, hsw2⟩ := ih d1 (r.2.1 + 1) b limit1
                (decide (r.2.1 - a ≥ (b - a) / 8)) r.2.2 (by omega)
              exact ⟨d2, hd2, swaps_trans hs1 (swaps_trans hr1 (swaps_trans
                (sortSwap_window lt (Nat.le_refl _) (by omega) hsw1)
                (sortSwap_window lt (by omega) (Nat.le_refl _) hsw2)))⟩
            · obtain ⟨d1, hd1, hsw1⟩ := ih r.1 (r.2.1 + 1) b limit1 true true (by omega)
              rw [hd1]
              dsimp only
              obtain ⟨d2, hd2, hsw2⟩ := ih d1 a r.2.1 limit1
                (decide (b - r.2.1 ≥ (b - a) / 8)) r.2.2 (by omega)
              exact ⟨d2, hd2, swaps_trans hs1 (swaps_trans hr1 (swaps_trans
                (sortSwap_window lt (by omega) (Nat.le_refl _) hsw1)
                (sortSwap_window lt (Nat.le_refl _) (by omega) hsw2)))⟩

/-! ### The comparison of `copyArtifactsToTempdir`: which elements are symlinks -/

theorem flagAt_lt {α : Type} (sym : α → Bool) (d : List α) (k : Nat) (c : Bool)
    (h : flagAt sym d k = some c) : k < d.length := by
  unfold flagAt at h
  by_contra hk
  rw [List.getElem?_eq_none (by omega)] at h
  simp at h

theorem flagAt_some {α : Type} (sym : α → Bool) (d : List α) (k : Nat) (hk : k < d.length) :
    flagAt sym d k = some (sym d[k]) := by
  unfold flagAt
  rw [List.getElem?_eq_getElem hk]
  rfl

theorem lessAt_regularFirst {α : Type} (sym : α → Bool) (d : List α) (i j : Nat) :
    lessAt (regularFirst sym) d i j = true ↔ flagAt sym d i = some false ∧ j < d.length := by
  unfold lessAt flagAt regularFirst
  by_cases hi : i < d.length
  · by_cases hj : j < d.length
    · rw [List.getElem?_eq_getElem hi, List.getElem?_eq_getElem hj]
      simp [hj]
    · rw [List.getElem?_eq_getElem hi, List.getElem?_eq_none (by omega)]
      simp [hj]
  · rw [List.getElem?_eq_none (by omega)]
    simp

theorem lessAt_false_flag {α : Type} (sym : α → Bool) (d : List α) (i j : Nat)
    (hi : i < d.length) (hj : j < d.length) (h : lessAt (regularFirst sym) d i j = false) :
    flagAt sym d i = some true := by
  rw [flagAt_some sym d i hi]
  cases hs : sym d[i]
  · have : lessAt (regularFirst sym) d i j = true :=
      (lessAt_regularFirst sym d i j).mpr ⟨by rw [flagAt_some sym d i hi, hs], hj⟩
    rw [h] at this
    exact absurd this (by simp)
  · rfl

theorem flagAt_swapAt {α : Type} (sym : α → Bool) (d : List α) (i j k : Nat)
    (hi : i < d.length) (hj : j < d.length) :
    flagAt sym (swapAt d i j) k =
      if k = j then flagAt sym d i else if k = i then flagAt sym d j else flagAt sym d k := by
  unfold flagAt
  rw [swapAt_getElem? d i j k hi hj]
  split
  · rfl
  · split <;> rfl

theorem swapAt_same_flags {α : Type} (sym : α → Bool) (d : List α) (i j : Nat)
    (h : flagAt sym d i = flagAt sym d j) : flagAt sym (swapAt d i j) = flagAt sym d := by
  by_cases hin : i < d.length ∧ j < d.length
  · funext k
    rw [flagAt_swapAt sym d i j k hin.1 hin.2]
    split
    · rename_i hk
      rw [hk, h]
    · split
      · rename_i hk
        rw [hk, h]
      · rfl
  · rw [swapAt_outside d i j hin]

/-- Once no symlink stands before a regular file and `data[a:b]` holds only
symlinks or only regular files, the swaps of a sort of `data[a:b]` exchange
elements of the same kind: which positions hold symlinks does not change. -/
theorem swaps_flags {α : Type} (sym : α → Bool) (a b : Nat) {d d1 : List α}
    (hsw : Swaps (SortSwap (regularFirst sym) a b) d d1) (hsep : Separated sym d)
    (huni : Uniform sym d a b) : flagAt sym d1 = flagAt sym d := by
  induction hsw with
  | refl d => rfl
  | @step d0 d2 i j hp _ ih =>
    have hsame : flagAt sym d0 i = flagAt sym d0 j := by
      rcases hp with hp | hp
      · obtain ⟨c, hc⟩ := huni
        rw [hc i hp.1 hp.2.1, hc j hp.2.2.1 hp.2.2.2]
      · have hreg := ((lessAt_regularFirst sym d0 i j).mp hp.2).1
        rw [hreg, hsep j i (by omega) hreg]
    have hfe := swapAt_same_flags sym d0 i j hsame
    have hsep2 : Separated sym (swapAt d0 i j) := by
      unfold Separated
      rw [hfe]
      exact hsep
    have huni2 : Uniform sym (swapAt d0 i j) a b := by
      unfold Uniform
      rw [hfe]
      exact huni
    rw [ih hsep2 huni2, hfe]

theorem separated_of_flags {α : Type} (sym : α → Bool) {d d1 : List α}
    (h : flagAt sym d1 = flagAt sym d) (hsep : Separated sym d) : Separated sym d1 := by
  unfold Separated
  rw [h]
  exact hsep

theorem uniform_of_flags {α : Type} (sym : α → Bool) {d d1 : List α} (a b : Nat)
    (h : flagAt sym d1 = flagAt sym d) (huni : Uniform sym d a b) : Uniform sym d1 a b := by
  unfold Uniform
  rw [h]
  exact huni

theorem swaps_length {α : Type} {P : List α → Nat → Nat → Prop} {d d1 : List α}
    (h : Swaps P d d1) : d1.length = d.length :=
  (swaps_perm h).length_eq

/-- The inner loop of the insertion sort moves a regular file to the front. -/
theorem insertionInner_front {α : Type} (sym : α → Bool) (j : Nat) (d : List α)
    (hreg : flagAt sym d j = some false) :
    flagAt sym (insertionInner (regularFirst sym) 0 j d) 0 = some false ∧
    (∀ k, k < j → flagAt sym (insertionInner (regularFirst sym) 0 j d) (k + 1) =
      flagAt sym d k) ∧
    (∀ k, j < k → flagAt sym (insertionInner (regularFirst sym) 0 j d) k = flagAt sym d k) := by
  induction j generalizing d with
  | zero => exact ⟨hreg, fun k hk => absurd hk (Nat.not_lt_zero _), fun k _ => rfl⟩
  | succ j ih =>
    have hj1 : j + 1 < d.length := flagAt_lt sym d _ _ hreg
    have hj : j < d.length := by omega
    have hless : lessAt (regularFirst sym) d (j + 1) j = true :=
      (lessAt_regularFirst sym d (j + 1) j).mpr ⟨hreg, hj⟩
    rw [insertionInner, if_pos ⟨by omega, hless⟩]
    have hfl := flagAt_swapAt sym d (j + 1) j
    have hreg1 : flagAt sym (swapAt d (j + 1) j) j = some false := by
      rw [hfl j hj1 hj, if_pos rfl, hreg]
    obtain ⟨h1, h2, h3⟩ := ih (swapAt d (j + 1) j) hreg1
    refine ⟨h1, fun k hk => ?_, fun k hk => ?_⟩
    · by_cases hkj : k = j
      · subst hkj
        rw [h3 (k + 1) (by omega), hfl (k + 1) hj1 hj, if_neg (by omega), if_pos rfl]
      · rw [h2 k (by omega), hfl k hj1 hj, if_neg hkj, if_neg (by omega)]
    · rw [h3 k (by omega), hfl k hj1 hj, if_neg (by omega), if_neg (by omega)]

theorem insertionInner_stay {α : Type} (sym : α → Bool) (a j : Nat) (d : List α)
    (hreg : flagAt sym d j ≠ some false) : insertionInner (regularFirst sym) a j d = d := by
  cases j with
  | zero => rfl
  | succ j =>
    rw [insertionInner, if_neg]
    intro h
    exact hreg ((lessAt_regularFirst sym d (j + 1) j).mp h.2).1

theorem insertionInner_below {α : Type} (sym : α → Bool) (i : Nat) (d : List α)
    (h : SeparatedBelow sym d i) :
    SeparatedBelow sym (insertionInner (regularFirst sym) 0 i d) (i + 1) := by
  by_cases hreg : flagAt sym d i = some false
  · obtain ⟨h1, h2, h3⟩ := insertionInner_front sym i d hreg
    intro x y hxy hy hfy
    cases x with
    | zero => exact h1
    | succ x =>
      obtain ⟨y1, rfl⟩ : ∃ y1, y = y1 + 1 := ⟨y - 1, by omega⟩
      rw [h2 y1 (by omega)] at hfy
      rw [h2 x (by omega)]
      exact h x y1 (by omega) (by omega) hfy
  · rw [insertionInner_stay sym 0 i d hreg]
    intro x y hxy hy hfy
    have hyi : y ≠ i := by
      intro he
      rw [he] at hfy
      exact hreg hfy
    exact h x y hxy (by omega) hfy

theorem separatedBelow_mono {α : Type} (sym : α → Bool) (d : List α) {i j : Nat} (hij : i ≤ j)
    (h : SeparatedBelow sym d j) : SeparatedBelow sym d i :=
  fun x y hxy hy hfy => h x y hxy (by omega) hfy

theorem separated_of_below {α : Type} (sym : α → Bool) (d : List α) (i : Nat)
    (hi : d.length ≤ i) (h : SeparatedBelow sym d i) : Separated sym d :=
  fun x y hxy hfy => h x y hxy (by have := flagAt_lt sym d y _ hfy; omega) hfy

theorem insertionSort_below {α : Type} (sym : α → Bool) (n i : Nat) (d : List α)
    (h : SeparatedBelow sym d i) :
    SeparatedBelow sym ((List.range' i n).foldl
      (fun d i => insertionInner (regularFirst sym) 0 i d) d) (i + n) := by
  induction n generalizing i d with
  | zero => exact h
  | succ n ih =>
    rw [List.range'_succ, List.foldl_cons]
    have := ih (i + 1) _ (insertionInner_below sym i d h)
    rw [Nat.add_assoc, Nat.add_comm 1 n] at this
    exact this

/-- Insertion sort of the whole slice puts the regular files first. -/
theorem insertionSort_separated {α : Type} (sym : α → Bool) (d : List α) :
    Separated sym (insertionSortLessFunc (regularFirst sym) d 0 d.length) := by
  have hlen : (insertionSortLessFunc (regularFirst sym) d 0 d.length).length = d.length :=
    swaps_length (insertionSort_swaps (regularFirst sym) 0 d.length 0 d.length d)
  refine separated_of_below sym _ (0 + 1 + (d.length - (0 + 1))) (by rw [hlen]; omega) ?_
  unfold insertionSortLessFunc
  exact insertionSort_below sym _ _ d (fun x y hxy hy _ => by omega)

theorem flagAt_swapAt_other {α : Type} (sym : α → Bool) (d : List α) (i j k : Nat)
    (hki : k ≠ i) (hkj : k ≠ j) : flagAt sym (swapAt d i j) k = flagAt sym d k := by
  by_cases hin : i < d.length ∧ j < d.length
  · rw [flagAt_swapAt sym d i j k hin.1 hin.2, if_neg hkj, if_neg hki]
  · rw [swapAt_outside d i j hin]

theorem shiftLeft_eq {α : Type} (lt : α → α → Bool) (j : Nat) (d : List α) :
    shiftLeft lt j d = insertionInner lt 0 j d := by
  induction j generalizing d with
  | zero => rfl
  | succ j ih =>
    rw [shiftLeft, insertionInner]
    by_cases h : lessAt lt d (j + 1) j = true
    · simp [h, ih]
    · simp [h]

theorem shiftRight_low {α : Type} (lt : α → α → Bool) (sym : α → Bool) (n j : Nat)
    (d : List α) (k : Nat) (hj : 1 ≤ j) (hk : k + 1 < j) :
    flagAt sym (shiftRight lt n j d) k = flagAt sym d k := by
  induction n generalizing j d with
  | zero => rfl
  | succ n ih =>
    rw [shiftRight]
    split
    · rfl
    · rw [ih (j + 1) _ (by omega) (by omega),
        flagAt_swapAt_other sym d j (j - 1) k (by omega) (by omega)]

theorem separatedBelow_extend {α : Type} (sym : α → Bool) (d : List α) (i i1 : Nat)
    (h : SeparatedBelow sym d i)
    (hsym : ∀ k, i ≤ k → k < i1 → flagAt sym d k ≠ some false) : SeparatedBelow sym d i1 := by
  intro x y hxy hy hfy
  by_cases hyi : y < i
  · exact h x y hxy hyi hfy
  · exact absurd hfy (hsym y (by omega) hy)

theorem separatedBelow_congr {α : Type} (sym : α → Bool) (d d1 : List α) (i : Nat)
    (hfl : ∀ k, k < i → flagAt sym d1 k = flagAt sym d k) (h : SeparatedBelow sym d i) :
    SeparatedBelow sym d1 i := by
  intro x y hxy hy hfy
  rw [hfl y hy] at hfy
  rw [hfl x (by omega)]
  exact h x y hxy hy hfy

theorem partialInsertionLoop_separated {α : Type} (sym : α → Bool) (b steps i : Nat)
    (d : List α) (hb : b = d.length) (hi1 : 1 ≤ i) (hi2 : i ≤ b)
    (hsep : SeparatedBelow sym d i) :
    (partialInsertionLoop (regularFirst sym) 0 b steps i d).2 = true →
    Separated sym (partialInsertionLoop (regularFirst sym) 0 b steps i d).1 := by
  induction steps generalizing i d with
  | zero =>
    intro h
    simp [partialInsertionLoop] at h
  | succ steps ih =>
    rw [partialInsertionLoop]
    dsimp only
    have hs := scanSorted_spec (regularFirst sym) d (b - i) i
    generalize scanSorted (regularFirst sym) d (b - i) i = i1 at hs ⊢
    have hsep1 : SeparatedBelow sym d i1 := by
      refine separatedBelow_extend sym d i i1 hsep (fun k hk1 hk2 hreg => ?_)
      have hl := hs.2.2.1 k hk1 hk2
      have : lessAt (regularFirst sym) d k (k - 1) = true :=
        (lessAt_regularFirst sym d k (k - 1)).mpr ⟨hreg, by omega⟩
      rw [hl] at this
      exact absurd this (by simp)
    split
    · intro _
      exact separated_of_below sym d i1 (by omega) hsep1
    · rename_i hne
      split
      · intro h
        simp at h
      · have hless : lessAt (regularFirst sym) d i1 (i1 - 1) = true := by
          rcases hs.2.2.2 with h | h
          · exact absurd (by omega) hne
          · exact h
        have hreg := ((lessAt_regularFirst sym d i1 (i1 - 1)).mp hless).1
        have hd2 : (if i1 - 0 ≥ 2 then
              shiftLeft (regularFirst sym) (i1 - 1) (swapAt d i1 (i1 - 1))
            else swapAt d i1 (i1 - 1)) = insertionInner (regularFirst sym) 0 i1 d := by
          obtain ⟨m, rfl⟩ : ∃ m, i1 = m + 1 := ⟨i1 - 1, by omega⟩
          rw [Nat.add_sub_cancel] at hless
          have hR : insertionInner (regularFirst sym) 0 (m + 1) d =
              insertionInner (regularFirst sym) 0 m (swapAt d (m + 1) m) := by
            rw [insertionInner, if_pos ⟨by omega, hless⟩]
          rw [hR, Nat.add_sub_cancel]
          split
          · exact shiftLeft_eq _ _ _
          · have hm : m = 0 := by omega
            subst hm
            rfl
        rw [hd2]
        have hsw2 := insertionInner_swaps (regularFirst sym) 0 b 0 i1 d
        have hsep2 := separatedBelow_mono sym _ (Nat.le_succ i1)
          (insertionInner_below sym i1 d hsep1)
        generalize insertionInner (regularFirst sym) 0 i1 d = d2 at hsw2 hsep2 ⊢
        have hd3 : (if b - i1 ≥ 2 then shiftRight (regularFirst sym) (b - (i1 + 1)) (i1 + 1) d2
            else d2).length = d2.length ∧ SeparatedBelow sym (if b - i1 ≥ 2 then
              shiftRight (regularFirst sym) (b - (i1 + 1)) (i1 + 1) d2 else d2) i1 := by
          split
          · exact ⟨swaps_length (shiftRight_swaps (regularFirst sym) 0 b _ _ d2 (by omega)),
              separatedBelow_congr sym d2 _ i1
                (fun k hk => shiftRight_low _ sym _ _ d2 k (by omega) (by omega)) hsep2⟩
          · exact ⟨rfl, hsep2⟩
        generalize (if b - i1 ≥ 2 then shiftRight (regularFirst sym) (b - (i1 + 1)) (i1 + 1) d2
            else d2) = d3 at hd3 ⊢
        exact ih i1 d3 (by rw [hd3.1, swaps_length hsw2]; exact hb) (by omega) (by omega) hd3.2

/-- When `partialInsertionSortLessFunc` reports the whole slice as sorted, the
regular files stand first. -/
theorem partialInsertionSort_separated {α : Type} (sym : α → Bool) (d : List α)
    (hlen : 1 ≤ d.length)
    (h : (partialInsertionSortLessFunc (regularFirst sym) d 0 d.length).2 = true) :
    Separated sym (partialInsertionSortLessFunc (regularFirst sym) d 0 d.length).1 :=
  partialInsertionLoop_separated sym d.length 5 (0 + 1) d rfl (by omega) (by omega)
    (fun x y hxy hy _ => by omega) h

theorem partitionLoop_flags {α : Type} (sym : α → Bool) (a b fuel : Nat) (d : List α)
    (i jn : Nat) (hi1 : a + 1 ≤ i) (hij : i ≤ jn) (hj2 : jn ≤ b) (hb : b ≤ d.length)
    (hfuel : jn - i ≤ fuel)
    (hlow : ∀ k, a < k → k < i → flagAt sym d k = some false)
    (hhigh : ∀ k, jn ≤ k → k < b → flagAt sym d k = some true) :
    (∀ k, a < k → k < (partitionLoop (regularFirst sym) a fuel d i jn).2 →
      flagAt sym (partitionLoop (regularFirst sym) a fuel d i jn).1 k = some false) ∧
    (∀ k, (partitionLoop (regularFirst sym) a fuel d i jn).2 ≤ k → k < b →
      flagAt sym (partitionLoop (regularFirst sym) a fuel d i jn).1 k = some true) := by
  induction fuel generalizing d i jn with
  | zero =>
    have : jn = i := by omega
    subst this
    exact ⟨hlow, hhigh⟩
  | succ fuel ih =>
    rw [partitionLoop]
    have hs1 := scanLess_spec (regularFirst sym) d a (jn - i) i
    generalize scanLess (regularFirst sym) d a (jn - i) i = i1 at hs1 ⊢
    have hs2 := scanNotLess_spec (regularFirst sym) d a i1 (jn - i1)
    generalize scanNotLess (regularFirst sym) d a i1 (jn - i1) = jn1 at hs2 ⊢
    obtain ⟨hs11, hs12, hs13, hs14⟩ := hs1
    obtain ⟨hs21, hs22, hs23, hs24⟩ := hs2
    have low1 : ∀ k, a < k → k < i1 → flagAt sym d k = some false := by
      intro k hk1 hk2
      by_cases hki : k < i
      · exact hlow k hk1 hki
      · exact ((lessAt_regularFirst sym d k a).mp (hs13 k (by omega) hk2)).1
    have high1 : ∀ k, jn1 ≤ k → k < b → flagAt sym d k = some true := by
      intro k hk1 hk2
      by_cases hkj : jn ≤ k
      · exact hhigh k hkj hk2
      · exact lessAt_false_flag sym d k a (by omega) (by omega) (hs23 k hk1 (by omega))
    split
    · exact ⟨fun k hk1 hk2 => low1 k hk1 (by dsimp only at hk2; omega),
        fun k hk1 hk2 => high1 k (by dsimp only at hk1; omega) hk2⟩
    · rename_i hlt
      have hsym : flagAt sym d i1 = some true := by
        rcases hs14 with h | h
        · omega
        · exact lessAt_false_flag sym d i1 a (by omega) (by omega) h
      have hreg : flagAt sym d (jn1 - 1) = some false := by
        rcases hs24 with h | h
        · omega
        · exact ((lessAt_regularFirst sym d (jn1 - 1) a).mp h).1
      have hne : i1 ≠ jn1 - 1 := by
        intro he
        rw [he, hreg] at hsym
        exact absurd hsym (by simp)
      have hfl := flagAt_swapAt sym d i1 (jn1 - 1)
      refine ih (swapAt d i1 (jn1 - 1)) (i1 + 1) (jn1 - 1) (by omega) (by omega) (by omega)
        (by rw [swapAt_length]; exact hb) (by omega) ?_ ?_
      · intro k hk1 hk2
        rw [hfl k (by omega) (by omega), if_neg (by omega)]
        split
        · exact hreg
        · exact low1 k hk1 (by omega)
      · intro k hk1 hk2
        rw [hfl k (by omega) (by omega)]
        split
        · exact hsym
        · rw [if_neg (by omega)]
          exact high1 k (by omega) hk2

theorem partition_final {α : Type} (sym : α → Bool) (a b jn : Nat) (d : List α)
    (hj1 : a + 1 ≤ jn) (hj2 : jn ≤ b) (hb : b ≤ d.length)
    (hlow : ∀ k, a < k → k < jn → flagAt sym d k = some false)
    (hhigh : ∀ k, jn ≤ k → k < b → flagAt sym d k = some true) :
    (∀ k, a ≤ k → k < jn - 1 → flagAt sym (swapAt d (jn - 1) a) k = some false) ∧
    (∀ k, jn - 1 < k → k < b → flagAt sym (swapAt d (jn - 1) a) k = some true) := by
  have hfl := flagAt_swapAt sym d (jn - 1) a
  constructor
  · intro k hk1 hk2
    rw [hfl k (by omega) (by omega)]
    split
    · exact hlow (jn - 1) (by omega) (by omega)
    · rw [if_neg (by omega)]
      exact hlow k (by omega) (by omega)
  · intro k hk1 hk2
    rw [hfl k (by omega) (by omega), if_neg (by omega), if_neg (by omega)]
    exact hhigh k (by omega) hk2

/-- After `partitionLessFunc` the elements before the pivot are regular files
and the elements after it are symlinks, whatever the pivot. -/
theorem partition_flags {α : Type} (sym : α → Bool) (a b pivot : Nat) (d : List α)
    (hab : a < b) (hb : b ≤ d.length) :
    (∀ k, a ≤ k → k < (partitionLessFunc (regularFirst sym) d a b pivot).2.1 →
      flagAt sym (partitionLessFunc (regularFirst sym) d a b pivot).1 k = some false) ∧
    (∀ k, (partitionLessFunc (regularFirst sym) d a b pivot).2.1 < k → k < b →
      flagAt sym (partitionLessFunc (regularFirst sym) d a b pivot).1 k = some true) := by
  unfold partitionLessFunc
  dsimp only
  have hb0 : b ≤ (swapAt d a pivot).length := by rw [swapAt_length]; exact hb
  generalize swapAt d a pivot = d0 at hb0 ⊢
  have hs1 := scanLess_spec (regularFirst sym) d0 a (b - (a + 1)) (a + 1)
  generalize scanLess (regularFirst sym) d0 a (b - (a + 1)) (a + 1) = i1 at hs1 ⊢
  have hs2 := scanNotLess_spec (regularFirst sym) d0 a i1 (b - i1)
  generalize scanNotLess (regularFirst sym) d0 a i1 (b - i1) = jn1 at hs2 ⊢
  obtain ⟨hs11, hs12, hs13, hs14⟩ := hs1
  obtain ⟨hs21, hs22, hs23, hs24⟩ := hs2
  have low1 : ∀ k, a < k → k < i1 → flagAt sym d0 k = some false := by
    intro k hk1 hk2
    exact ((lessAt_regularFirst sym d0 k a).mp (hs13 k (by omega) hk2)).1
  have high1 : ∀ k, jn1 ≤ k → k < b → flagAt sym d0 k = some true := by
    intro k hk1 hk2
    exact lessAt_false_flag sym d0 k a (by omega) (by omega) (hs23 k hk1 (by omega))
  split
  · dsimp only
    exact partition_final sym a b jn1 d0 (by omega) (by omega) hb0
      (fun k hk1 hk2 => low1 k hk1 (by omega)) high1
  · rename_i hlt
    have hsym : flagAt sym d0 i1 = some true := by
      rcases hs14 with h | h
      · omega
      · exact lessAt_false_flag sym d0 i1 a (by omega) (by omega) h
    have hreg : flagAt sym d0 (jn1 - 1) = some false := by
      rcases hs24 with h | h
      · omega
      · exact ((lessAt_regularFirst sym d0 (jn1 - 1) a).mp h).1
    have hne : i1 ≠ jn1 - 1 := by
      intro he
      rw [he, hreg] at hsym
      exact absurd hsym (by simp)
    have hfl := flagAt_swapAt sym d0 i1 (jn1 - 1)
    have hb1 : b ≤ (swapAt d0 i1 (jn1 - 1)).length := by rw [swapAt_length]; exact hb0
    have hloop := partitionLoop_flags sym a b (jn1 - 1 - (i1 + 1)) (swapAt d0 i1 (jn1 - 1))
      (i1 + 1) (jn1 - 1) (by omega) (by omega) (by omega) hb1 (Nat.le_refl _)
      (by
        intro k hk1 hk2
        rw [hfl k (by omega) (by omega), if_neg (by omega)]
        split
        · exact hreg
        · exact low1 k hk1 (by omega))
      (by
        intro k hk1 hk2
        rw [hfl k (by omega) (by omega)]
        split
        · exact hsym
        · rw [if_neg (by omega)]
          exact high1 k (by omega) hk2)
    obtain ⟨hw1, hw2, hw3⟩ := partitionLoop_swaps (regularFirst sym) a b (jn1 - 1 - (i1 + 1))
      (swapAt d0 i1 (jn1 - 1)) (i1 + 1) (jn1 - 1) (by omega) (by omega) (by omega) (by omega)
    have hb2 := swaps_length hw1
    generalize partitionLoop (regularFirst sym) a (jn1 - 1 - (i1 + 1)) (swapAt d0 i1 (jn1 - 1))
      (i1 + 1) (jn1 - 1) = r at hloop hw2 hw3 hb2 ⊢
    dsimp only
    exact partition_final sym a b r.2 r.1 hw2 hw3 (by rw [hb2]; exact hb1) hloop.1 hloop.2

theorem pdqsortSetup_separated {α : Type} (sym : α → Bool) (random : Nat → Nat → Nat)
    (d : List α) (hlen : 12 < d.length) :
    (pdqsortSetup (regularFirst sym) random d 0 d.length true true).2.2 = true →
    Separated sym (pdqsortSetup (regularFirst sym) random d 0 d.length true true).1 := by
  unfold pdqsortSetup
  dsimp only
  rw [if_pos rfl]
  generalize choosePivotLessFunc (regularFirst sym) d 0 d.length = chosen
  have hd2 : (if chosen.2 = SortedHint.decreasingHint then reverseRangeLessFunc d 0 d.length
      else d).length = d.length := by
    split
    · exact swaps_length (reverseRange_swaps (regularFirst sym) 0 d.length d)
    · rfl
  generalize (if chosen.2 = SortedHint.decreasingHint then reverseRangeLessFunc d 0 d.length
      else d) = d2 at hd2 ⊢
  have h3 : ∀ (c : Prop) [Decidable c],
      (if c then partialInsertionSortLessFunc (regularFirst sym) d2 0 d.length
        else (d2, false)).2 = true →
      Separated sym (if c then partialInsertionSortLessFunc (regularFirst sym) d2 0 d.length
        else (d2, false)).1 := by
    intro c _
    split
    · rw [← hd2]
      exact partialInsertionSort_separated sym d2 (by omega)
    · intro h
      simp at h
  exact h3 _

theorem partition_separated {α : Type} (sym : α → Bool) (pivot : Nat) (d : List α)
    (hlen : 0 < d.length) (hp : pivot < d.length) :
    Separated sym (partitionLessFunc (regularFirst sym) d 0 d.length pivot).1 ∧
    Uniform sym (partitionLessFunc (regularFirst sym) d 0 d.length pivot).1 0
      (partitionLessFunc (regularFirst sym) d 0 d.length pivot).2.1 ∧
    Uniform sym (partitionLessFunc (regularFirst sym) d 0 d.length pivot).1
      ((partitionLessFunc (regularFirst sym) d 0 d.length pivot).2.1 + 1) d.length := by
  obtain ⟨h1, h2⟩ := partition_flags sym 0 d.length pivot d hlen (Nat.le_refl _)
  have hl := swaps_length
    (partition_swaps (regularFirst sym) 0 d.length pivot d hlen (Nat.zero_le _) hp).1
  refine ⟨?_, ⟨false, h1⟩, ⟨true, fun k hk1 hk2 => h2 k (by omega) hk2⟩⟩
  intro x y hxy hfy
  by_cases hy : (partitionLessFunc (regularFirst sym) d 0 d.length pivot).2.1 < y
  · have hyl := flagAt_lt sym _ y _ hfy
    rw [hl] at hyl
    rw [h2 y hy hyl] at hfy
    exact absurd hfy (by simp)
  · exact h1 x (Nat.zero_le _) (by omega)

/-- The call of `pdqsortLessFunc` on the whole slice, as `sort.Slice` makes it,
returns a permutation with the regular files first: short slices by insertion
sort; longer ones by the first partitioning (or at once, when
`partialInsertionSortLessFunc` succeeds), after which every part of the slice
that is sorted further holds elements of one kind only. -/
theorem pdqsort_separated {α : Type} (sym : α → Bool) (random : Nat → Nat → Nat) (fuel : Nat)
    (d : List α) (limit : Nat) (hfuel : d.length ≤ fuel) (hlimit : 12 < d.length → limit ≠ 0) :
    ∃ d1, pdqsortLessFunc (regularFirst sym) random fuel d 0 d.length limit true true = some d1 ∧
      Separated sym d1 ∧ d1.Perm d := by
  cases fuel with
  | zero =>
    rw [pdqsortLessFunc, if_pos (by omega)]
    exact ⟨_, rfl, insertionSort_separated sym d,
      swaps_perm (insertionSort_swaps (regularFirst sym) 0 d.length 0 d.length d)⟩
  | succ fuel =>
    rw [pdqsortLessFunc]
    split
    · exact ⟨_, rfl, insertionSort_separated sym d,
        swaps_perm (insertionSort_swaps (regularFirst sym) 0 d.length 0 d.length d)⟩
    · rename_i hlen
      rw [if_neg (hlimit (by omega))]
      dsimp only
      obtain ⟨hs1, hs2, hs3⟩ :=
        pdqsortSetup_swaps (regularFirst sym) random d 0 d.length true true (by omega)
      have hs4 := pdqsortSetup_separated sym random d (by omega)
      have hs5 := swaps_length hs1
      generalize pdqsortSetup (regularFirst sym) random d 0 d.length true true = s
        at hs1 hs2 hs3 hs4 hs5 ⊢
      generalize (if true = true then limit else limit - 1) = limit1
      split
      · rename_i hsorted
        exact ⟨_, rfl, hs4 hsorted, swaps_perm hs1⟩
      · rw [if_neg (fun h => absurd h.1 (by omega))]
        obtain ⟨hr1, hr2, hr3⟩ :=
          partition_swaps (regularFirst sym) 0 d.length s.2.1 s.1 (by omega) hs2 hs3
        have hp := partition_separated sym s.2.1 s.1 (by omega) (by omega)
        rw [hs5] at hp
        generalize partitionLessFunc (regularFirst sym) s.1 0 d.length s.2.1 = r
          at hr1 hr2 hr3 hp ⊢
        obtain ⟨hsep, huniL, huniR⟩ := hp
        split
        · obtain ⟨d1, hd1, hsw1⟩ := pdqsort_swaps (regularFirst sym) random fuel r.1 0 r.2.1
            limit1 true true (by omega)
          rw [hd1]
          dsimp only
          have hf1 := swaps_flags sym 0 r.2.1 hsw1 hsep huniL
          obtain ⟨d2, hd2, hsw2⟩ := pdqsort_swaps (regularFirst sym) random fuel d1 (r.2.1 + 1)
            d.length limit1 (decide (r.2.1 - 0 ≥ (d.length - 0) / 8)) r.2.2 (by omega)
          have hf2 := swaps_flags sym (r.2.1 + 1) d.length hsw2
            (separated_of_flags sym hf1 hsep) (uniform_of_flags sym _ _ hf1 huniR)
          exact ⟨d2, hd2, separated_of_flags sym (hf2.trans hf1) hsep,
            (swaps_perm hsw2).trans ((swaps_perm hsw1).trans
              ((swaps_perm hr1).trans (swaps_perm hs1)))⟩
        · obtain ⟨d1, hd1, hsw1⟩ := pdqsort_swaps (regularFirst sym) random fuel r.1
            (r.2.1 + 1) d.length limit1 true true (by omega)
          rw [hd1]
          dsimp only
          have hf1 := swaps_flags sym (r.2.1 + 1) d.length hsw1 hsep huniR
          obtain ⟨d2, hd2, hsw2⟩ := pdqsort_swaps (regularFirst sym) random fuel d1 0 r.2.1
            limit1 (decide (d.length - r.2.1 ≥ (d.length - 0) / 8)) r.2.2 (by omega)
          have hf2 := swaps_flags sym 0 r.2.1 hsw2
            (separated_of_flags sym hf1 hsep) (uniform_of_flags sym _ _ hf1 huniL)
          exact ⟨d2, hd2, separated_of_flags sym (hf2.trans hf1) hsep,
            (swaps_perm hsw2).trans ((swaps_perm hsw1).trans
              ((swaps_perm hr1).trans (swaps_perm hs1)))⟩

theorem sortSlice_separated {α : Type} (sym : α → Bool) (random : Nat → Nat → Nat)
    (d : List α) :
    ∃ d1, sortSlice (regularFirst sym) random d = some d1 ∧ Separated sym d1 ∧ d1.Perm d :=
  pdqsort_separated sym random d.length d (bitsLen d.length) (Nat.le_refl _)
    (fun h => bitsLen_pos d.length (by omega))

theorem sortRuntimeDeps_samples :
    sortRuntimeDeps (fun dep => decide (dep.data.head? = some 's')) (fun _ _ => 0)
        ["s1", "r1", "s2", "r2"] = some ["r2", "r1", "s1", "s2"] ∧
    sortRuntimeDeps (fun dep => decide (dep.data.head? = some 's')) (fun _ i => i)
        ["s1", "r1", "s2", "r2", "s3", "r3", "s4", "r4", "s5", "r5", "s6", "r6", "s7", "r7"] =
      some ["r3", "r5", "r6", "r7", "r1", "r4", "r2", "s4", "s5", "s3", "s6", "s1", "s7",
        "s2"] := by
  decide

/-! ## `copyArtifactsToTempdir` -/

theorem cleanForm_of_clean (goos : String) (x : String)
    (hclean : filepathClean goos x = x) (hstack : pathStack goos x ≠ []) :
    CleanForm goos x (pathRooted goos x) (pathStack goos x) := by
  have hinv := stackInv_pathStack goos x
  refine ⟨hinv, hstack, ?_⟩
  have hne := renderPath_ne_nil hinv hstack
  rw [filepathClean_eq, if_neg hne] at hclean
  exact (congrArg String.data hclean).symm

theorem relocateDeps_ok (h : Host) (c : CopyHost) (buildDir tempDir : String)
    (hclean : filepathClean h.goos tempDir = tempDir) (hstack : pathStack h.goos tempDir ≠ [])
    (deps out : List String) (hok : relocateDeps h c buildDir tempDir deps = (out, none)) :
    List.Forall₂ (Relocated h buildDir tempDir) deps out := by
  induction deps generalizing out with
  | nil =>
    simp only [relocateDeps, Prod.mk.injEq] at hok
    rw [← hok.1]
    exact List.Forall₂.nil
  | cons dep rest ih =>
    rw [relocateDeps] at hok
    cases hb : h.isBelow dep buildDir with
    | error e => rw [hb] at hok; simp at hok
    | ok below =>
      rw [hb] at hok
      dsimp only at hok
      cases hrel : filepathRel h.goos (if below = true then buildDir else "/") dep with
      | error e => rw [hrel] at hok; simp at hok
      | ok rel =>
        rw [hrel] at hok
        dsimp only at hok
        cases hev : c.evalSymlinks dep with
        | error e => rw [hev] at hok; simp at hok
        | ok resolved =>
          rw [hev] at hok
          dsimp only at hok
          cases hcp : c.copy resolved (filepathJoin h.goos [tempDir, rel]) with
          | some e => rw [hcp] at hok; simp at hok
          | none =>
            rw [hcp] at hok
            simp only [Prod.mk.injEq] at hok
            obtain ⟨h1, h2⟩ := hok
            rw [← h1]
            refine List.Forall₂.cons ⟨below, rel, hb, hrel, rfl, fun hplain => ?_⟩
              (ih _ (Prod.ext rfl h2))
            exact isBelowDir_join (cleanForm_of_clean h.goos tempDir hclean hstack) rel hplain

theorem relocateExecutable_fields (h : Host) (c : CopyHost) (buildResult moved : CBuildResult)
    (tempDir : String) (hok : relocateExecutable h c buildResult tempDir = .ok moved) :
    moved.RuntimeDeps = buildResult.RuntimeDeps ∧ moved.BuildDir = buildResult.BuildDir := by
  unfold relocateExecutable at hok
  split at hok
  · simp at hok
  · simp only [Except.ok.injEq] at hok
    rw [← hok]
    exact ⟨rfl, rfl⟩
  · split at hok
    · simp at hok
    · dsimp only at hok
      split at hok
      · simp at hok
      · simp only [Except.ok.injEq] at hok
        rw [← hok]
        exact ⟨rfl, rfl⟩

/-- C27, counterexample: the library `/usr/lib/libBLAS.so` is not below the
build directory `/p/build`, and `assembleArtifacts` takes it for an uncommon
system library; `copyArtifactsToTempdir` rewrites it to a path below the
rewritten build directory, where `assembleArtifacts` takes it for an in-tree
dependency. -/
theorem system_library_moves_below :
    copyArtifactsToTempdir sampleHost sampleCopyHost
        (sampleBuild "foo" ["address"] ["/usr/lib/libBLAS.so"]) "/tmp/b/foo" =
      ({ sampleBuild "foo" ["address"] ["/tmp/b/foo/usr/lib/libBLAS.so"] with
          Executable := "/tmp/b/foo/foo", BuildDir := "/tmp/b/foo" }, none) ∧
    sampleHost.isBelow "/usr/lib/libBLAS.so" "/p/build" = .ok false ∧
    sampleHost.isBelow "/tmp/b/foo/usr/lib/libBLAS.so" "/tmp/b/foo" = .ok true ∧
    inCategory sampleHost "/p/build" "/usr/lib/libBLAS.so" .uncommonSystem ∧
    inCategory sampleHost "/tmp/b/foo" "/tmp/b/foo/usr/lib/libBLAS.so" .inTree := by
  decide

/-- C27, amended: when `copyArtifactsToTempdir` succeeds for a clean `tempDir`
other than the root, the build directory of the result is `tempDir`, and the
runtime dependencies of the result are those of the argument, reordered and
each rewritten to `tempDir` joined with its path relative to the build
directory (when it was below it) or to the root (when it was not); a
dependency whose relative path consists of plain names is below the
rewritten build directory afterwards, whether it was below the build
directory before or not. -/
theorem relocated_deps_below_tempdir (h : Host) (c : CopyHost) (buildResult : CBuildResult)
    (tempDir : String) (out : CBuildResult)
    (hclean : filepathClean h.goos tempDir = tempDir) (hstack : pathStack h.goos tempDir ≠ [])
    (hok : copyArtifactsToTempdir h c buildResult tempDir = (out, none)) :
    out.BuildDir = tempDir ∧
    ∃ sorted, sorted.Perm buildResult.RuntimeDeps ∧
      List.Forall₂ (Relocated h buildResult.BuildDir tempDir) sorted out.RuntimeDeps := by
  unfold copyArtifactsToTempdir at hok
  cases hex : relocateExecutable h c buildResult tempDir with
  | error e => rw [hex] at hok; simp at hok
  | ok moved =>
    rw [hex] at hok
    dsimp only at hok
    obtain ⟨hdeps, hdir⟩ := relocateExecutable_fields h c buildResult moved tempDir hex
    obtain ⟨sorted, hsort, -, hperm⟩ :=
      sortSlice_separated c.isSymlink c.random moved.RuntimeDeps
    have hsort2 : sortRuntimeDeps c.isSymlink c.random moved.RuntimeDeps = some sorted := hsort
    rw [hsort2] at hok
    dsimp only at hok
    cases hr : relocateDeps h c moved.BuildDir tempDir sorted with
    | mk new err =>
      rw [hr] at hok
      cases err with
      | some e => simp at hok
      | none =>
        simp only [Prod.mk.injEq, and_true] at hok
        rw [← hok]
        refine ⟨rfl, sorted, ?_, ?_⟩
        · rw [← hdeps]
          exact hperm
        · rw [← hdir]
          exact relocateDeps_ok h c moved.BuildDir tempDir hclean hstack sorted new hr

theorem relocated_deps_below_tempdir_witness :
    filepathClean sampleHost.goos "/tmp/b/foo" = "/tmp/b/foo" ∧
    pathStack sampleHost.goos "/tmp/b/foo" ≠ [] ∧
    copyArtifactsToTempdir sampleHost sampleCopyHost
        (sampleBuild "foo" ["address"] ["/usr/lib/libBLAS.so", "/p/build/lib/libfoo.so"])
        "/tmp/b/foo" =
      ({ sampleBuild "foo" ["address"]
            ["/tmp/b/foo/lib/libfoo.so", "/tmp/b/foo/usr/lib/libBLAS.so"] with
          Executable := "/tmp/b/foo/foo", BuildDir := "/tmp/b/foo" }, none) ∧
    ∃ sorted, sorted.Perm ["/usr/lib/libBLAS.so", "/p/build/lib/libfoo.so"] ∧
      List.Forall₂ (Relocated sampleHost "/p/build" "/tmp/b/foo") sorted
        ["/tmp/b/foo/lib/libfoo.so", "/tmp/b/foo/usr/lib/libBLAS.so"] :=
  ⟨by decide, by decide, by decide,
    (relocated_deps_below_tempdir sampleHost sampleCopyHost
      (sampleBuild "foo" ["address"] ["/usr/lib/libBLAS.so", "/p/build/lib/libfoo.so"])
      "/tmp/b/foo"
      { sampleBuild "foo" ["address"]
            ["/tmp/b/foo/lib/libfoo.so", "/tmp/b/foo/usr/lib/libBLAS.so"] with
          Executable := "/tmp/b/foo/foo", BuildDir := "/tmp/b/foo" }
      (by decide) (by decide) (by decide)).2⟩

end Cifuzz
